import Mathlib

/-!
# Connect-Four engine (`src/script.js`)

A shallow embedding of the board game in `src/script.js`: the three module
variables `board`, `currentPlayer`, `gameOver` become a `State`, every
function that touches them becomes a function on `State`, and each call to a
DOM helper (`updateCell`, `showWinner`, ...) is recorded as an `Effect`.

Row and column indices are JavaScript numbers and may leave the grid (the
loop of `getAvailableRow` ends at `-1`, `checkDirection` walks off the
board), so they are `Int`.  The `while` loops of `checkDirection` do not
terminate for the direction `(0, 0)`, so they take a fuel argument and
return `none` when it runs out.
-/

namespace ConnectFour

/-! ## Constants (script.js 1-5) -/

def ROWS : Nat := 6
def COLS : Nat := 7
def EMPTY : Nat := 0
def PLAYER1 : Nat := 1
def PLAYER2 : Nat := 2

/-! ## Data model (script.js 7-9) -/

/-- The `board` variable: an array of rows, each an array of cell values. -/
abbrev Board := List (List Nat)

/-- The module variables `board`, `currentPlayer`, `gameOver`. -/
structure State where
  board : Board
  currentPlayer : Nat
  gameOver : Bool
deriving DecidableEq

/-- Calls to the DOM helpers of script.js, with the values they read. -/
inductive Effect where
  | updateCell (row col : Int) (player : Nat)
  | showWinner (player : Nat)
  | createFireworks
  | showDraw
  | updatePlayerIndicator (player : Nat)
  | createBoardElement
  | hideWinnerMessage
  | clearFireParticles
deriving DecidableEq

/-- The read `board[r][c]`.  `none` stands for a read outside the arrays:
JavaScript's `undefined` when the row exists and the column does not, a
`TypeError` when the row does not exist.  On a 6x7 board every cell of the grid
reads `some v` (`cell_of_isBoard`). -/
def cell (board : Board) (r c : Int) : Option Nat :=
  if 0 ≤ r ∧ 0 ≤ c then
    (board[r.toNat]?).bind (fun cells => cells[c.toNat]?)
  else none

/-- The write `board[row][col] = v`.  `handleCellClick` writes only where
`getAvailableRow` has just read `EMPTY`, a cell inside the arrays; a write
outside them (where JavaScript would grow the array) is not modelled and
leaves the board as it is. -/
def setCell (board : Board) (row col : Int) (v : Nat) : Board :=
  if 0 ≤ row ∧ 0 ≤ col then
    board.set row.toNat ((board.getD row.toNat []).set col.toNat v)
  else board

/-- The function `initializeBoard` (script.js 11-19): `ROWS` rows of `COLS`
cells, each `EMPTY`. -/
def initializeBoard : Board :=
  (List.range ROWS).map (fun _ => (List.range COLS).map (fun _ => EMPTY))

/-- The loop of `getAvailableRow`, with `n = r + 1` for the loop variable `r`:
`n` counts the rows still to inspect, and `0` means `r` reached `-1`. -/
def getAvailableRowFrom (board : Board) (col : Int) : Nat → Int
  | 0 => -1
  | n + 1 =>
    if cell board (n : Int) col = some EMPTY then (n : Int)
    else getAvailableRowFrom board col n

/-- The function `getAvailableRow` (script.js 65-72). -/
def getAvailableRow (board : Board) (col : Int) : Int :=
  getAvailableRowFrom board col ROWS

/-- One `while` loop of `checkDirection` (script.js 99-103 with `(dr, dc)` the
deltas, 108-112 with `(dr, dc)` their negations).  `none`: out of fuel. -/
def countLoop (board : Board) (player : Option Nat) (dr dc : Int) :
    Nat → Int → Int → Nat → Option Nat
  | 0, _, _, _ => none
  | fuel + 1, r, c, count =>
    if r ≥ 0 ∧ r < ROWS ∧ c ≥ 0 ∧ c < COLS ∧ cell board r c = player then
      countLoop board player dr dc fuel (r + dr) (c + dc) (count + 1)
    else some count

/-- The function `checkDirection` (script.js 92-115). -/
def checkDirection (fuel : Nat) (board : Board) (row col deltaRow deltaCol : Int) :
    Option Bool :=
  let player := cell board row col
  match countLoop board player deltaRow deltaCol fuel
      (row + deltaRow) (col + deltaCol) 1 with
  | none => none
  | some count =>
    match countLoop board player (-deltaRow) (-deltaCol) fuel
        (row - deltaRow) (col - deltaCol) count with
    | none => none
    | some count => some (decide (count ≥ 4))

/-- JavaScript's `a || b` on results that may fail to arrive: `b` is evaluated
only when `a` is `false`. -/
def lazyOr (a b : Option Bool) : Option Bool :=
  match a with
  | none => none
  | some true => some true
  | some false => b

/-- The function `checkWin` (script.js 85-90). -/
def checkWin (fuel : Nat) (board : Board) (row col : Int) : Option Bool :=
  lazyOr (checkDirection fuel board row col 0 1)
    (lazyOr (checkDirection fuel board row col 1 0)
      (lazyOr (checkDirection fuel board row col 1 1)
        (checkDirection fuel board row col 1 (-1))))

/-- The loop of `checkDraw`, with `c = COLS - n` the loop variable. -/
def checkDrawFrom (board : Board) : Nat → Bool
  | 0 => true
  | n + 1 =>
    if cell board 0 ((COLS : Int) - ((n : Int) + 1)) = some EMPTY then false
    else checkDrawFrom board n

/-- The function `checkDraw` (script.js 117-124). -/
def checkDraw (board : Board) : Bool :=
  checkDrawFrom board COLS

/-- The function `handleCellClick` (script.js 37-63), on the column `col` of
the clicked cell.  The result is the state after the call and the DOM helpers
it called, in order; `none` when `checkWin` ran out of fuel. -/
def handleCellClick (fuel : Nat) (s : State) (col : Int) :
    Option (State × List Effect) :=
  if s.gameOver then some (s, [])
  else
    let row := getAvailableRow s.board col
    if row = -1 then some (s, [])
    else
      let board := setCell s.board row col s.currentPlayer
      match checkWin fuel board row col with
      | none => none
      | some true =>
        some ({ board := board, currentPlayer := s.currentPlayer, gameOver := true },
          [Effect.updateCell row col s.currentPlayer,
           Effect.showWinner s.currentPlayer, Effect.createFireworks])
      | some false =>
        if checkDraw board then
          some ({ board := board, currentPlayer := s.currentPlayer, gameOver := true },
            [Effect.updateCell row col s.currentPlayer, Effect.showDraw])
        else
          let next := if s.currentPlayer = PLAYER1 then PLAYER2 else PLAYER1
          some ({ board := board, currentPlayer := next, gameOver := s.gameOver },
            [Effect.updateCell row col s.currentPlayer,
             Effect.updatePlayerIndicator next])

/-- The function `resetGame` (script.js 161-169). -/
def resetGame (_s : State) : State × List Effect :=
  ({ board := initializeBoard, currentPlayer := PLAYER1, gameOver := false },
    [Effect.createBoardElement, Effect.updatePlayerIndicator PLAYER1,
     Effect.hideWinnerMessage, Effect.clearFireParticles])

/-- A sequence of `handleCellClick` calls, one per column of the list. -/
def clicks (fuel : Nat) : State → List Int → Option State
  | s, [] => some s
  | s, col :: cols =>
    match handleCellClick fuel s col with
    | none => none
    | some (s', _) => clicks fuel s' cols

/-! ## Predicates used by the statements -/

/-- A board of `ROWS` rows, each of `COLS` cells. -/
def IsBoard (board : Board) : Prop :=
  board.length = ROWS ∧ ∀ cells ∈ board, cells.length = COLS

instance (board : Board) : Decidable (IsBoard board) := by
  unfold IsBoard; infer_instance

/-- The cell `(r, c)` lies inside the grid: the bounds test of
`checkDirection`. -/
def inGrid (r c : Int) : Prop :=
  r ≥ 0 ∧ r < ROWS ∧ c ≥ 0 ∧ c < COLS

instance (r c : Int) : Decidable (inGrid r c) := by
  unfold inGrid; infer_instance

/-- The condition of the `while` loops of `checkDirection` at the cell
`(r, c)`: inside the grid and equal to `player`. -/
def matchesAt (board : Board) (player : Option Nat) (r c : Int) : Prop :=
  inGrid r c ∧ cell board r c = player

instance (board : Board) (player : Option Nat) (r c : Int) :
    Decidable (matchesAt board player r c) := by
  unfold matchesAt; infer_instance

/-- Four consecutive cells in the direction `(dr, dc)`, one of them (the
`j`-th) being `(row, col)`, all inside the grid and all holding `p`. -/
def FourAlong (board : Board) (row col dr dc : Int) (p : Nat) : Prop :=
  ∃ j : Nat, j < 4 ∧ ∀ i : Nat, i < 4 →
    matchesAt board (some p) (row + ((i : Int) - (j : Int)) * dr)
      (col + ((i : Int) - (j : Int)) * dc)

instance (board : Board) (row col dr dc : Int) (p : Nat) :
    Decidable (FourAlong board row col dr dc p) := by
  unfold FourAlong; infer_instance

/-- Four-in-a-row through `(row, col)`: four consecutive cells of the grid
along a row, a column or one of the two diagonals that include `(row, col)`
and all hold `p`. -/
def FourThrough (board : Board) (row col : Int) (p : Nat) : Prop :=
  FourAlong board row col 0 1 p ∨ FourAlong board row col 1 0 p ∨
    FourAlong board row col 1 1 p ∨ FourAlong board row col 1 (-1) p

instance (board : Board) (row col : Int) (p : Nat) :
    Decidable (FourThrough board row col p) := by
  unfold FourThrough; infer_instance

/-- The cell `(r, c)` holds a disc: a value other than `EMPTY`. -/
def Occupied (board : Board) (r c : Int) : Prop :=
  match cell board r c with
  | some v => v ≠ EMPTY
  | none => False

instance (board : Board) (r c : Int) : Decidable (Occupied board r c) := by
  unfold Occupied; split <;> infer_instance

/-- Gravity: every column is filled bottom-up with no gaps: below a cell that
holds a disc, every cell of the column holds a disc. -/
def Gravity (board : Board) : Prop :=
  ∀ c : Nat, c < COLS → ∀ r : Nat, r < ROWS → ∀ r' : Nat, r' < ROWS → r < r' →
    Occupied board r c → Occupied board r' c

instance (board : Board) : Decidable (Gravity board) := by
  unfold Gravity; infer_instance

/-- The click on `col` in state `s` is accepted: the game is not over and the
column is not full (the two early returns of `handleCellClick` are not
taken). -/
def Accepted (s : State) (col : Int) : Prop :=
  s.gameOver = false ∧ getAvailableRow s.board col ≠ -1

instance (s : State) (col : Int) : Decidable (Accepted s col) := by
  unfold Accepted; infer_instance

/-- The number of accepted clicks in a sequence of `handleCellClick` calls
started in state `s`. -/
def acceptedClicks (fuel : Nat) : State → List Int → Nat
  | _, [] => 0
  | s, col :: cols =>
    match handleCellClick fuel s col with
    | none => 0
    | some (s', _) => (if Accepted s col then 1 else 0) + acceptedClicks fuel s' cols

/-- The cells of the grid, row by row. -/
def gridCells : List (Int × Int) :=
  (List.range ROWS).flatMap
    (fun r : Nat => (List.range COLS).map (fun c : Nat => ((r : Int), (c : Int))))

/-- The number of non-EMPTY cells on the board. -/
def discCount (board : Board) : Nat :=
  gridCells.countP (fun rc => decide (Occupied board rc.1 rc.2))

/-- The number of non-EMPTY cells in column `col` of the board. -/
def columnCount (board : Board) (col : Int) : Nat :=
  gridCells.countP (fun rc => decide (rc.2 = col ∧ Occupied board rc.1 rc.2))

/-- The number of accepted clicks on column `c` in a sequence of
`handleCellClick` calls started in state `s`. -/
def acceptedClicksOn (fuel : Nat) (c : Int) : State → List Int → Nat
  | _, [] => 0
  | s, col :: cols =>
    match handleCellClick fuel s col with
    | none => 0
    | some (s', _) =>
      (if Accepted s col ∧ col = c then 1 else 0) + acceptedClicksOn fuel c s' cols

/-- Every cell of the board holds one of `EMPTY`, `PLAYER1`, `PLAYER2`. -/
def ValidCells (board : Board) : Prop :=
  ∀ cells ∈ board, ∀ v ∈ cells, v = EMPTY ∨ v = PLAYER1 ∨ v = PLAYER2

instance (board : Board) : Decidable (ValidCells board) := by
  unfold ValidCells; infer_instance

/-- The cell `(r, c)` holds no disc that lies on four consecutive cells of a
row, column or diagonal holding its value. -/
def NoFourAt (board : Board) (r c : Int) : Prop :=
  match cell board r c with
  | some p => p = EMPTY ∨ ¬ FourThrough board r c p
  | none => True

instance (board : Board) (r c : Int) : Decidable (NoFourAt board r c) := by
  unfold NoFourAt; split <;> infer_instance

/-- The board holds no four-in-a-row, anywhere on the grid. -/
def NoFour (board : Board) : Prop :=
  ∀ rc ∈ gridCells, NoFourAt board rc.1 rc.2

instance (board : Board) : Decidable (NoFour board) := by
  unfold NoFour; infer_instance

/-- Every click of the sequence, started in state `s`, is accepted, and the
board it leaves holds no four-in-a-row. -/
def AcceptedNoFour (fuel : Nat) : State → List Int → Prop
  | _, [] => True
  | s, col :: cols =>
    Accepted s col ∧
      match handleCellClick fuel s col with
      | none => False
      | some (s', _) => NoFour s'.board ∧ AcceptedNoFour fuel s' cols

/-- `AcceptedNoFour` can be computed. -/
def decAcceptedNoFour (fuel : Nat) :
    (s : State) → (cols : List Int) → Decidable (AcceptedNoFour fuel s cols)
  | _, [] => isTrue trivial
  | s, col :: cols =>
    match h : handleCellClick fuel s col with
    | none => isFalse (fun hc => by simp only [AcceptedNoFour, h] at hc; exact hc.2)
    | some (s', e) =>
      match decAcceptedNoFour fuel s' cols with
      | isTrue hrest =>
        if hacc : Accepted s col ∧ NoFour s'.board then
          isTrue (by simp only [AcceptedNoFour, h]; exact ⟨hacc.1, hacc.2, hrest⟩)
        else
          isFalse (fun hc => by
            simp only [AcceptedNoFour, h] at hc; exact hacc ⟨hc.1, hc.2.1⟩)
      | isFalse hrest =>
        isFalse (fun hc => by simp only [AcceptedNoFour, h] at hc; exact hrest hc.2.2)

instance (fuel : Nat) (s : State) (cols : List Int) :
    Decidable (AcceptedNoFour fuel s cols) :=
  decAcceptedNoFour fuel s cols

/-- A game of 42 drops that fills the board without a four-in-a-row: the
columns are filled in pairs `a, b, b, a, a, b, b, a, ...`. -/
def drawColumns : List Int :=
  [0, 2, 2, 0, 0, 2, 2, 0, 0, 2, 2, 0,
   1, 3, 3, 1, 1, 3, 3, 1, 1, 3, 3, 1,
   4, 6, 6, 4, 4, 6, 6, 4, 4, 6, 6, 4,
   5, 5, 5, 5, 5, 5]

/-- The value of `count` when `checkDirection` reaches its `return`
(script.js 94-112); `checkDirection` returns `count >= 4`. -/
def directionCount (fuel : Nat) (board : Board) (row col deltaRow deltaCol : Int) :
    Option Nat :=
  let player := cell board row col
  match countLoop board player deltaRow deltaCol fuel
      (row + deltaRow) (col + deltaCol) 1 with
  | none => none
  | some count =>
    countLoop board player (-deltaRow) (-deltaCol) fuel
      (row - deltaRow) (col - deltaCol) count

/-- The terminal flag agrees with the board: while the game is on the board
holds no four-in-a-row and the top row has an EMPTY cell; once it is over the
board holds a four-in-a-row or the top row is full; and every four-in-a-row
on the board is made of discs of `currentPlayer`. -/
def Coherent (s : State) : Prop :=
  (s.gameOver = false → NoFour s.board ∧ checkDraw s.board = false) ∧
  (s.gameOver = true → ¬ NoFour s.board ∨ checkDraw s.board = true) ∧
  (∀ (r c : Int) (p : Nat), inGrid r c → p ≠ EMPTY → cell s.board r c = some p →
    FourThrough s.board r c p → p = s.currentPlayer)

/-- The number of cells of the grid that hold the value `v`. -/
def countValue (board : Board) (v : Nat) : Nat :=
  gridCells.countP (fun rc => decide (cell board rc.1 rc.2 = some v))

/-! ### The board reads of each function

The same functions once more, now returning next to their result the list of
indices `(r, c)` at which they read `board[r][c]`, in the order of the reads.
In the loop conditions of `checkDirection` the four bounds tests stand before
the read and `&&` evaluates its right operand only when the left one is true,
so the read happens only after the bounds tests passed. -/

/-- One `while` loop of `checkDirection` (script.js 99-103, 108-112) with its
reads. -/
def countLoopReads (board : Board) (player : Option Nat) (dr dc : Int) :
    Nat → Int → Int → Nat → Option (Nat × List (Int × Int))
  | 0, _, _, _ => none
  | fuel + 1, r, c, count =>
    if r ≥ 0 ∧ r < ROWS ∧ c ≥ 0 ∧ c < COLS then
      if cell board r c = player then
        match countLoopReads board player dr dc fuel (r + dr) (c + dc) (count + 1) with
        | none => none
        | some (m, reads) => some (m, (r, c) :: reads)
      else some (count, [(r, c)])
    else some (count, [])

/-- The function `checkDirection` (script.js 92-115) with its reads: first
`board[row][col]`, then those of the two loops. -/
def checkDirectionReads (fuel : Nat) (board : Board) (row col deltaRow deltaCol : Int) :
    Option (Bool × List (Int × Int)) :=
  let player := cell board row col
  match countLoopReads board player deltaRow deltaCol fuel
      (row + deltaRow) (col + deltaCol) 1 with
  | none => none
  | some (count, reads1) =>
    match countLoopReads board player (-deltaRow) (-deltaCol) fuel
        (row - deltaRow) (col - deltaCol) count with
    | none => none
    | some (count, reads2) => some (decide (count ≥ 4), (row, col) :: (reads1 ++ reads2))

/-- JavaScript's `a || b` with the reads of the operands: those of `b` are
performed only when `a` is `false`. -/
def lazyOrReads (a b : Option (Bool × List (Int × Int))) :
    Option (Bool × List (Int × Int)) :=
  match a with
  | none => none
  | some (true, reads) => some (true, reads)
  | some (false, reads) =>
    match b with
    | none => none
    | some (w, reads') => some (w, reads ++ reads')

/-- The function `checkWin` (script.js 85-90) with its reads. -/
def checkWinReads (fuel : Nat) (board : Board) (row col : Int) :
    Option (Bool × List (Int × Int)) :=
  lazyOrReads (checkDirectionReads fuel board row col 0 1)
    (lazyOrReads (checkDirectionReads fuel board row col 1 0)
      (lazyOrReads (checkDirectionReads fuel board row col 1 1)
        (checkDirectionReads fuel board row col 1 (-1))))

/-- The loop of `getAvailableRow` (script.js 66-70) with its reads; `n = r + 1`
as in `getAvailableRowFrom`. -/
def getAvailableRowReads (board : Board) (col : Int) : Nat → Int × List (Int × Int)
  | 0 => (-1, [])
  | n + 1 =>
    if cell board (n : Int) col = some EMPTY then ((n : Int), [((n : Int), col)])
    else
      ((getAvailableRowReads board col n).1,
        ((n : Int), col) :: (getAvailableRowReads board col n).2)

/-- The loop of `checkDraw` (script.js 118-122) with its reads; `c = COLS - n`
as in `checkDrawFrom`. -/
def checkDrawReads (board : Board) : Nat → Bool × List (Int × Int)
  | 0 => (true, [])
  | n + 1 =>
    if cell board 0 ((COLS : Int) - ((n : Int) + 1)) = some EMPTY then
      (false, [((0 : Int), (COLS : Int) - ((n : Int) + 1))])
    else
      ((checkDrawReads board n).1,
        ((0 : Int), (COLS : Int) - ((n : Int) + 1)) :: (checkDrawReads board n).2)

/-- A position used in the examples: player 1 has just completed the diagonal
`(5,0), (4,1), (3,2), (2,3)`. -/
def diagonalBoard : Board :=
  [[0, 0, 0, 0, 0, 0, 0],
   [0, 0, 0, 0, 0, 0, 0],
   [0, 0, 0, 1, 0, 0, 0],
   [0, 0, 1, 2, 0, 0, 0],
   [0, 1, 2, 2, 0, 0, 0],
   [1, 2, 2, 1, 1, 0, 0]]

/-- A position used in the examples: every cell but `(0, 3)` holds a disc, and
a disc of player 1 at `(0, 3)` completes four in the top row. -/
def lastCellBoard : Board :=
  [[2, 1, 1, 0, 1, 2, 2],
   [1, 2, 1, 2, 1, 2, 1],
   [1, 2, 1, 2, 1, 2, 1],
   [2, 1, 2, 1, 2, 1, 2],
   [2, 1, 2, 1, 2, 1, 2],
   [1, 2, 1, 2, 1, 2, 1]]

/-- A position used in the examples: column 0 is full, nobody has four in a
row, player 1 is to move. -/
def fullColumnBoard : Board :=
  [[2, 0, 0, 0, 0, 0, 0],
   [1, 0, 0, 0, 0, 0, 0],
   [2, 0, 0, 0, 0, 0, 0],
   [1, 0, 0, 0, 0, 0, 0],
   [2, 0, 0, 0, 0, 0, 0],
   [1, 0, 0, 0, 0, 0, 0]]

/-- A position used in the examples: every cell but `(0, 3)` holds a disc, and
a disc at `(0, 3)` completes no line of four. -/
def drawBoard : Board :=
  [[2, 1, 2, 0, 1, 2, 2],
   [1, 2, 1, 2, 1, 2, 1],
   [1, 2, 1, 2, 1, 2, 1],
   [2, 1, 2, 1, 2, 1, 2],
   [2, 1, 2, 1, 2, 1, 2],
   [1, 2, 1, 2, 1, 2, 1]]

/-- The board after the clicks on columns 0,1,0,1,0,1,0 from the reset
state. -/
def verticalBoard : Board :=
  [[0, 0, 0, 0, 0, 0, 0],
   [0, 0, 0, 0, 0, 0, 0],
   [1, 0, 0, 0, 0, 0, 0],
   [1, 2, 0, 0, 0, 0, 0],
   [1, 2, 0, 0, 0, 0, 0],
   [1, 2, 0, 0, 0, 0, 0]]

/-- The board at the end of the game `drawColumns`. -/
def drawFinalBoard : Board :=
  [[2, 2, 1, 1, 2, 2, 1],
   [1, 1, 2, 2, 1, 1, 2],
   [2, 2, 1, 1, 2, 2, 1],
   [1, 1, 2, 2, 1, 1, 2],
   [2, 2, 1, 1, 2, 2, 1],
   [1, 1, 2, 2, 1, 1, 2]]

/-! ## Reading and writing cells -/

theorem cell_of_isBoard {board : Board} (hb : IsBoard board) {r c : Int}
    (hg : inGrid r c) : ∃ v, cell board r c = some v := by
  obtain ⟨hlen, hrows⟩ := hb
  obtain ⟨hr0, hr1, hc0, hc1⟩ := hg
  have hr : r.toNat < board.length := by omega
  have hc : c.toNat < (board[r.toNat]).length := by
    rw [hrows _ (List.getElem_mem hr)]; omega
  refine ⟨(board[r.toNat])[c.toNat], ?_⟩
  simp [cell, hr0, hc0, List.getElem?_eq_getElem hr, List.getElem?_eq_getElem hc]

theorem cell_setCell_other (board : Board) (row col : Int) (v : Nat) (r c : Int)
    (h : r ≠ row ∨ c ≠ col) :
    cell (setCell board row col v) r c = cell board r c := by
  unfold setCell
  split
  · rename_i hrc
    unfold cell
    split
    · rename_i hrc2
      by_cases hr : r = row
      · subst hr
        have hc : col.toNat ≠ c.toNat := by omega
        by_cases hlt : r.toNat < board.length
        · simp [List.getElem?_set_self hlt, List.getElem?_eq_getElem hlt,
            List.getElem?_set_ne hc]
        · rw [List.set_eq_of_length_le (by omega)]
      · have hne : row.toNat ≠ r.toNat := by omega
        rw [List.getElem?_set_ne hne]
    · rfl
  · rfl

theorem cell_setCell_same (board : Board) (row col : Int) (v : Nat)
    (h : (cell board row col).isSome) :
    cell (setCell board row col v) row col = some v := by
  unfold cell at h
  split at h
  · rename_i hrc
    have hlt : row.toNat < board.length := by
      by_contra hcon
      rw [List.getElem?_eq_none (by omega)] at h
      simp at h
    rw [List.getElem?_eq_getElem hlt] at h
    simp only [Option.some_bind] at h
    have hlt2 : col.toNat < (board[row.toNat]).length := by
      by_contra hcon
      rw [List.getElem?_eq_none (by omega)] at h
      simp at h
    simp [cell, setCell, hrc, List.getElem?_set_self hlt, List.getElem?_eq_getElem hlt,
      List.getElem?_set_self hlt2]
  · simp at h

theorem isBoard_setCell {board : Board} (hb : IsBoard board) (row col : Int) (v : Nat) :
    IsBoard (setCell board row col v) := by
  obtain ⟨hlen, hrows⟩ := hb
  unfold setCell
  split
  · refine ⟨by simpa using hlen, ?_⟩
    intro cells hmem
    rcases List.mem_or_eq_of_mem_set hmem with h | h
    · exact hrows _ h
    · subst h
      rw [List.length_set]
      by_cases hlt : row.toNat < board.length
      · simp only [List.getD_eq_getElem?_getD, List.getElem?_eq_getElem hlt, Option.getD_some]
        exact hrows _ (List.getElem_mem hlt)
      · exfalso
        rw [List.set_eq_of_length_le (by omega)] at hmem
        have := hrows _ hmem
        simp only [List.getD_eq_getElem?_getD, List.getElem?_eq_none (show board.length ≤ row.toNat by omega),
          Option.getD_none, List.length_set, List.length_nil] at this
        simp [COLS] at this
  · exact ⟨hlen, hrows⟩

/-! ## The counting loops of `checkDirection` -/

theorem countLoop_some (board : Board) (player : Option Nat) (dr dc : Int) :
    ∀ (fuel : Nat) (r c : Int) (count m : Nat),
      countLoop board player dr dc fuel r c count = some m →
      ∃ n : Nat, n < fuel ∧ m = count + n ∧
        (∀ i : Nat, i < n → matchesAt board player (r + (i : Int) * dr) (c + (i : Int) * dc)) ∧
        ¬ matchesAt board player (r + (n : Int) * dr) (c + (n : Int) * dc) := by
  intro fuel
  induction fuel with
  | zero => intro r c count m h; simp [countLoop] at h
  | succ fuel ih =>
    intro r c count m h
    unfold countLoop at h
    split at h
    · rename_i hcond
      obtain ⟨n, hn, hm, hall, hstop⟩ := ih _ _ _ _ h
      refine ⟨n + 1, by omega, by omega, ?_, ?_⟩
      · intro i hi
        cases i with
        | zero => simpa [matchesAt, inGrid, and_assoc] using hcond
        | succ i =>
          have := hall i (by omega)
          have e1 : r + ((i + 1 : Nat) : Int) * dr = r + dr + (i : Int) * dr := by
            push_cast; ring
          have e2 : c + ((i + 1 : Nat) : Int) * dc = c + dc + (i : Int) * dc := by
            push_cast; ring
          rw [e1, e2]; exact this
      · have e1 : r + ((n + 1 : Nat) : Int) * dr = r + dr + (n : Int) * dr := by
          push_cast; ring
        have e2 : c + ((n + 1 : Nat) : Int) * dc = c + dc + (n : Int) * dc := by
          push_cast; ring
        rw [e1, e2]; exact hstop
    · rename_i hcond
      refine ⟨0, by omega, by simpa using (Option.some.inj h).symm, ?_, ?_⟩
      · intro i hi; omega
      · simpa [matchesAt, inGrid, and_assoc] using hcond

theorem countLoop_none (board : Board) (player : Option Nat) (dr dc : Int) :
    ∀ (fuel : Nat) (r c : Int) (count : Nat),
      countLoop board player dr dc fuel r c count = none →
      ∀ i : Nat, i < fuel → matchesAt board player (r + (i : Int) * dr) (c + (i : Int) * dc) := by
  intro fuel
  induction fuel with
  | zero => intro r c count _ i hi; omega
  | succ fuel ih =>
    intro r c count h i hi
    unfold countLoop at h
    split at h
    · rename_i hcond
      cases i with
      | zero => simpa [matchesAt, inGrid, and_assoc] using hcond
      | succ i =>
        have := ih _ _ _ h i (by omega)
        have e1 : r + ((i + 1 : Nat) : Int) * dr = r + dr + (i : Int) * dr := by
          push_cast; ring
        have e2 : c + ((i + 1 : Nat) : Int) * dc = c + dc + (i : Int) * dc := by
          push_cast; ring
        rw [e1, e2]; exact this
    · simp at h

/-- Both loops of `checkDirection` stop within eight steps for every direction
other than `(0, 0)`: the walk leaves the grid. -/
theorem countLoop_terminates (board : Board) (player : Option Nat) (dr dc : Int)
    (hd : dr ≠ 0 ∨ dc ≠ 0) (fuel : Nat) (hf : 8 ≤ fuel) (r c : Int) (count : Nat) :
    ∃ m, countLoop board player dr dc fuel r c count = some m := by
  cases h : countLoop board player dr dc fuel r c count with
  | some m => exact ⟨m, rfl⟩
  | none =>
    exfalso
    have h0 := countLoop_none board player dr dc fuel r c count h 0 (by omega)
    have h7 := countLoop_none board player dr dc fuel r c count h 7 (by omega)
    simp only [matchesAt, inGrid, ROWS, COLS] at h0 h7
    push_cast at h0 h7
    omega

/-- What `checkDirection` computes: with `p` and `n` the lengths of the runs
of matching cells on the two sides of `(row, col)`, the answer is
`1 + p + n ≥ 4`. -/
theorem checkDirection_run (fuel : Nat) (hf : 8 ≤ fuel) (board : Board)
    (row col dr dc : Int) (hd : dr ≠ 0 ∨ dc ≠ 0) :
    ∃ p n : Nat,
      checkDirection fuel board row col dr dc = some (decide (1 + p + n ≥ 4)) ∧
      (∀ k : Int, 1 ≤ k → k ≤ p →
        matchesAt board (cell board row col) (row + k * dr) (col + k * dc)) ∧
      ¬ matchesAt board (cell board row col) (row + ((p : Int) + 1) * dr)
          (col + ((p : Int) + 1) * dc) ∧
      (∀ k : Int, -(n : Int) ≤ k → k ≤ -1 →
        matchesAt board (cell board row col) (row + k * dr) (col + k * dc)) ∧
      ¬ matchesAt board (cell board row col) (row + (-(n : Int) - 1) * dr)
          (col + (-(n : Int) - 1) * dc) := by
  have hd' : -dr ≠ 0 ∨ -dc ≠ 0 := by omega
  obtain ⟨m1, h1⟩ := countLoop_terminates board (cell board row col) dr dc hd fuel hf
    (row + dr) (col + dc) 1
  obtain ⟨m2, h2⟩ := countLoop_terminates board (cell board row col) (-dr) (-dc) hd' fuel hf
    (row - dr) (col - dc) m1
  obtain ⟨p, -, hm1, hpall, hpstop⟩ := countLoop_some _ _ _ _ _ _ _ _ _ h1
  obtain ⟨n, -, hm2, hnall, hnstop⟩ := countLoop_some _ _ _ _ _ _ _ _ _ h2
  refine ⟨p, n, ?_, ?_, ?_, ?_, ?_⟩
  · simp only [checkDirection, h1, h2]
    subst hm1 hm2
    rfl
  · intro k hk1 hk2
    have := hpall (k - 1).toNat (by omega)
    have e : (((k - 1).toNat : Nat) : Int) = k - 1 := by omega
    rw [e] at this
    have e1 : row + k * dr = row + dr + (k - 1) * dr := by ring
    have e2 : col + k * dc = col + dc + (k - 1) * dc := by ring
    rw [e1, e2]; exact this
  · have e1 : row + ((p : Int) + 1) * dr = row + dr + (p : Int) * dr := by ring
    have e2 : col + ((p : Int) + 1) * dc = col + dc + (p : Int) * dc := by ring
    rw [e1, e2]; exact hpstop
  · intro k hk1 hk2
    have := hnall (-k - 1).toNat (by omega)
    have e : (((-k - 1).toNat : Nat) : Int) = -k - 1 := by omega
    rw [e] at this
    have e1 : row + k * dr = row - dr + (-k - 1) * (-dr) := by ring
    have e2 : col + k * dc = col - dc + (-k - 1) * (-dc) := by ring
    rw [e1, e2]; exact this
  · have e1 : row + (-(n : Int) - 1) * dr = row - dr + (n : Int) * (-dr) := by ring
    have e2 : col + (-(n : Int) - 1) * dc = col - dc + (n : Int) * (-dc) := by ring
    rw [e1, e2]; exact hnstop

/-- A window of four consecutive positions around position `0` all satisfy `Q`
exactly when the two maximal runs around `0` have total length at least 4. -/
theorem window_iff_run (Q : Int → Prop) (p n : Nat) (h0 : Q 0)
    (hpos : ∀ k : Int, 1 ≤ k → k ≤ p → Q k) (hp : ¬ Q ((p : Int) + 1))
    (hneg : ∀ k : Int, -(n : Int) ≤ k → k ≤ -1 → Q k) (hn : ¬ Q (-(n : Int) - 1)) :
    (∃ j : Nat, j < 4 ∧ ∀ i : Nat, i < 4 → Q ((i : Int) - (j : Int))) ↔ 1 + p + n ≥ 4 := by
  constructor
  · rintro ⟨j, hj, h⟩
    by_contra hlt
    by_cases hc : p + j < 3
    · have := h (p + 1 + j) (by omega)
      have e : (((p + 1 + j : Nat)) : Int) - (j : Int) = (p : Int) + 1 := by omega
      rw [e] at this
      exact hp this
    · have := h (j - n - 1) (by omega)
      have e : (((j - n - 1 : Nat)) : Int) - (j : Int) = -(n : Int) - 1 := by omega
      rw [e] at this
      exact hn this
  · intro hge
    refine ⟨min n 3, by omega, ?_⟩
    intro i hi
    rcases lt_trichotomy ((i : Int) - ((min n 3 : Nat) : Int)) 0 with hk | hk | hk
    · exact hneg _ (by omega) (by omega)
    · rw [hk]; exact h0
    · exact hpos _ (by omega) (by omega)

/-- In a direction other than `(0, 0)`, `checkDirection` answers `true` exactly
when four consecutive grid cells of that line, `(row, col)` among them, hold
the value of `(row, col)`. -/
theorem checkDirection_iff_fourAlong (fuel : Nat) (hf : 8 ≤ fuel) (board : Board)
    (row col dr dc : Int) (hd : dr ≠ 0 ∨ dc ≠ 0) (v : Nat)
    (hg : inGrid row col) (hv : cell board row col = some v) :
    checkDirection fuel board row col dr dc = some (decide (FourAlong board row col dr dc v)) := by
  obtain ⟨p, n, hres, hpos, hp, hneg, hn⟩ := checkDirection_run fuel hf board row col dr dc hd
  rw [hv] at hpos hp hneg hn
  rw [hres]
  have h0 : matchesAt board (some v) (row + (0 : Int) * dr) (col + (0 : Int) * dc) := by
    simpa [matchesAt] using And.intro hg hv
  have key := window_iff_run
    (fun k => matchesAt board (some v) (row + k * dr) (col + k * dc)) p n h0 hpos hp hneg hn
  congr 1
  simp only [decide_eq_decide]
  exact key.symm

theorem lazyOr_some (a b : Bool) : lazyOr (some a) (some b) = some (a || b) := by
  cases a <;> rfl

theorem occupied_iff_ne_empty {board : Board} (hb : IsBoard board) {r c : Int}
    (hg : inGrid r c) : Occupied board r c ↔ cell board r c ≠ some EMPTY := by
  obtain ⟨v, hv⟩ := cell_of_isBoard hb hg
  simp [Occupied, hv]

/-! ## The lowest empty cell of a column -/

theorem getAvailableRowFrom_spec (board : Board) (col : Int) (n : Nat) :
    (getAvailableRowFrom board col n = -1 ∧
      ∀ r : Int, 0 ≤ r → r < n → cell board r col ≠ some EMPTY) ∨
    (0 ≤ getAvailableRowFrom board col n ∧ getAvailableRowFrom board col n < n ∧
      cell board (getAvailableRowFrom board col n) col = some EMPTY ∧
      ∀ r : Int, getAvailableRowFrom board col n < r → r < n →
        cell board r col ≠ some EMPTY) := by
  induction n with
  | zero =>
    left
    exact ⟨rfl, fun r h0 h1 => by omega⟩
  | succ n ih =>
    unfold getAvailableRowFrom
    split
    · rename_i hemp
      right
      exact ⟨by omega, by omega, hemp, fun r h0 h1 => by omega⟩
    · rename_i hemp
      rcases ih with ⟨h1, h2⟩ | ⟨h1, h2, h3, h4⟩
      · left
        refine ⟨h1, fun r hr0 hr1 => ?_⟩
        by_cases hr : r = n
        · subst hr; exact hemp
        · exact h2 r hr0 (by omega)
      · right
        refine ⟨h1, by omega, h3, fun r hr0 hr1 => ?_⟩
        by_cases hr : r = n
        · subst hr; exact hemp
        · exact h4 r hr0 (by omega)

theorem getAvailableRow_eq_neg_one_iff (board : Board) (col : Int) :
    getAvailableRow board col = -1 ↔
      ∀ r : Int, 0 ≤ r → r < ROWS → cell board r col ≠ some EMPTY := by
  unfold getAvailableRow
  rcases getAvailableRowFrom_spec board col ROWS with ⟨h1, h2⟩ | ⟨h1, h2, h3, h4⟩
  · exact ⟨fun _ => h2, fun _ => h1⟩
  · exact ⟨fun h => by omega, fun h => absurd h3 (h _ h1 h2)⟩

theorem getAvailableRow_of_ne_neg_one (board : Board) (col : Int)
    (h : getAvailableRow board col ≠ -1) :
    0 ≤ getAvailableRow board col ∧ getAvailableRow board col < ROWS ∧
      cell board (getAvailableRow board col) col = some EMPTY ∧
      ∀ r : Int, getAvailableRow board col < r → r < ROWS →
        cell board r col ≠ some EMPTY := by
  unfold getAvailableRow at h ⊢
  rcases getAvailableRowFrom_spec board col ROWS with ⟨h1, h2⟩ | ⟨h1, h2, h3, h4⟩
  · exact absurd h1 h
  · exact ⟨h1, h2, h3, h4⟩

/-- C2: for every 6x7 board and every column `c` with `0 ≤ c < COLS`,
`getAvailableRow(c)` returns `-1` if and only if no cell of column `c` is
EMPTY, and otherwise returns the largest row index `r` of the grid with
`board[r][c] = EMPTY` (the lowest empty cell, row 0 being the top). -/
theorem getAvailableRow_lowest_empty (board : Board) (_hb : IsBoard board) (col : Int)
    (_hc0 : 0 ≤ col) (_hc1 : col < COLS) :
    (getAvailableRow board col = -1 ↔
      ∀ r : Int, 0 ≤ r → r < ROWS → cell board r col ≠ some EMPTY) ∧
    (getAvailableRow board col ≠ -1 →
      0 ≤ getAvailableRow board col ∧ getAvailableRow board col < ROWS ∧
      cell board (getAvailableRow board col) col = some EMPTY ∧
      ∀ r : Int, getAvailableRow board col < r → r < ROWS →
        cell board r col ≠ some EMPTY) := by
  exact ⟨getAvailableRow_eq_neg_one_iff board col, getAvailableRow_of_ne_neg_one board col⟩

theorem getAvailableRow_lowest_empty_witness :
    (IsBoard diagonalBoard ∧ (0 : Int) ≤ 3 ∧ (3 : Int) < COLS) ∧
      getAvailableRow diagonalBoard 3 = 1 ∧
      ((getAvailableRow diagonalBoard 3 = -1 ↔
        ∀ r : Int, 0 ≤ r → r < ROWS → cell diagonalBoard r 3 ≠ some EMPTY) ∧
      (getAvailableRow diagonalBoard 3 ≠ -1 →
        0 ≤ getAvailableRow diagonalBoard 3 ∧ getAvailableRow diagonalBoard 3 < ROWS ∧
        cell diagonalBoard (getAvailableRow diagonalBoard 3) 3 = some EMPTY ∧
        ∀ r : Int, getAvailableRow diagonalBoard 3 < r → r < ROWS →
          cell diagonalBoard r 3 ≠ some EMPTY)) :=
  ⟨by decide, by decide,
   getAvailableRow_lowest_empty diagonalBoard (by decide) 3 (by decide) (by decide)⟩

/-! ## Win detection -/

/-- C1: for every cell `(row, col)` of the grid holding a value `p`, with
enough fuel `checkWin(row, col)` returns, and it returns `true` if and only if
there are four consecutive cells of the grid along one row, one column or one
of the two diagonals that include `(row, col)` and all hold `p`.  The board is
any 6x7 board; `p` is any value, in particular any non-EMPTY one. -/
theorem checkWin_iff_fourThrough (fuel : Nat) (hf : 8 ≤ fuel) (board : Board)
    (_hb : IsBoard board) (row col : Int) (hg : inGrid row col) (p : Nat)
    (hcell : cell board row col = some p) :
    checkWin fuel board row col = some (decide (FourThrough board row col p)) := by
  unfold checkWin FourThrough
  rw [checkDirection_iff_fourAlong fuel hf board row col 0 1 (by omega) p hg hcell,
    checkDirection_iff_fourAlong fuel hf board row col 1 0 (by omega) p hg hcell,
    checkDirection_iff_fourAlong fuel hf board row col 1 1 (by omega) p hg hcell,
    checkDirection_iff_fourAlong fuel hf board row col 1 (-1) (by omega) p hg hcell]
  simp only [lazyOr_some, Bool.decide_or]

theorem checkWin_iff_fourThrough_witness :
    (8 ≤ 8 ∧ IsBoard diagonalBoard ∧ inGrid 2 3 ∧ cell diagonalBoard 2 3 = some 1) ∧
      checkWin 8 diagonalBoard 2 3 = some (decide (FourThrough diagonalBoard 2 3 1)) ∧
      FourThrough diagonalBoard 2 3 1 :=
  ⟨by decide,
   checkWin_iff_fourThrough 8 (by decide) diagonalBoard (by decide) 2 3 (by decide) 1
     (by decide),
   by decide⟩

/-! ## One click -/

/-- An accepted click (game not over, column not full) runs the placement and
the two checks. -/
theorem handleCellClick_accepted (fuel : Nat) (s : State) (col : Int)
    (hgo : s.gameOver = false) (hrow : getAvailableRow s.board col ≠ -1) :
    handleCellClick fuel s col =
      match checkWin fuel (setCell s.board (getAvailableRow s.board col) col s.currentPlayer)
          (getAvailableRow s.board col) col with
      | none => none
      | some true =>
        some ({ board := setCell s.board (getAvailableRow s.board col) col s.currentPlayer,
                currentPlayer := s.currentPlayer, gameOver := true },
          [Effect.updateCell (getAvailableRow s.board col) col s.currentPlayer,
           Effect.showWinner s.currentPlayer, Effect.createFireworks])
      | some false =>
        if checkDraw (setCell s.board (getAvailableRow s.board col) col s.currentPlayer) then
          some ({ board := setCell s.board (getAvailableRow s.board col) col s.currentPlayer,
                  currentPlayer := s.currentPlayer, gameOver := true },
            [Effect.updateCell (getAvailableRow s.board col) col s.currentPlayer,
             Effect.showDraw])
        else
          some ({ board := setCell s.board (getAvailableRow s.board col) col s.currentPlayer,
                  currentPlayer := if s.currentPlayer = PLAYER1 then PLAYER2 else PLAYER1,
                  gameOver := false },
            [Effect.updateCell (getAvailableRow s.board col) col s.currentPlayer,
             Effect.updatePlayerIndicator
               (if s.currentPlayer = PLAYER1 then PLAYER2 else PLAYER1)]) := by
  simp only [handleCellClick, hgo, hrow, Bool.false_eq_true, if_false]

/-- On a column with a free cell `getAvailableRow` answers a row of the grid
whose cell is EMPTY. -/
theorem getAvailableRow_of_empty (board : Board) (col : Int)
    (hempty : ∃ r : Int, 0 ≤ r ∧ r < ROWS ∧ cell board r col = some EMPTY) :
    getAvailableRow board col ≠ -1 ∧ 0 ≤ getAvailableRow board col ∧
      getAvailableRow board col < ROWS ∧
      cell board (getAvailableRow board col) col = some EMPTY := by
  unfold getAvailableRow
  obtain ⟨r, hr0, hr1, hr⟩ := hempty
  rcases getAvailableRowFrom_spec board col ROWS with ⟨h1, h2⟩ | ⟨h1, h2, h3, h4⟩
  · exact absurd hr (h2 r hr0 hr1)
  · exact ⟨by omega, h1, h2, h3⟩

/-- With enough fuel `checkWin` returns on every cell of the grid. -/
theorem checkWin_terminates (fuel : Nat) (hf : 8 ≤ fuel) (board : Board) (row col : Int) :
    ∃ b, checkWin fuel board row col = some b := by
  obtain ⟨p1, n1, h1, -⟩ := checkDirection_run fuel hf board row col 0 1 (by omega)
  obtain ⟨p2, n2, h2, -⟩ := checkDirection_run fuel hf board row col 1 0 (by omega)
  obtain ⟨p3, n3, h3, -⟩ := checkDirection_run fuel hf board row col 1 1 (by omega)
  obtain ⟨p4, n4, h4, -⟩ := checkDirection_run fuel hf board row col 1 (-1) (by omega)
  simp only [checkWin, h1, h2, h3, h4, lazyOr_some]
  exact ⟨_, rfl⟩

/-- C3: for every state with `gameOver = false` and every column `c` that has
an EMPTY cell, `handleCellClick` on `c` changes exactly one board cell, namely
`(getAvailableRow(c), c)`, from EMPTY to the value of `currentPlayer` before
the call; every other cell of the board is unchanged. -/
theorem handleCellClick_places_one_disc (fuel : Nat) (hf : 8 ≤ fuel) (s : State)
    (hb : IsBoard s.board)
    (hp : s.currentPlayer = PLAYER1 ∨ s.currentPlayer = PLAYER2)
    (hgo : s.gameOver = false) (col : Int) (_hc0 : 0 ≤ col) (_hc1 : col < COLS)
    (hempty : ∃ r : Int, 0 ≤ r ∧ r < ROWS ∧ cell s.board r col = some EMPTY) :
    ∃ s' effects, handleCellClick fuel s col = some (s', effects) ∧
      IsBoard s'.board ∧
      cell s.board (getAvailableRow s.board col) col = some EMPTY ∧
      cell s'.board (getAvailableRow s.board col) col = some s.currentPlayer ∧
      s.currentPlayer ≠ EMPTY ∧
      ∀ r c : Int, r ≠ getAvailableRow s.board col ∨ c ≠ col →
        cell s'.board r c = cell s.board r c := by
  obtain ⟨hrow, -, -, hcell⟩ := getAvailableRow_of_empty s.board col hempty
  have hne : s.currentPlayer ≠ EMPTY := by
    rcases hp with h | h <;> rw [h] <;> decide
  have hnew : cell (setCell s.board (getAvailableRow s.board col) col s.currentPlayer)
      (getAvailableRow s.board col) col = some s.currentPlayer :=
    cell_setCell_same _ _ _ _ (by rw [hcell]; rfl)
  have hother : ∀ r c : Int, r ≠ getAvailableRow s.board col ∨ c ≠ col →
      cell (setCell s.board (getAvailableRow s.board col) col s.currentPlayer) r c =
        cell s.board r c :=
    fun r c h => cell_setCell_other _ _ _ _ r c h
  have hb' := isBoard_setCell hb (getAvailableRow s.board col) col s.currentPlayer
  rw [handleCellClick_accepted fuel s col hgo hrow]
  obtain ⟨b, hw⟩ := checkWin_terminates fuel hf
    (setCell s.board (getAvailableRow s.board col) col s.currentPlayer)
    (getAvailableRow s.board col) col
  rw [hw]
  cases b with
  | true => exact ⟨_, _, rfl, hb', hcell, hnew, hne, hother⟩
  | false =>
    by_cases hd : checkDraw (setCell s.board (getAvailableRow s.board col) col s.currentPlayer)
    · simp only [hd, if_true]
      exact ⟨_, _, rfl, hb', hcell, hnew, hne, hother⟩
    · simp only [hd]
      exact ⟨_, _, rfl, hb', hcell, hnew, hne, hother⟩

theorem handleCellClick_places_one_disc_witness :
    ∃ s' effects,
      handleCellClick 8 ⟨fullColumnBoard, PLAYER1, false⟩ 2 = some (s', effects) ∧
      IsBoard s'.board ∧
      cell fullColumnBoard (getAvailableRow fullColumnBoard 2) 2 = some EMPTY ∧
      cell s'.board (getAvailableRow fullColumnBoard 2) 2 = some PLAYER1 ∧
      PLAYER1 ≠ EMPTY ∧
      ∀ r c : Int, r ≠ getAvailableRow fullColumnBoard 2 ∨ c ≠ 2 →
        cell s'.board r c = cell fullColumnBoard r c :=
  handleCellClick_places_one_disc 8 (by decide) ⟨fullColumnBoard, PLAYER1, false⟩
    (by decide) (by decide) rfl 2 (by decide) (by decide) ⟨5, by decide⟩

/-- C4: for every state with `gameOver = false` and every column `c` with no
EMPTY cell, `handleCellClick` on `c` is a no-op: the board, `currentPlayer`
and `gameOver` are unchanged (the turn does not advance) and no DOM helper is
called. -/
theorem handleCellClick_column_full (fuel : Nat) (s : State) (_hb : IsBoard s.board)
    (hgo : s.gameOver = false) (col : Int) (_hc0 : 0 ≤ col) (_hc1 : col < COLS)
    (hfull : ∀ r : Int, 0 ≤ r → r < ROWS → cell s.board r col ≠ some EMPTY) :
    handleCellClick fuel s col = some (s, []) := by
  have hrow : getAvailableRow s.board col = -1 :=
    (getAvailableRow_eq_neg_one_iff s.board col).mpr hfull
  simp [handleCellClick, hgo, hrow]

theorem handleCellClick_column_full_witness :
    handleCellClick 8 ⟨fullColumnBoard, PLAYER1, false⟩ 0 =
      some (⟨fullColumnBoard, PLAYER1, false⟩, []) :=
  handleCellClick_column_full 8 ⟨fullColumnBoard, PLAYER1, false⟩ (by decide) rfl 0
    (by decide) (by decide)
    (fun r h0 h1 => by
      have h : r = 0 ∨ r = 1 ∨ r = 2 ∨ r = 3 ∨ r = 4 ∨ r = 5 := by
        simp only [ROWS] at h1; omega
      rcases h with h | h | h | h | h | h <;> subst h <;> decide)

/-- No click changes a state in which the game is over. -/
theorem clicks_of_gameOver (fuel : Nat) (s : State) (hgo : s.gameOver = true) :
    ∀ cols : List Int, clicks fuel s cols = some s := by
  intro cols
  induction cols with
  | nil => rfl
  | cons col cols ih => simpa [clicks, handleCellClick, hgo] using ih

/-- C5: for every state with `gameOver = true` and every column `c`,
`handleCellClick` on `c` is rejected: it leaves the board, `currentPlayer` and
`gameOver` unchanged and calls no DOM helper.  Consequently no sequence of
clicks leaves a terminal state; `resetGame` does. -/
theorem handleCellClick_game_over (fuel : Nat) (s : State) (hgo : s.gameOver = true)
    (col : Int) :
    handleCellClick fuel s col = some (s, []) ∧
      (∀ cols : List Int, clicks fuel s cols = some s) ∧
      (resetGame s).1.gameOver = false := by
  refine ⟨by simp [handleCellClick, hgo], clicks_of_gameOver fuel s hgo, rfl⟩

theorem handleCellClick_game_over_witness :
    handleCellClick 8 ⟨diagonalBoard, PLAYER1, true⟩ 4 =
        some (⟨diagonalBoard, PLAYER1, true⟩, []) ∧
      (∀ cols : List Int,
        clicks 8 ⟨diagonalBoard, PLAYER1, true⟩ cols = some ⟨diagonalBoard, PLAYER1, true⟩) ∧
      (resetGame ⟨diagonalBoard, PLAYER1, true⟩).1.gameOver = false :=
  handleCellClick_game_over 8 ⟨diagonalBoard, PLAYER1, true⟩ rfl 4

/-- C6: for every accepted drop (`gameOver = false`, column not full), if
`checkWin` is true at the just-placed cell then the result is a win, whether or
not the top row is now full: `gameOver` becomes true, `currentPlayer` stays the
player whose disc was just placed, `showWinner` announces that player and
`showDraw` is not called. -/
theorem handleCellClick_win (fuel : Nat) (s : State) (_hb : IsBoard s.board)
    (hgo : s.gameOver = false) (col : Int) (_hc0 : 0 ≤ col) (_hc1 : col < COLS)
    (hrow : getAvailableRow s.board col ≠ -1)
    (hwin : checkWin fuel
      (setCell s.board (getAvailableRow s.board col) col s.currentPlayer)
      (getAvailableRow s.board col) col = some true) :
    handleCellClick fuel s col =
      some ({ board := setCell s.board (getAvailableRow s.board col) col s.currentPlayer,
              currentPlayer := s.currentPlayer, gameOver := true },
        [Effect.updateCell (getAvailableRow s.board col) col s.currentPlayer,
         Effect.showWinner s.currentPlayer, Effect.createFireworks]) := by
  rw [handleCellClick_accepted fuel s col hgo hrow, hwin]

theorem handleCellClick_win_witness :
    checkDraw (setCell lastCellBoard 0 3 PLAYER1) = true ∧
      handleCellClick 8 ⟨lastCellBoard, PLAYER1, false⟩ 3 =
        some (⟨setCell lastCellBoard 0 3 PLAYER1, PLAYER1, true⟩,
          [Effect.updateCell 0 3 PLAYER1, Effect.showWinner PLAYER1,
           Effect.createFireworks]) :=
  ⟨by decide,
   handleCellClick_win 8 ⟨lastCellBoard, PLAYER1, false⟩ (by decide) rfl 3 (by decide)
     (by decide) (by decide) (by decide)⟩

/-! ## The draw check -/

theorem checkDrawFrom_iff (board : Board) (n : Nat) :
    checkDrawFrom board n = true ↔
      ∀ c : Int, (COLS : Int) - n ≤ c → c < COLS → cell board 0 c ≠ some EMPTY := by
  induction n with
  | zero => simp only [checkDrawFrom, true_iff]; intro c h0 h1; omega
  | succ n ih =>
    unfold checkDrawFrom
    split
    · rename_i hemp
      simp only [Bool.false_eq_true, false_iff, not_forall]
      exact ⟨_, by omega, by omega, fun h => h hemp⟩
    · rename_i hemp
      rw [ih]
      constructor
      · intro h c h0 h1
        by_cases hc : c = (COLS : Int) - ((n : Int) + 1)
        · subst hc; exact hemp
        · exact h c (by omega) h1
      · intro h c h0 h1
        exact h c (by omega) h1

/-- The function `checkDraw` answers `true` exactly when no cell of row 0 is
EMPTY. -/
theorem checkDraw_iff (board : Board) :
    checkDraw board = true ↔
      ∀ c : Int, 0 ≤ c → c < COLS → cell board 0 c ≠ some EMPTY := by
  unfold checkDraw
  rw [checkDrawFrom_iff]
  constructor
  · intro h c h0 h1; exact h c (by omega) h1
  · intro h c h0 h1; exact h c (by omega) h1

/-- C7: for every accepted drop, a draw is declared (`showDraw` is called;
`gameOver` is then true and `currentPlayer` is not toggled) if and only if
`checkWin` is false at the just-placed cell and every cell of row 0 is
non-EMPTY after the placement. -/
theorem handleCellClick_draw_iff (fuel : Nat) (hf : 8 ≤ fuel) (s : State)
    (_hb : IsBoard s.board) (hgo : s.gameOver = false) (col : Int)
    (_hc0 : 0 ≤ col) (_hc1 : col < COLS) (hrow : getAvailableRow s.board col ≠ -1) :
    ∃ s' effects, handleCellClick fuel s col = some (s', effects) ∧
      s'.board = setCell s.board (getAvailableRow s.board col) col s.currentPlayer ∧
      (Effect.showDraw ∈ effects ↔
        (checkWin fuel s'.board (getAvailableRow s.board col) col = some false ∧
          ∀ c : Int, 0 ≤ c → c < COLS → cell s'.board 0 c ≠ some EMPTY)) ∧
      (Effect.showDraw ∈ effects →
        s'.gameOver = true ∧ s'.currentPlayer = s.currentPlayer) := by
  rw [handleCellClick_accepted fuel s col hgo hrow]
  obtain ⟨b, hw⟩ := checkWin_terminates fuel hf
    (setCell s.board (getAvailableRow s.board col) col s.currentPlayer)
    (getAvailableRow s.board col) col
  rw [hw]
  cases b with
  | true =>
    refine ⟨_, _, rfl, rfl, ?_, ?_⟩
    · simp [hw]
    · simp
  | false =>
    by_cases hd : checkDraw (setCell s.board (getAvailableRow s.board col) col s.currentPlayer)
    · simp only [hd, if_true]
      refine ⟨_, _, rfl, rfl, ?_, ?_⟩
      · simp only [hw, true_and]
        simpa using (checkDraw_iff _).mp hd
      · simp
    · simp only [hd]
      refine ⟨_, _, rfl, rfl, ?_, ?_⟩
      · simp only [hw, true_and]
        have := (checkDraw_iff
          (setCell s.board (getAvailableRow s.board col) col s.currentPlayer)).not.mp hd
        simpa using this
      · simp

theorem handleCellClick_draw_iff_witness :
    (∃ effects, handleCellClick 8 ⟨drawBoard, PLAYER1, false⟩ 3 =
        some (⟨setCell drawBoard 0 3 PLAYER1, PLAYER1, true⟩, effects) ∧
        Effect.showDraw ∈ effects) ∧
    ∃ s' effects, handleCellClick 8 ⟨drawBoard, PLAYER1, false⟩ 3 = some (s', effects) ∧
      s'.board = setCell drawBoard (getAvailableRow drawBoard 3) 3 PLAYER1 ∧
      (Effect.showDraw ∈ effects ↔
        (checkWin 8 s'.board (getAvailableRow drawBoard 3) 3 = some false ∧
          ∀ c : Int, 0 ≤ c → c < COLS → cell s'.board 0 c ≠ some EMPTY)) ∧
      (Effect.showDraw ∈ effects → s'.gameOver = true ∧ s'.currentPlayer = PLAYER1) :=
  ⟨⟨[Effect.updateCell 0 3 PLAYER1, Effect.showDraw], by decide, by decide⟩,
   handleCellClick_draw_iff 8 (by decide) ⟨drawBoard, PLAYER1, false⟩ (by decide) rfl 3
     (by decide) (by decide) (by decide)⟩

/-- C8: for every accepted drop that is neither a win nor a draw,
`handleCellClick` toggles `currentPlayer` (PLAYER1 becomes PLAYER2 and PLAYER2
becomes PLAYER1) and leaves `gameOver = false`. -/
theorem handleCellClick_continue (fuel : Nat) (s : State) (_hb : IsBoard s.board)
    (hgo : s.gameOver = false) (col : Int) (_hc0 : 0 ≤ col) (_hc1 : col < COLS)
    (hrow : getAvailableRow s.board col ≠ -1)
    (hwin : checkWin fuel
      (setCell s.board (getAvailableRow s.board col) col s.currentPlayer)
      (getAvailableRow s.board col) col = some false)
    (hdraw : checkDraw
      (setCell s.board (getAvailableRow s.board col) col s.currentPlayer) = false) :
    ∃ s' effects, handleCellClick fuel s col = some (s', effects) ∧
      s'.board = setCell s.board (getAvailableRow s.board col) col s.currentPlayer ∧
      (s.currentPlayer = PLAYER1 → s'.currentPlayer = PLAYER2) ∧
      (s.currentPlayer = PLAYER2 → s'.currentPlayer = PLAYER1) ∧
      s'.gameOver = false ∧
      Effect.showWinner s.currentPlayer ∉ effects ∧ Effect.showDraw ∉ effects := by
  rw [handleCellClick_accepted fuel s col hgo hrow, hwin]
  simp only [hdraw, Bool.false_eq_true, if_false]
  refine ⟨_, _, rfl, rfl, ?_, ?_, rfl, by simp, by simp⟩
  · intro h; simp [h]
  · intro h; simp [h, PLAYER1, PLAYER2]

theorem handleCellClick_continue_witness :
    ∃ s' effects,
      handleCellClick 8 ⟨fullColumnBoard, PLAYER2, false⟩ 2 = some (s', effects) ∧
      s'.board = setCell fullColumnBoard (getAvailableRow fullColumnBoard 2) 2 PLAYER2 ∧
      (PLAYER2 = PLAYER1 → s'.currentPlayer = PLAYER2) ∧
      (PLAYER2 = PLAYER2 → s'.currentPlayer = PLAYER1) ∧
      s'.gameOver = false ∧
      Effect.showWinner PLAYER2 ∉ effects ∧ Effect.showDraw ∉ effects :=
  handleCellClick_continue 8 ⟨fullColumnBoard, PLAYER2, false⟩ (by decide) rfl 2
    (by decide) (by decide) (by decide) (by decide) (by decide)

/-! ## Reset -/

theorem cell_initializeBoard (r c : Int) (hg : inGrid r c) :
    cell initializeBoard r c = some EMPTY := by
  obtain ⟨hr0, hr1, hc0, hc1⟩ := hg
  have hr : r.toNat < ROWS := by omega
  have hc : c.toNat < COLS := by omega
  simp [cell, initializeBoard, hr0, hc0, List.getElem?_replicate, hr, hc]

/-- C9: from every state (terminal or not, any board contents), `resetGame`
yields the state whose board is 6 rows by 7 columns with every cell EMPTY,
whose `currentPlayer` is PLAYER1 and whose `gameOver` is false. -/
theorem resetGame_state (s : State) :
    (resetGame s).1.board.length = 6 ∧
      (∀ cells ∈ (resetGame s).1.board, cells.length = 7) ∧
      (∀ r c : Int, 0 ≤ r → r < 6 → 0 ≤ c → c < 7 →
        cell (resetGame s).1.board r c = some EMPTY) ∧
      (resetGame s).1.currentPlayer = PLAYER1 ∧
      (resetGame s).1.gameOver = false := by
  refine ⟨?_, ?_, ?_, rfl, rfl⟩
  · show initializeBoard.length = 6
    decide
  · show ∀ cells ∈ initializeBoard, cells.length = 7
    decide
  intro r c hr0 hr1 hc0 hc1
  exact cell_initializeBoard r c ⟨hr0, by simpa [ROWS] using hr1, hc0, by simpa [COLS] using hc1⟩

/-! ## Sequences of clicks and the gravity invariant -/

/-- With enough fuel every click returns; it either changes nothing or writes
`currentPlayer` into the cell `(getAvailableRow(col), col)`. -/
theorem handleCellClick_board (fuel : Nat) (hf : 8 ≤ fuel) (s : State) (col : Int) :
    ∃ s' effects, handleCellClick fuel s col = some (s', effects) ∧
      (s' = s ∨
        (s.gameOver = false ∧ getAvailableRow s.board col ≠ -1 ∧
          s'.board = setCell s.board (getAvailableRow s.board col) col s.currentPlayer)) := by
  by_cases hgo : s.gameOver = true
  · exact ⟨s, [], by simp [handleCellClick, hgo], Or.inl rfl⟩
  · have hgo' : s.gameOver = false := by simpa using hgo
    by_cases hrow : getAvailableRow s.board col = -1
    · exact ⟨s, [], by simp [handleCellClick, hgo', hrow], Or.inl rfl⟩
    · rw [handleCellClick_accepted fuel s col hgo' hrow]
      obtain ⟨b, hw⟩ := checkWin_terminates fuel hf
        (setCell s.board (getAvailableRow s.board col) col s.currentPlayer)
        (getAvailableRow s.board col) col
      rw [hw]
      cases b with
      | true => exact ⟨_, _, rfl, Or.inr ⟨hgo', hrow, rfl⟩⟩
      | false =>
        by_cases hd :
            checkDraw (setCell s.board (getAvailableRow s.board col) col s.currentPlayer)
        · simp only [hd, if_true]
          exact ⟨_, _, rfl, Or.inr ⟨hgo', hrow, rfl⟩⟩
        · simp only [hd]
          exact ⟨_, _, rfl, Or.inr ⟨hgo', hrow, rfl⟩⟩

theorem occupied_setCell_other (board : Board) (row col : Int) (v : Nat) (r c : Int)
    (h : r ≠ row ∨ c ≠ col) :
    Occupied (setCell board row col v) r c ↔ Occupied board r c := by
  unfold Occupied
  rw [cell_setCell_other board row col v r c h]

/-- Writing into the lowest empty cell of a column keeps the columns free of
gaps. -/
theorem gravity_setCell {board : Board} (hb : IsBoard board) (hg : Gravity board)
    (col : Int) (hrow : getAvailableRow board col ≠ -1) (v : Nat) :
    Gravity (setCell board (getAvailableRow board col) col v) := by
  obtain ⟨h0, h1, hemp, hbelow⟩ := getAvailableRow_of_ne_neg_one board col hrow
  intro c hc r hr r' hr' hlt hocc
  by_cases hcc : (c : Int) = col
  · by_cases hrr : (r' : Int) = getAvailableRow board col
    · exfalso
      have hne : (r : Int) ≠ getAvailableRow board col := by omega
      rw [occupied_setCell_other _ _ _ _ _ _ (Or.inl hne)] at hocc
      have := hg c hc r hr r' hr' hlt hocc
      rw [hrr, hcc] at this
      simp [Occupied, hemp] at this
    · rw [occupied_setCell_other _ _ _ _ _ _ (Or.inl hrr)]
      by_cases hr2 : (r : Int) = getAvailableRow board col
      · have hgrid : inGrid (r' : Int) (c : Int) :=
          ⟨by omega, by exact_mod_cast hr', by omega, by exact_mod_cast hc⟩
        rw [occupied_iff_ne_empty hb hgrid, hcc]
        exact hbelow _ (by omega) (by exact_mod_cast hr')
      · rw [occupied_setCell_other _ _ _ _ _ _ (Or.inl hr2)] at hocc
        exact hg c hc r hr r' hr' hlt hocc
  · rw [occupied_setCell_other _ _ _ _ _ _ (Or.inr hcc)] at hocc ⊢
    exact hg c hc r hr r' hr' hlt hocc

/-- One click keeps the board 6x7 and free of gaps. -/
theorem handleCellClick_gravity (fuel : Nat) (hf : 8 ≤ fuel) (s : State)
    (hb : IsBoard s.board) (hg : Gravity s.board) (col : Int) :
    ∃ s' effects, handleCellClick fuel s col = some (s', effects) ∧
      IsBoard s'.board ∧ Gravity s'.board := by
  obtain ⟨s', effects, hres, hcase⟩ := handleCellClick_board fuel hf s col
  refine ⟨s', effects, hres, ?_⟩
  rcases hcase with h | ⟨-, hrow, hboard⟩
  · subst h; exact ⟨hb, hg⟩
  · rw [hboard]
    exact ⟨isBoard_setCell hb _ _ _, gravity_setCell hb hg col hrow _⟩

theorem clicks_gravity (fuel : Nat) (hf : 8 ≤ fuel) :
    ∀ (cols : List Int) (s : State), IsBoard s.board → Gravity s.board →
      ∃ s', clicks fuel s cols = some s' ∧ IsBoard s'.board ∧ Gravity s'.board := by
  intro cols
  induction cols with
  | nil => intro s hb hg; exact ⟨s, rfl, hb, hg⟩
  | cons col cols ih =>
    intro s hb hg
    obtain ⟨s1, effects, hres, hb1, hg1⟩ := handleCellClick_gravity fuel hf s hb hg col
    obtain ⟨s2, hres2, hb2, hg2⟩ := ih s1 hb1 hg1
    exact ⟨s2, by simp only [clicks, hres, hres2], hb2, hg2⟩

/-- C10: gravity invariant.  Every finite sequence of `handleCellClick` calls
on columns in `[0, COLS)`, started from the reset state, returns, and in the
state it reaches the board is 6x7 and every column is filled bottom-up with no
gaps: if cell `(r, c)` is non-EMPTY then every cell `(r', c)` with
`r < r' < ROWS` is non-EMPTY. -/
theorem gravity_of_reachable (fuel : Nat) (hf : 8 ≤ fuel) (s0 : State) (cols : List Int)
    (_hcols : ∀ c ∈ cols, 0 ≤ c ∧ c < (COLS : Int)) :
    ∃ s, clicks fuel (resetGame s0).1 cols = some s ∧ IsBoard s.board ∧
      ∀ r r' c : Int, 0 ≤ r → r < r' → r' < ROWS → 0 ≤ c → c < COLS →
        cell s.board r c ≠ some EMPTY → cell s.board r' c ≠ some EMPTY := by
  have hb0 : IsBoard (resetGame s0).1.board := by
    show IsBoard initializeBoard
    decide
  have hg0 : Gravity (resetGame s0).1.board := by
    show Gravity initializeBoard
    decide
  obtain ⟨s, hres, hb, hg⟩ := clicks_gravity fuel hf cols (resetGame s0).1 hb0 hg0
  refine ⟨s, hres, hb, ?_⟩
  intro r r' c hr0 hlt hr1 hc0 hc1 hocc
  have hg1 : inGrid r c := ⟨hr0, by omega, hc0, hc1⟩
  have hg2 : inGrid r' c := ⟨by omega, hr1, hc0, hc1⟩
  rw [← occupied_iff_ne_empty hb hg1] at hocc
  rw [← occupied_iff_ne_empty hb hg2]
  have := hg c.toNat (by omega) r.toNat (by omega) r'.toNat (by omega) (by omega)
  have e1 : ((r.toNat : Nat) : Int) = r := by omega
  have e2 : ((r'.toNat : Nat) : Int) = r' := by omega
  have e3 : ((c.toNat : Nat) : Int) = c := by omega
  rw [e1, e2, e3] at this
  exact this hocc

theorem gravity_of_reachable_witness :
    ∃ s, clicks 8 (resetGame ⟨[], PLAYER2, true⟩).1 [0, 1, 0, 1, 3, 0] = some s ∧
      IsBoard s.board ∧
      ∀ r r' c : Int, 0 ≤ r → r < r' → r' < ROWS → 0 ≤ c → c < COLS →
        cell s.board r c ≠ some EMPTY → cell s.board r' c ≠ some EMPTY :=
  gravity_of_reachable 8 (by decide) ⟨[], PLAYER2, true⟩ [0, 1, 0, 1, 3, 0] (by decide)

/-- Gravity read with integer indices: below a non-EMPTY cell of the grid
every cell of the column is non-EMPTY. -/
theorem gravity_cells {board : Board} (hb : IsBoard board) (hg : Gravity board)
    (r r' c : Int) (hr0 : 0 ≤ r) (hlt : r < r') (hr1 : r' < ROWS) (hc0 : 0 ≤ c)
    (hc1 : c < COLS) (hocc : cell board r c ≠ some EMPTY) :
    cell board r' c ≠ some EMPTY := by
  have hg1 : inGrid r c := ⟨hr0, by omega, hc0, hc1⟩
  have hg2 : inGrid r' c := ⟨by omega, hr1, hc0, hc1⟩
  rw [← occupied_iff_ne_empty hb hg1] at hocc
  rw [← occupied_iff_ne_empty hb hg2]
  have := hg c.toNat (by omega) r.toNat (by omega) r'.toNat (by omega) (by omega)
  have e1 : ((r.toNat : Nat) : Int) = r := by omega
  have e2 : ((r'.toNat : Nat) : Int) = r' := by omega
  have e3 : ((c.toNat : Nat) : Int) = c := by omega
  rw [e1, e2, e3] at this
  exact this hocc

/-- On a 6x7 board without gaps, the top row is full exactly when the board
is. -/
theorem checkDraw_iff_full {board : Board} (hb : IsBoard board) (hg : Gravity board) :
    checkDraw board = true ↔
      ∀ r c : Int, 0 ≤ r → r < ROWS → 0 ≤ c → c < COLS → cell board r c ≠ some EMPTY := by
  rw [checkDraw_iff]
  constructor
  · intro h r c hr0 hr1 hc0 hc1
    by_cases hr : r = 0
    · subst hr; exact h c hc0 hc1
    · exact gravity_cells hb hg 0 r c (le_refl 0) (by omega) hr1 hc0 hc1 (h c hc0 hc1)
  · intro h c hc0 hc1
    exact h 0 c (le_refl 0) (by simp [ROWS]) hc0 hc1

/-- C11: in every state reached from the reset state by `handleCellClick`
calls, `checkDraw()` (the top row has no EMPTY cell) returns true if and only
if the whole board has no EMPTY cell: the top-row check is the same as
"board full". -/
theorem checkDraw_iff_full_of_reachable (fuel : Nat) (hf : 8 ≤ fuel) (s0 : State)
    (cols : List Int) (_hcols : ∀ c ∈ cols, 0 ≤ c ∧ c < (COLS : Int)) :
    ∃ s, clicks fuel (resetGame s0).1 cols = some s ∧
      (checkDraw s.board = true ↔
        ∀ r c : Int, 0 ≤ r → r < ROWS → 0 ≤ c → c < COLS →
          cell s.board r c ≠ some EMPTY) := by
  have hb0 : IsBoard (resetGame s0).1.board := by
    show IsBoard initializeBoard
    decide
  have hg0 : Gravity (resetGame s0).1.board := by
    show Gravity initializeBoard
    decide
  obtain ⟨s, hres, hb, hg⟩ := clicks_gravity fuel hf cols (resetGame s0).1 hb0 hg0
  exact ⟨s, hres, checkDraw_iff_full hb hg⟩

theorem checkDraw_iff_full_of_reachable_witness :
    ∃ s, clicks 8 (resetGame ⟨[], PLAYER2, true⟩).1 [3, 3, 3, 3, 3, 3, 2] = some s ∧
      (checkDraw s.board = true ↔
        ∀ r c : Int, 0 ≤ r → r < ROWS → 0 ≤ c → c < COLS →
          cell s.board r c ≠ some EMPTY) :=
  checkDraw_iff_full_of_reachable 8 (by decide) ⟨[], PLAYER2, true⟩ [3, 3, 3, 3, 3, 3, 2]
    (by decide)

/-! ## The shape of one step, and runs of clicks -/

/-- With enough fuel every click returns, and it is one of: a rejected click
that changes nothing; an accepted click that ends the game; an accepted click
that passes the turn. -/
theorem handleCellClick_step (fuel : Nat) (hf : 8 ≤ fuel) (s : State) (col : Int) :
    ∃ s' effects, handleCellClick fuel s col = some (s', effects) ∧
      ((¬ Accepted s col ∧ s' = s ∧ effects = []) ∨
        (Accepted s col ∧
          s'.board = setCell s.board (getAvailableRow s.board col) col s.currentPlayer ∧
          ((s'.gameOver = true ∧ s'.currentPlayer = s.currentPlayer) ∨
            (s'.gameOver = false ∧
              s'.currentPlayer = if s.currentPlayer = PLAYER1 then PLAYER2 else PLAYER1)))) := by
  by_cases hgo : s.gameOver = true
  · exact ⟨s, [], by simp [handleCellClick, hgo], Or.inl ⟨by simp [Accepted, hgo], rfl, rfl⟩⟩
  · have hgo' : s.gameOver = false := by simpa using hgo
    by_cases hrow : getAvailableRow s.board col = -1
    · exact ⟨s, [], by simp [handleCellClick, hgo', hrow],
        Or.inl ⟨by simp [Accepted, hrow], rfl, rfl⟩⟩
    · have hacc : Accepted s col := ⟨hgo', hrow⟩
      rw [handleCellClick_accepted fuel s col hgo' hrow]
      obtain ⟨b, hw⟩ := checkWin_terminates fuel hf
        (setCell s.board (getAvailableRow s.board col) col s.currentPlayer)
        (getAvailableRow s.board col) col
      rw [hw]
      cases b with
      | true => exact ⟨_, _, rfl, Or.inr ⟨hacc, rfl, Or.inl ⟨rfl, rfl⟩⟩⟩
      | false =>
        by_cases hd :
            checkDraw (setCell s.board (getAvailableRow s.board col) col s.currentPlayer)
        · simp only [hd, if_true]
          exact ⟨_, _, rfl, Or.inr ⟨hacc, rfl, Or.inl ⟨rfl, rfl⟩⟩⟩
        · simp only [hd]
          exact ⟨_, _, rfl, Or.inr ⟨hacc, rfl, Or.inr ⟨rfl, rfl⟩⟩⟩

/-- An invariant of single clicks holds after every sequence of clicks, and
with enough fuel the sequence returns. -/
theorem clicks_invariant (fuel : Nat) (hf : 8 ≤ fuel) (P : State → Prop)
    (hstep : ∀ s col s' effects, P s → handleCellClick fuel s col = some (s', effects) → P s') :
    ∀ (cols : List Int) (s : State), P s → ∃ s', clicks fuel s cols = some s' ∧ P s' := by
  intro cols
  induction cols with
  | nil => intro s hs; exact ⟨s, rfl, hs⟩
  | cons col cols ih =>
    intro s hs
    obtain ⟨s1, effects, hres, -⟩ := handleCellClick_step fuel hf s col
    obtain ⟨s2, hres2, hs2⟩ := ih s1 (hstep s col s1 effects hs hres)
    exact ⟨s2, by simp only [clicks, hres, hres2], hs2⟩

theorem clicks_append (fuel : Nat) (cols : List Int) (col : Int) :
    ∀ s : State, clicks fuel s (cols ++ [col]) =
      match clicks fuel s cols with
      | none => none
      | some s' =>
        match handleCellClick fuel s' col with
        | none => none
        | some (s'', _) => some s'' := by
  induction cols with
  | nil =>
    intro s
    simp only [List.nil_append, clicks]
  | cons c cols ih =>
    intro s
    simp only [List.cons_append, clicks]
    cases handleCellClick fuel s c with
    | none => rfl
    | some r => exact ih r.1

theorem acceptedClicks_append (fuel : Nat) (cols : List Int) (col : Int) :
    ∀ (s s' s'' : State) (effects : List Effect), clicks fuel s cols = some s' →
      handleCellClick fuel s' col = some (s'', effects) →
      acceptedClicks fuel s (cols ++ [col]) =
        acceptedClicks fuel s cols + if Accepted s' col then 1 else 0 := by
  induction cols with
  | nil =>
    intro s s' s'' effects h1 h2
    simp only [clicks, Option.some.injEq] at h1
    subst h1
    simp [acceptedClicks, h2]
  | cons c cols ih =>
    intro s s' s'' effects h1 h2
    simp only [clicks] at h1
    cases hc : handleCellClick fuel s c with
    | none => simp [hc] at h1
    | some r =>
      obtain ⟨s1, e1⟩ := r
      rw [hc] at h1
      have key := ih s1 s' s'' effects h1 h2
      rw [List.cons_append]
      simp only [acceptedClicks, hc]
      rw [key]
      omega

/-! ## Turn order -/

/-- While the game is on, whose turn it is follows the parity of the number of
accepted clicks. -/
theorem clicks_turn_parity (fuel : Nat) (hf : 8 ≤ fuel) :
    ∀ (cols : List Int) (s : State) (n : Nat),
      (s.gameOver = false → s.currentPlayer = if n % 2 = 0 then PLAYER1 else PLAYER2) →
      ∃ s', clicks fuel s cols = some s' ∧
        (s'.gameOver = false →
          s'.currentPlayer =
            if (n + acceptedClicks fuel s cols) % 2 = 0 then PLAYER1 else PLAYER2) := by
  intro cols
  induction cols with
  | nil => intro s n h; exact ⟨s, rfl, by simpa [acceptedClicks] using h⟩
  | cons col cols ih =>
    intro s n h
    obtain ⟨s1, effects, hres, hcase⟩ := handleCellClick_step fuel hf s col
    have hstep : s1.gameOver = false → s1.currentPlayer =
        if (n + if Accepted s col then 1 else 0) % 2 = 0 then PLAYER1 else PLAYER2 := by
      rcases hcase with ⟨hrej, hs, -⟩ | ⟨hacc, -, ⟨hover, -⟩ | ⟨-, hturn⟩⟩
      · subst hs
        simpa [hrej] using h
      · intro hgo; rw [hover] at hgo; cases hgo
      · intro _
        rw [hturn, h hacc.1]
        simp only [hacc, if_true]
        by_cases hn : n % 2 = 0
        · have hn1 : ¬ (n + 1) % 2 = 0 := by omega
          simp [hn, hn1]
        · have hn1 : (n + 1) % 2 = 0 := by omega
          simp [hn, hn1, PLAYER1, PLAYER2]
    obtain ⟨s2, hres2, h2⟩ := ih s1 _ hstep
    refine ⟨s2, by simp only [clicks, hres, hres2], ?_⟩
    simp only [acceptedClicks, hres]
    rw [← Nat.add_assoc]
    exact h2

/-- C12: in any sequence of `handleCellClick` calls started from the reset
state, the `k`-th accepted drop places a PLAYER1 disc when `k` is odd and a
PLAYER2 disc when `k` is even, and a rejected click changes nothing (so not
whose turn it is): consecutive accepted drops belong to different players.
Here `pre` is the sequence of clicks made so far, `col` the next click, and
`k` is one more than the number of accepted clicks of `pre`. -/
theorem accepted_drops_alternate (fuel : Nat) (hf : 8 ≤ fuel) (s0 : State)
    (pre : List Int) (_hpre : ∀ c ∈ pre, 0 ≤ c ∧ c < (COLS : Int)) (col : Int)
    (_hc0 : 0 ≤ col) (_hc1 : col < COLS) :
    ∃ s s' effects, clicks fuel (resetGame s0).1 pre = some s ∧
      handleCellClick fuel s col = some (s', effects) ∧
      (Accepted s col →
        acceptedClicks fuel (resetGame s0).1 (pre ++ [col]) =
            acceptedClicks fuel (resetGame s0).1 pre + 1 ∧
          cell s'.board (getAvailableRow s.board col) col =
            some (if (acceptedClicks fuel (resetGame s0).1 pre + 1) % 2 = 1
              then PLAYER1 else PLAYER2)) ∧
      (¬ Accepted s col →
        acceptedClicks fuel (resetGame s0).1 (pre ++ [col]) =
            acceptedClicks fuel (resetGame s0).1 pre ∧
          s' = s) := by
  obtain ⟨s, hs, hpar⟩ := clicks_turn_parity fuel hf pre (resetGame s0).1 0
    (fun _ => by simp [resetGame])
  obtain ⟨s', effects, hres, hcase⟩ := handleCellClick_step fuel hf s col
  have happ := acceptedClicks_append fuel pre col (resetGame s0).1 s s' effects hs hres
  refine ⟨s, s', effects, hs, hres, ?_, ?_⟩
  · intro hacc
    refine ⟨by simpa [hacc] using happ, ?_⟩
    rcases hcase with ⟨hrej, -, -⟩ | ⟨-, hboard, -⟩
    · exact absurd hacc hrej
    · obtain ⟨-, -, hemp, -⟩ := getAvailableRow_of_ne_neg_one s.board col hacc.2
      rw [hboard, cell_setCell_same _ _ _ _ (by rw [hemp]; rfl), hpar hacc.1]
      congr 1
      simp only [Nat.zero_add]
      by_cases hn : acceptedClicks fuel (resetGame s0).1 pre % 2 = 0
      · have hn1 : (acceptedClicks fuel (resetGame s0).1 pre + 1) % 2 = 1 := by omega
        simp [hn, hn1]
      · have hn1 : ¬ (acceptedClicks fuel (resetGame s0).1 pre + 1) % 2 = 1 := by omega
        simp [hn, hn1]
  · intro hrej
    refine ⟨by simpa [hrej] using happ, ?_⟩
    rcases hcase with ⟨-, hs', -⟩ | ⟨hacc, -, -⟩
    · exact hs'
    · exact absurd hacc hrej

theorem accepted_drops_alternate_witness :
    ∃ s s' effects, clicks 8 (resetGame ⟨[], PLAYER2, true⟩).1 [0, 0, 0, 0, 0, 0, 0, 1] = some s ∧
      handleCellClick 8 s 2 = some (s', effects) ∧
      (Accepted s 2 →
        acceptedClicks 8 (resetGame ⟨[], PLAYER2, true⟩).1 ([0, 0, 0, 0, 0, 0, 0, 1] ++ [2]) =
            acceptedClicks 8 (resetGame ⟨[], PLAYER2, true⟩).1 [0, 0, 0, 0, 0, 0, 0, 1] + 1 ∧
          cell s'.board (getAvailableRow s.board 2) 2 =
            some (if (acceptedClicks 8 (resetGame ⟨[], PLAYER2, true⟩).1
                [0, 0, 0, 0, 0, 0, 0, 1] + 1) % 2 = 1
              then PLAYER1 else PLAYER2)) ∧
      (¬ Accepted s 2 →
        acceptedClicks 8 (resetGame ⟨[], PLAYER2, true⟩).1 ([0, 0, 0, 0, 0, 0, 0, 1] ++ [2]) =
            acceptedClicks 8 (resetGame ⟨[], PLAYER2, true⟩).1 [0, 0, 0, 0, 0, 0, 0, 1] ∧
          s' = s) :=
  accepted_drops_alternate 8 (by decide) ⟨[], PLAYER2, true⟩ [0, 0, 0, 0, 0, 0, 0, 1]
    (by decide) 2 (by decide) (by decide)

/-! ## Counting discs -/

theorem mem_gridCells (r c : Int) : (r, c) ∈ gridCells ↔ inGrid r c := by
  unfold gridCells inGrid
  rw [List.mem_flatMap]
  constructor
  · rintro ⟨a, ha, hmem⟩
    obtain ⟨b, hb, heq⟩ := List.exists_of_mem_map hmem
    rw [List.mem_range] at ha hb
    obtain ⟨rfl, rfl⟩ := Prod.mk.inj heq
    exact ⟨by omega, by exact_mod_cast ha, by omega, by exact_mod_cast hb⟩
  · rintro ⟨h1, h2, h3, h4⟩
    have hr : r.toNat < ROWS := by omega
    have hc : c.toNat < COLS := by omega
    refine ⟨r.toNat, List.mem_range.mpr hr, ?_⟩
    have hmem := List.mem_map_of_mem (fun k : Nat => (((r.toNat : Nat) : Int), (k : Int)))
      (List.mem_range.mpr hc)
    have e1 : ((r.toNat : Nat) : Int) = r := by omega
    have e2 : ((c.toNat : Nat) : Int) = c := by omega
    simp only [e1, e2] at hmem ⊢
    exact hmem

theorem nodup_gridCells : gridCells.Nodup := by decide

/-- Two predicates that differ at exactly one element of a list without
repetitions, where the second holds and the first does not, differ by one in
their counts. -/
theorem countP_flip {α : Type} (l : List α) (hnd : l.Nodup) (x : α) (hx : x ∈ l)
    (p q : α → Bool) (hp : p x = false) (hq : q x = true)
    (hothers : ∀ y ∈ l, y ≠ x → p y = q y) : l.countP q = l.countP p + 1 := by
  induction l with
  | nil => cases hx
  | cons a t ih =>
    rw [List.nodup_cons] at hnd
    by_cases hax : a = x
    · subst hax
      have hsame : t.countP q = t.countP p := by
        apply List.countP_congr
        intro y hy
        have hne : y ≠ a := fun h => hnd.1 (h ▸ hy)
        rw [hothers y (List.mem_cons_of_mem _ hy) hne]
      rw [List.countP_cons, List.countP_cons, hsame]
      simp [hp, hq]
    · have hxt : x ∈ t := by
        rcases List.mem_cons.mp hx with h | h
        · exact absurd h.symm hax
        · exact h
      have iht := ih hnd.2 hxt (fun y hy hne => hothers y (List.mem_cons_of_mem _ hy) hne)
      have hpa := hothers a (List.mem_cons_self _ _) hax
      rw [List.countP_cons, List.countP_cons, iht, hpa]
      omega

/-- Writing a disc into an EMPTY cell of the grid adds one to the number of
discs. -/
theorem discCount_setCell (board : Board) (row col : Int) (v : Nat)
    (hg : inGrid row col) (hemp : cell board row col = some EMPTY) (hv : v ≠ EMPTY) :
    discCount (setCell board row col v) = discCount board + 1 := by
  unfold discCount
  apply countP_flip gridCells nodup_gridCells (row, col) ((mem_gridCells row col).mpr hg)
  · simp [Occupied, hemp]
  · have := cell_setCell_same board row col v (by rw [hemp]; rfl)
    simp [Occupied, this, hv]
  · rintro ⟨r, c⟩ - hne
    have h : r ≠ row ∨ c ≠ col := by
      by_contra hcon
      push_neg at hcon
      exact hne (by rw [hcon.1, hcon.2])
    simp only [decide_eq_decide]
    exact (occupied_setCell_other board row col v r c h).symm

/-- Every click leaves `currentPlayer` one of the two players. -/
theorem handleCellClick_player (fuel : Nat) (hf : 8 ≤ fuel) (s : State) (col : Int)
    (s' : State) (effects : List Effect)
    (hp : s.currentPlayer = PLAYER1 ∨ s.currentPlayer = PLAYER2)
    (hres : handleCellClick fuel s col = some (s', effects)) :
    s'.currentPlayer = PLAYER1 ∨ s'.currentPlayer = PLAYER2 := by
  obtain ⟨s1, e1, hres1, hcase⟩ := handleCellClick_step fuel hf s col
  rw [hres] at hres1
  obtain ⟨rfl, rfl⟩ := Prod.mk.inj (Option.some.inj hres1)
  rcases hcase with ⟨-, hs, -⟩ | ⟨-, -, ⟨-, hsame⟩ | ⟨-, hturn⟩⟩
  · rw [hs]; exact hp
  · rw [hsame]; exact hp
  · rw [hturn]
    rcases hp with h | h
    · right; simp [h]
    · left; simp [h, PLAYER1, PLAYER2]

/-- Along a sequence of clicks on columns of the grid the number of discs
grows by the number of accepted clicks. -/
theorem clicks_discCount (fuel : Nat) (hf : 8 ≤ fuel) :
    ∀ (cols : List Int) (s : State), (∀ c ∈ cols, 0 ≤ c ∧ c < (COLS : Int)) →
      (s.currentPlayer = PLAYER1 ∨ s.currentPlayer = PLAYER2) →
      ∃ s', clicks fuel s cols = some s' ∧
        discCount s'.board = discCount s.board + acceptedClicks fuel s cols := by
  intro cols
  induction cols with
  | nil => intro s _ _; exact ⟨s, rfl, rfl⟩
  | cons col cols ih =>
    intro s hcols hp
    obtain ⟨s1, effects, hres, hcase⟩ := handleCellClick_step fuel hf s col
    have hp1 := handleCellClick_player fuel hf s col s1 effects hp hres
    obtain ⟨s2, hres2, hcount⟩ :=
      ih s1 (fun c hc => hcols c (List.mem_cons_of_mem _ hc)) hp1
    refine ⟨s2, by simp only [clicks, hres, hres2], ?_⟩
    simp only [acceptedClicks, hres]
    rw [hcount]
    rcases hcase with ⟨hrej, hs, -⟩ | ⟨hacc, hboard, -⟩
    · rw [hs]; simp [hrej]
    · obtain ⟨h0, h1, hemp, -⟩ := getAvailableRow_of_ne_neg_one s.board col hacc.2
      have hcol := hcols col (List.mem_cons_self _ _)
      have hne : s.currentPlayer ≠ EMPTY := by
        rcases hp with h | h <;> rw [h] <;> decide
      rw [hboard, discCount_setCell _ _ _ _ ⟨h0, h1, hcol.1, hcol.2⟩ hemp hne]
      simp only [hacc, if_true]
      omega

/-- C13: for every sequence of `handleCellClick` calls started from the reset
state, the number of non-EMPTY cells on the board equals the number of calls
in the sequence that were accepted (made with `gameOver = false` on a column
that was not full). -/
theorem discCount_eq_acceptedClicks (fuel : Nat) (hf : 8 ≤ fuel) (s0 : State)
    (cols : List Int) (hcols : ∀ c ∈ cols, 0 ≤ c ∧ c < (COLS : Int)) :
    ∃ s, clicks fuel (resetGame s0).1 cols = some s ∧
      discCount s.board = acceptedClicks fuel (resetGame s0).1 cols := by
  obtain ⟨s, hres, hcount⟩ := clicks_discCount fuel hf cols (resetGame s0).1 hcols
    (Or.inl rfl)
  refine ⟨s, hres, ?_⟩
  rw [hcount]
  show discCount initializeBoard + _ = _
  have h0 : discCount initializeBoard = 0 := by decide
  rw [h0, Nat.zero_add]

theorem discCount_eq_acceptedClicks_witness :
    (∃ s, clicks 8 (resetGame ⟨[], PLAYER2, true⟩).1 [0, 0, 0, 0, 0, 0, 0, 1] = some s ∧
      discCount s.board = acceptedClicks 8 (resetGame ⟨[], PLAYER2, true⟩).1
        [0, 0, 0, 0, 0, 0, 0, 1]) ∧
    acceptedClicks 8 (resetGame ⟨[], PLAYER2, true⟩).1 [0, 0, 0, 0, 0, 0, 0, 1] = 7 :=
  ⟨discCount_eq_acceptedClicks 8 (by decide) ⟨[], PLAYER2, true⟩ [0, 0, 0, 0, 0, 0, 0, 1]
    (by decide), by decide⟩

/-! ## Discs stay where they are -/

/-- C14: for every state and every `handleCellClick` call, each cell that is
non-EMPTY before the call holds the same value after the call: a placed disc
is never removed or overwritten by a drop. -/
theorem handleCellClick_keeps_discs (fuel : Nat) (hf : 8 ≤ fuel) (s : State)
    (_hb : IsBoard s.board) (col : Int) (_hc0 : 0 ≤ col) (_hc1 : col < COLS) :
    ∃ s' effects, handleCellClick fuel s col = some (s', effects) ∧
      ∀ (r c : Int) (v : Nat), cell s.board r c = some v → v ≠ EMPTY →
        cell s'.board r c = some v := by
  obtain ⟨s', effects, hres, hcase⟩ := handleCellClick_board fuel hf s col
  refine ⟨s', effects, hres, ?_⟩
  intro r c v hv hne
  rcases hcase with h | ⟨-, hrow, hboard⟩
  · rw [h]; exact hv
  · obtain ⟨-, -, hemp, -⟩ := getAvailableRow_of_ne_neg_one s.board col hrow
    have hother : r ≠ getAvailableRow s.board col ∨ c ≠ col := by
      by_contra hcon
      push_neg at hcon
      rw [hcon.1, hcon.2, hemp] at hv
      exact hne (Option.some.inj hv).symm
    rw [hboard, cell_setCell_other _ _ _ _ r c hother]
    exact hv

theorem handleCellClick_keeps_discs_witness :
    ∃ s' effects, handleCellClick 8 ⟨diagonalBoard, PLAYER2, false⟩ 3 = some (s', effects) ∧
      ∀ (r c : Int) (v : Nat), cell diagonalBoard r c = some v → v ≠ EMPTY →
        cell s'.board r c = some v :=
  handleCellClick_keeps_discs 8 (by decide) ⟨diagonalBoard, PLAYER2, false⟩ (by decide) 3
    (by decide) (by decide)

/-! ## Counting the discs of one column -/

theorem columnCount_setCell_same (board : Board) (row col : Int) (v : Nat)
    (hg : inGrid row col) (hemp : cell board row col = some EMPTY) (hv : v ≠ EMPTY) :
    columnCount (setCell board row col v) col = columnCount board col + 1 := by
  unfold columnCount
  apply countP_flip gridCells nodup_gridCells (row, col) ((mem_gridCells row col).mpr hg)
  · simp [Occupied, hemp]
  · have := cell_setCell_same board row col v (by rw [hemp]; rfl)
    simp [Occupied, this, hv]
  · rintro ⟨r, c⟩ - hne
    simp only [decide_eq_decide]
    by_cases hc : c = col
    · have h : r ≠ row ∨ c ≠ col := by
        left
        intro hr
        exact hne (by rw [hr, hc])
      rw [occupied_setCell_other board row col v r c h]
    · simp [hc]

theorem columnCount_setCell_other (board : Board) (row col : Int) (v : Nat) (c : Int)
    (hc : c ≠ col) :
    columnCount (setCell board row col v) c = columnCount board c := by
  unfold columnCount
  apply List.countP_congr
  rintro ⟨r, c'⟩ -
  simp only [decide_eq_true_eq]
  by_cases hc' : c' = c
  · rw [occupied_setCell_other board row col v r c' (Or.inr (by rw [hc']; exact hc))]
  · simp [hc']

/-- A column of the grid has `ROWS` cells. -/
theorem columnCount_le (board : Board) (c : Int) (hc0 : 0 ≤ c) (hc1 : c < COLS) :
    columnCount board c ≤ ROWS := by
  have hle : columnCount board c ≤ gridCells.countP (fun rc => decide (rc.2 = c)) := by
    unfold columnCount
    apply List.countP_mono_left
    intro x _ hx
    simp only [decide_eq_true_eq] at hx ⊢
    exact hx.1
  have hcases : c = 0 ∨ c = 1 ∨ c = 2 ∨ c = 3 ∨ c = 4 ∨ c = 5 ∨ c = 6 := by
    simp only [COLS] at hc1; omega
  have h6 : gridCells.countP (fun rc => decide (rc.2 = c)) = ROWS := by
    rcases hcases with h | h | h | h | h | h | h <;> subst h <;> decide
  omega

/-- If a predicate, stronger than another, is counted as often in a list, the
two agree on the list. -/
theorem countP_eq_imp {α : Type} (p q : α → Bool) (l : List α)
    (himp : ∀ x ∈ l, p x = true → q x = true) (heq : l.countP p = l.countP q) :
    ∀ x ∈ l, q x = true → p x = true := by
  induction l with
  | nil => intro x hx; cases hx
  | cons a t ih =>
    have hmono : t.countP p ≤ t.countP q :=
      List.countP_mono_left (fun x hx => himp x (List.mem_cons_of_mem _ hx))
    rw [List.countP_cons, List.countP_cons] at heq
    have ha := himp a (List.mem_cons_self _ _)
    intro x hx hq
    rcases List.mem_cons.mp hx with h | h
    · subst h
      by_contra hp
      simp only [hp, hq, if_true] at heq
      simp at heq
      omega
    · apply ih (fun y hy => himp y (List.mem_cons_of_mem _ hy)) _ x h hq
      by_cases hpa : p a = true
      · simp only [hpa, ha hpa, if_true] at heq
        omega
      · by_cases hqa : q a = true
        · simp only [hpa, hqa, if_true] at heq
          simp at heq
          omega
        · simp only [hpa, hqa] at heq
          simpa using heq

theorem countP_column (c : Int) (hc0 : 0 ≤ c) (hc1 : c < COLS) :
    gridCells.countP (fun rc => decide (rc.2 = c)) = ROWS := by
  have hcases : c = 0 ∨ c = 1 ∨ c = 2 ∨ c = 3 ∨ c = 4 ∨ c = 5 ∨ c = 6 := by
    simp only [COLS] at hc1; omega
  rcases hcases with h | h | h | h | h | h | h <;> subst h <;> decide

/-- A column that holds `ROWS` discs has no EMPTY cell, and `getAvailableRow`
answers `-1` on it. -/
theorem getAvailableRow_of_columnCount (board : Board) (c : Int) (hc0 : 0 ≤ c)
    (hc1 : c < COLS) (hfull : columnCount board c = ROWS) :
    getAvailableRow board c = -1 := by
  rw [getAvailableRow_eq_neg_one_iff]
  intro r hr0 hr1 hemp
  have hall := countP_eq_imp
    (fun rc : Int × Int => decide (rc.2 = c ∧ Occupied board rc.1 rc.2))
    (fun rc : Int × Int => decide (rc.2 = c)) gridCells
    (fun x _ hx => by
      simp only [decide_eq_true_eq] at hx ⊢
      exact hx.1)
    (by
      rw [countP_column c hc0 hc1]
      exact hfull)
    (r, c) ((mem_gridCells r c).mpr ⟨hr0, hr1, hc0, hc1⟩) (by simp)
  simp only [decide_eq_true_eq, true_and] at hall
  simp [Occupied, hemp] at hall

/-- Along a sequence of clicks on columns of the grid the number of discs in
column `c` grows by the number of accepted clicks on `c`. -/
theorem clicks_columnCount (fuel : Nat) (hf : 8 ≤ fuel) (c : Int) :
    ∀ (cols : List Int) (s : State), (∀ k ∈ cols, 0 ≤ k ∧ k < (COLS : Int)) →
      (s.currentPlayer = PLAYER1 ∨ s.currentPlayer = PLAYER2) →
      ∃ s', clicks fuel s cols = some s' ∧
        columnCount s'.board c = columnCount s.board c + acceptedClicksOn fuel c s cols := by
  intro cols
  induction cols with
  | nil => intro s _ _; exact ⟨s, rfl, rfl⟩
  | cons col cols ih =>
    intro s hcols hp
    obtain ⟨s1, effects, hres, hcase⟩ := handleCellClick_step fuel hf s col
    have hp1 := handleCellClick_player fuel hf s col s1 effects hp hres
    obtain ⟨s2, hres2, hcount⟩ :=
      ih s1 (fun k hk => hcols k (List.mem_cons_of_mem _ hk)) hp1
    refine ⟨s2, by simp only [clicks, hres, hres2], ?_⟩
    simp only [acceptedClicksOn, hres]
    rw [hcount]
    rcases hcase with ⟨hrej, hs, -⟩ | ⟨hacc, hboard, -⟩
    · rw [hs]; simp [hrej]
    · obtain ⟨h0, h1, hemp, -⟩ := getAvailableRow_of_ne_neg_one s.board col hacc.2
      have hcol := hcols col (List.mem_cons_self _ _)
      have hne : s.currentPlayer ≠ EMPTY := by
        rcases hp with h | h <;> rw [h] <;> decide
      by_cases hcc : col = c
      · subst hcc
        rw [hboard, columnCount_setCell_same _ _ _ _ ⟨h0, h1, hcol.1, hcol.2⟩ hemp hne]
        simp only [hacc, and_self, if_true]
        omega
      · rw [hboard, columnCount_setCell_other _ _ _ _ c (fun h => hcc h.symm)]
        simp [hcc]

/-- C15: for every sequence of `handleCellClick` calls started from the reset
state and every column `c`, at most `ROWS = 6` of the calls on `c` are
accepted (as many as column `c` holds discs); and in the state reached, once
column `c` holds 6 discs a call on `c` is rejected and changes nothing. -/
theorem column_accepts_at_most_rows (fuel : Nat) (hf : 8 ≤ fuel) (s0 : State)
    (cols : List Int) (hcols : ∀ k ∈ cols, 0 ≤ k ∧ k < (COLS : Int)) (c : Int)
    (hc0 : 0 ≤ c) (hc1 : c < COLS) :
    acceptedClicksOn fuel c (resetGame s0).1 cols ≤ ROWS ∧
      ∃ s, clicks fuel (resetGame s0).1 cols = some s ∧
        columnCount s.board c = acceptedClicksOn fuel c (resetGame s0).1 cols ∧
        (columnCount s.board c = ROWS → handleCellClick fuel s c = some (s, [])) := by
  obtain ⟨s, hres, hcount⟩ := clicks_columnCount fuel hf c cols (resetGame s0).1 hcols
    (Or.inl rfl)
  have h0 : columnCount (resetGame s0).1.board c = 0 := by
    show columnCount initializeBoard c = 0
    have hle : columnCount initializeBoard c ≤ discCount initializeBoard := by
      unfold columnCount discCount
      apply List.countP_mono_left
      intro x _ hx
      simp only [decide_eq_true_eq] at hx ⊢
      exact hx.2
    have hz : discCount initializeBoard = 0 := by decide
    omega
  rw [h0, Nat.zero_add] at hcount
  refine ⟨?_, s, hres, hcount, ?_⟩
  · rw [← hcount]
    exact columnCount_le s.board c hc0 hc1
  · intro hfull
    have hrow := getAvailableRow_of_columnCount s.board c hc0 hc1 hfull
    by_cases hgo : s.gameOver = true
    · simp [handleCellClick, hgo]
    · simp [handleCellClick, hgo, hrow]

theorem column_accepts_at_most_rows_witness :
    (acceptedClicksOn 8 0 (resetGame ⟨[], PLAYER2, true⟩).1 [0, 0, 0, 0, 0, 0, 0, 1] ≤ ROWS ∧
      ∃ s, clicks 8 (resetGame ⟨[], PLAYER2, true⟩).1 [0, 0, 0, 0, 0, 0, 0, 1] = some s ∧
        columnCount s.board 0 =
          acceptedClicksOn 8 0 (resetGame ⟨[], PLAYER2, true⟩).1 [0, 0, 0, 0, 0, 0, 0, 1] ∧
        (columnCount s.board 0 = ROWS → handleCellClick 8 s 0 = some (s, []))) ∧
    acceptedClicksOn 8 0 (resetGame ⟨[], PLAYER2, true⟩).1 [0, 0, 0, 0, 0, 0, 0, 1] = 6 :=
  ⟨column_accepts_at_most_rows 8 (by decide) ⟨[], PLAYER2, true⟩ [0, 0, 0, 0, 0, 0, 0, 1]
    (by decide) 0 (by decide) (by decide), by decide⟩

/-! ## Fuel: eight steps are as good as more -/

theorem countLoop_fuel_succ (board : Board) (player : Option Nat) (dr dc : Int) :
    ∀ (fuel : Nat) (r c : Int) (count m : Nat),
      countLoop board player dr dc fuel r c count = some m →
      countLoop board player dr dc (fuel + 1) r c count = some m := by
  intro fuel
  induction fuel with
  | zero => intro r c count m h; simp [countLoop] at h
  | succ fuel ih =>
    intro r c count m h
    unfold countLoop at h ⊢
    split
    · rename_i hcond
      rw [if_pos hcond] at h
      exact ih _ _ _ _ h
    · rename_i hcond
      rw [if_neg hcond] at h
      exact h

theorem countLoop_fuel_le (board : Board) (player : Option Nat) (dr dc : Int)
    (fuel fuel' : Nat) (hle : fuel ≤ fuel') (r c : Int) (count m : Nat)
    (h : countLoop board player dr dc fuel r c count = some m) :
    countLoop board player dr dc fuel' r c count = some m := by
  induction fuel' with
  | zero =>
    have : fuel = 0 := by omega
    subst this; exact h
  | succ k ih =>
    by_cases hk : fuel ≤ k
    · exact countLoop_fuel_succ _ _ _ _ _ _ _ _ _ (ih hk)
    · have : fuel = k + 1 := by omega
      subst this; exact h

theorem checkDirection_fuel (fuel : Nat) (hf : 8 ≤ fuel) (board : Board)
    (row col dr dc : Int) (hd : dr ≠ 0 ∨ dc ≠ 0) :
    checkDirection fuel board row col dr dc = checkDirection 8 board row col dr dc := by
  have hd' : -dr ≠ 0 ∨ -dc ≠ 0 := by omega
  obtain ⟨m1, h1⟩ := countLoop_terminates board (cell board row col) dr dc hd 8 (le_refl 8)
    (row + dr) (col + dc) 1
  obtain ⟨m2, h2⟩ := countLoop_terminates board (cell board row col) (-dr) (-dc) hd' 8
    (le_refl 8) (row - dr) (col - dc) m1
  have h1' := countLoop_fuel_le _ _ _ _ 8 fuel hf _ _ _ _ h1
  have h2' := countLoop_fuel_le _ _ _ _ 8 fuel hf _ _ _ _ h2
  simp only [checkDirection, h1, h2, h1', h2']

theorem checkWin_fuel (fuel : Nat) (hf : 8 ≤ fuel) (board : Board) (row col : Int) :
    checkWin fuel board row col = checkWin 8 board row col := by
  unfold checkWin
  rw [checkDirection_fuel fuel hf board row col 0 1 (by omega),
    checkDirection_fuel fuel hf board row col 1 0 (by omega),
    checkDirection_fuel fuel hf board row col 1 1 (by omega),
    checkDirection_fuel fuel hf board row col 1 (-1) (by omega)]

theorem handleCellClick_fuel (fuel : Nat) (hf : 8 ≤ fuel) (s : State) (col : Int) :
    handleCellClick fuel s col = handleCellClick 8 s col := by
  unfold handleCellClick
  simp only [checkWin_fuel fuel hf]

theorem clicks_fuel (fuel : Nat) (hf : 8 ≤ fuel) (cols : List Int) :
    ∀ s : State, clicks fuel s cols = clicks 8 s cols := by
  induction cols with
  | nil => intro s; rfl
  | cons col cols ih =>
    intro s
    simp only [clicks, handleCellClick_fuel fuel hf]
    cases handleCellClick 8 s col with
    | none => rfl
    | some r => exact ih r.1

/-! ## Winning lines -/

/-- With enough fuel `checkWin` decides whether four cells in a line through
`(row, col)` hold the value of `(row, col)`. -/
theorem checkWin_eq_decide (fuel : Nat) (hf : 8 ≤ fuel) (board : Board)
    (row col : Int) (hg : inGrid row col) (p : Nat)
    (hcell : cell board row col = some p) :
    checkWin fuel board row col = some (decide (FourThrough board row col p)) := by
  unfold checkWin FourThrough
  rw [checkDirection_iff_fourAlong fuel hf board row col 0 1 (by omega) p hg hcell,
    checkDirection_iff_fourAlong fuel hf board row col 1 0 (by omega) p hg hcell,
    checkDirection_iff_fourAlong fuel hf board row col 1 1 (by omega) p hg hcell,
    checkDirection_iff_fourAlong fuel hf board row col 1 (-1) (by omega) p hg hcell]
  simp only [lazyOr_some, Bool.decide_or]

/-- On a 6x7 board only cells of the grid can be read. -/
theorem inGrid_of_cell {board : Board} (hb : IsBoard board) {r c : Int} {v : Nat}
    (h : cell board r c = some v) : inGrid r c := by
  obtain ⟨hlen, hrows⟩ := hb
  unfold cell at h
  split at h
  · rename_i hrc
    have hlt : r.toNat < board.length := by
      by_contra hcon
      rw [List.getElem?_eq_none (by omega)] at h
      simp at h
    rw [List.getElem?_eq_getElem hlt] at h
    simp only [Option.some_bind] at h
    have hlt2 : c.toNat < (board[r.toNat]).length := by
      by_contra hcon
      rw [List.getElem?_eq_none (by omega)] at h
      simp at h
    rw [hrows _ (List.getElem_mem hlt)] at hlt2
    exact ⟨hrc.1, by omega, hrc.2, by omega⟩
  · simp at h

/-- An accepted drop that completes four in a line through the placed cell
ends the game as a win for the player who dropped. -/
theorem handleCellClick_of_four (fuel : Nat) (hf : 8 ≤ fuel) (s : State)
    (hgo : s.gameOver = false) (col : Int) (hc0 : 0 ≤ col) (hc1 : col < COLS)
    (hrow : getAvailableRow s.board col ≠ -1)
    (hfour : FourThrough (setCell s.board (getAvailableRow s.board col) col s.currentPlayer)
      (getAvailableRow s.board col) col s.currentPlayer) :
    handleCellClick fuel s col =
      some ({ board := setCell s.board (getAvailableRow s.board col) col s.currentPlayer,
              currentPlayer := s.currentPlayer, gameOver := true },
        [Effect.updateCell (getAvailableRow s.board col) col s.currentPlayer,
         Effect.showWinner s.currentPlayer, Effect.createFireworks]) := by
  obtain ⟨h0, h1, hemp, -⟩ := getAvailableRow_of_ne_neg_one s.board col hrow
  have hnew := cell_setCell_same s.board (getAvailableRow s.board col) col s.currentPlayer
    (by rw [hemp]; rfl)
  have hw := checkWin_eq_decide fuel hf _ _ _ ⟨h0, h1, hc0, hc1⟩ _ hnew
  rw [decide_eq_true hfour] at hw
  rw [handleCellClick_accepted fuel s col hgo hrow, hw]

theorem clicks_vertical :
    clicks 8 ⟨initializeBoard, PLAYER1, false⟩ [0, 1, 0, 1, 0, 1, 0] =
      some ⟨verticalBoard, PLAYER1, true⟩ := by
  decide!

/-- C16: vertical win.  For every non-terminal state in which the three cells
directly below the lowest EMPTY cell `(row, col)` of a column hold the current
player's discs, clicking that column ends the game as a win for that player,
and the vertical check `checkDirection(row, col, 1, 0)` is true.  In
particular, from the reset state the clicks on columns 0,1,0,1,0,1,0 leave
PLAYER1 discs at rows 5,4,3,2 of column 0 and end with `gameOver = true` and
`currentPlayer = PLAYER1`. -/
theorem vertical_win (fuel : Nat) (hf : 8 ≤ fuel) (s : State) (_hb : IsBoard s.board)
    (hgo : s.gameOver = false) (col : Int) (hc0 : 0 ≤ col) (hc1 : col < COLS)
    (row : Int) (hrow : getAvailableRow s.board col = row) (hne : row ≠ -1)
    (hlt : row + 3 < ROWS)
    (h1 : cell s.board (row + 1) col = some s.currentPlayer)
    (h2 : cell s.board (row + 2) col = some s.currentPlayer)
    (h3 : cell s.board (row + 3) col = some s.currentPlayer) (s0 : State) :
    handleCellClick fuel s col =
        some ({ board := setCell s.board row col s.currentPlayer,
                currentPlayer := s.currentPlayer, gameOver := true },
          [Effect.updateCell row col s.currentPlayer,
           Effect.showWinner s.currentPlayer, Effect.createFireworks]) ∧
      checkDirection fuel (setCell s.board row col s.currentPlayer) row col 1 0 = some true ∧
      clicks fuel (resetGame s0).1 [0, 1, 0, 1, 0, 1, 0] =
        some ⟨verticalBoard, PLAYER1, true⟩ ∧
      cell verticalBoard 5 0 = some PLAYER1 ∧ cell verticalBoard 4 0 = some PLAYER1 ∧
      cell verticalBoard 3 0 = some PLAYER1 ∧ cell verticalBoard 2 0 = some PLAYER1 := by
  subst hrow
  obtain ⟨h0, hr1, hemp, -⟩ := getAvailableRow_of_ne_neg_one s.board col hne
  have hg : inGrid (getAvailableRow s.board col) col := ⟨h0, hr1, hc0, hc1⟩
  have hnew := cell_setCell_same s.board (getAvailableRow s.board col) col s.currentPlayer
    (by rw [hemp]; rfl)
  have hfour : FourAlong (setCell s.board (getAvailableRow s.board col) col s.currentPlayer)
      (getAvailableRow s.board col) col 1 0 s.currentPlayer := by
    refine ⟨0, by omega, ?_⟩
    intro i hi
    have hcases : i = 0 ∨ i = 1 ∨ i = 2 ∨ i = 3 := by omega
    rcases hcases with h | h | h | h <;> subst h
    · simpa [matchesAt] using And.intro hg hnew
    · refine ⟨⟨by omega, by push_cast; omega, by omega, by omega⟩, ?_⟩
      rw [cell_setCell_other _ _ _ _ _ _ (Or.inl (by push_cast; omega))]
      simpa using h1
    · refine ⟨⟨by omega, by push_cast; omega, by omega, by omega⟩, ?_⟩
      rw [cell_setCell_other _ _ _ _ _ _ (Or.inl (by push_cast; omega))]
      simpa using h2
    · refine ⟨⟨by omega, by push_cast; omega, by omega, by omega⟩, ?_⟩
      rw [cell_setCell_other _ _ _ _ _ _ (Or.inl (by push_cast; omega))]
      simpa using h3
  refine ⟨handleCellClick_of_four fuel hf s hgo col hc0 hc1 hne (Or.inr (Or.inl hfour)),
    ?_, ?_, by decide, by decide, by decide, by decide⟩
  · rw [checkDirection_iff_fourAlong fuel hf _ _ _ 1 0 (by omega) _ hg hnew,
      decide_eq_true hfour]
  · rw [clicks_fuel fuel hf]
    exact clicks_vertical

theorem vertical_win_witness :
    handleCellClick 8 ⟨setCell verticalBoard 2 0 EMPTY, PLAYER1, false⟩ 0 =
        some ({ board := setCell (setCell verticalBoard 2 0 EMPTY) 2 0 PLAYER1,
                currentPlayer := PLAYER1, gameOver := true },
          [Effect.updateCell 2 0 PLAYER1, Effect.showWinner PLAYER1,
           Effect.createFireworks]) ∧
      checkDirection 8 (setCell (setCell verticalBoard 2 0 EMPTY) 2 0 PLAYER1) 2 0 1 0 =
        some true ∧
      clicks 8 (resetGame ⟨[], PLAYER2, true⟩).1 [0, 1, 0, 1, 0, 1, 0] =
        some ⟨verticalBoard, PLAYER1, true⟩ ∧
      cell verticalBoard 5 0 = some PLAYER1 ∧ cell verticalBoard 4 0 = some PLAYER1 ∧
      cell verticalBoard 3 0 = some PLAYER1 ∧ cell verticalBoard 2 0 = some PLAYER1 :=
  vertical_win 8 (by decide) ⟨setCell verticalBoard 2 0 EMPTY, PLAYER1, false⟩ (by decide)
    rfl 0 (by decide) (by decide) 2 (by decide) (by decide) (by decide) (by decide)
    (by decide) (by decide) ⟨[], PLAYER2, true⟩

/-- C17: diagonal win.  For every non-terminal state in which PLAYER1 is the
current player and holds three of the cells `(5,0), (4,1), (3,2), (2,3)`, and
the fourth of those cells, `(5 - i, i)`, is the lowest EMPTY cell of its
column, clicking that column ends the game as a win for PLAYER1
(`gameOver = true`, `currentPlayer = PLAYER1`), and the diagonal check
`checkDirection(5 - i, i, 1, -1)` is true. -/
theorem diagonal_win (fuel : Nat) (hf : 8 ≤ fuel) (s : State) (_hb : IsBoard s.board)
    (hgo : s.gameOver = false) (hp : s.currentPlayer = PLAYER1) (i : Nat) (hi : i < 4)
    (hothers : ∀ j : Nat, j < 4 → j ≠ i →
      cell s.board (5 - (j : Int)) (j : Int) = some PLAYER1)
    (hlow : getAvailableRow s.board (i : Int) = 5 - (i : Int)) :
    handleCellClick fuel s (i : Int) =
        some ({ board := setCell s.board (5 - (i : Int)) (i : Int) PLAYER1,
                currentPlayer := PLAYER1, gameOver := true },
          [Effect.updateCell (5 - (i : Int)) (i : Int) PLAYER1,
           Effect.showWinner PLAYER1, Effect.createFireworks]) ∧
      checkDirection fuel (setCell s.board (5 - (i : Int)) (i : Int) PLAYER1)
        (5 - (i : Int)) (i : Int) 1 (-1) = some true := by
  have hne : getAvailableRow s.board (i : Int) ≠ -1 := by rw [hlow]; omega
  obtain ⟨-, -, hemp, -⟩ := getAvailableRow_of_ne_neg_one s.board (i : Int) hne
  rw [hlow] at hemp
  have hg : inGrid (5 - (i : Int)) (i : Int) := by
    refine ⟨by omega, ?_, by omega, ?_⟩
    · simp only [ROWS]; omega
    · simp only [COLS]; omega
  have hnew := cell_setCell_same s.board (5 - (i : Int)) (i : Int) PLAYER1
    (by rw [hemp]; rfl)
  have hfour : FourAlong (setCell s.board (5 - (i : Int)) (i : Int) PLAYER1)
      (5 - (i : Int)) (i : Int) 1 (-1) PLAYER1 := by
    refine ⟨3 - i, by omega, ?_⟩
    intro k hk
    have e1 : (5 : Int) - (i : Int) + ((k : Int) - ((3 - i : Nat) : Int)) * 1 =
        5 - ((3 - k : Nat) : Int) := by omega
    have e2 : (i : Int) + ((k : Int) - ((3 - i : Nat) : Int)) * (-1) =
        ((3 - k : Nat) : Int) := by omega
    rw [e1, e2]
    by_cases hki : 3 - k = i
    · rw [hki]
      exact ⟨hg, hnew⟩
    · refine ⟨⟨by omega, ?_, by omega, ?_⟩, ?_⟩
      · simp only [ROWS]; omega
      · simp only [COLS]; omega
      · rw [cell_setCell_other _ _ _ _ _ _ (Or.inr (by omega))]
        exact hothers (3 - k) (by omega) hki
  have hclick := handleCellClick_of_four fuel hf s hgo (i : Int) (by omega)
    (by simp only [COLS]; omega) hne
    (by rw [hlow, hp]; exact Or.inr (Or.inr (Or.inr hfour)))
  rw [hlow, hp] at hclick
  refine ⟨hclick, ?_⟩
  rw [checkDirection_iff_fourAlong fuel hf _ _ _ 1 (-1) (by omega) _ hg hnew,
    decide_eq_true hfour]

theorem diagonal_win_witness :
    handleCellClick 8 ⟨setCell diagonalBoard 2 3 EMPTY, PLAYER1, false⟩ ((3 : Nat) : Int) =
        some ({ board := setCell (setCell diagonalBoard 2 3 EMPTY)
                  (5 - ((3 : Nat) : Int)) ((3 : Nat) : Int) PLAYER1,
                currentPlayer := PLAYER1, gameOver := true },
          [Effect.updateCell (5 - ((3 : Nat) : Int)) ((3 : Nat) : Int) PLAYER1,
           Effect.showWinner PLAYER1, Effect.createFireworks]) ∧
      checkDirection 8 (setCell (setCell diagonalBoard 2 3 EMPTY)
          (5 - ((3 : Nat) : Int)) ((3 : Nat) : Int) PLAYER1)
        (5 - ((3 : Nat) : Int)) ((3 : Nat) : Int) 1 (-1) = some true :=
  diagonal_win 8 (by decide) ⟨setCell diagonalBoard 2 3 EMPTY, PLAYER1, false⟩ (by decide)
    rfl rfl 3 (by decide) (by decide) (by decide)

/-! ## What `checkDirection` counts -/

/-- C19: for every 6x7 board, every cell `(row, col)` of the grid and each of
the four directions `(0,1), (1,0), (1,1), (1,-1)`, `checkDirection` returns
`true` if and only if `1 + p + n ≥ 4`, where `p` (resp. `n`) is the number of
consecutive cells of the grid, starting one step from `(row, col)` in the
positive (resp. negative) sense of the direction, whose value equals
`board[row][col]`: the cells at steps `1..p` match and the cell at step
`p + 1` is outside the grid or holds a different value (EMPTY included). -/
theorem checkDirection_counts (fuel : Nat) (hf : 8 ≤ fuel) (board : Board)
    (_hb : IsBoard board) (row col : Int) (_hg : inGrid row col) (dr dc : Int)
    (hdir : (dr, dc) ∈ [((0 : Int), (1 : Int)), (1, 0), (1, 1), (1, -1)]) :
    ∃ p n : Nat,
      checkDirection fuel board row col dr dc = some (decide (1 + p + n ≥ 4)) ∧
      (∀ k : Int, 1 ≤ k → k ≤ p →
        matchesAt board (cell board row col) (row + k * dr) (col + k * dc)) ∧
      ¬ matchesAt board (cell board row col) (row + ((p : Int) + 1) * dr)
          (col + ((p : Int) + 1) * dc) ∧
      (∀ k : Int, 1 ≤ k → k ≤ n →
        matchesAt board (cell board row col) (row - k * dr) (col - k * dc)) ∧
      ¬ matchesAt board (cell board row col) (row - ((n : Int) + 1) * dr)
          (col - ((n : Int) + 1) * dc) := by
  have hd : dr ≠ 0 ∨ dc ≠ 0 := by
    simp only [List.mem_cons, Prod.mk.injEq, List.mem_singleton, List.mem_nil_iff,
      or_false] at hdir
    omega
  obtain ⟨p, n, hres, hpos, hp, hneg, hn⟩ := checkDirection_run fuel hf board row col dr dc hd
  refine ⟨p, n, hres, hpos, hp, ?_, ?_⟩
  · intro k hk1 hk2
    have := hneg (-k) (by omega) (by omega)
    have e1 : row - k * dr = row + -k * dr := by ring
    have e2 : col - k * dc = col + -k * dc := by ring
    rw [e1, e2]; exact this
  · have e1 : row - ((n : Int) + 1) * dr = row + (-(n : Int) - 1) * dr := by ring
    have e2 : col - ((n : Int) + 1) * dc = col + (-(n : Int) - 1) * dc := by ring
    rw [e1, e2]; exact hn

theorem checkDirection_counts_witness :
    ∃ p n : Nat,
      checkDirection 8 diagonalBoard 3 2 1 (-1) = some (decide (1 + p + n ≥ 4)) ∧
      (∀ k : Int, 1 ≤ k → k ≤ p →
        matchesAt diagonalBoard (cell diagonalBoard 3 2) (3 + k * 1) (2 + k * (-1))) ∧
      ¬ matchesAt diagonalBoard (cell diagonalBoard 3 2) (3 + ((p : Int) + 1) * 1)
          (2 + ((p : Int) + 1) * (-1)) ∧
      (∀ k : Int, 1 ≤ k → k ≤ n →
        matchesAt diagonalBoard (cell diagonalBoard 3 2) (3 - k * 1) (2 - k * (-1))) ∧
      ¬ matchesAt diagonalBoard (cell diagonalBoard 3 2) (3 - ((n : Int) + 1) * 1)
          (2 - ((n : Int) + 1) * (-1)) :=
  checkDirection_counts 8 (by decide) diagonalBoard (by decide) 3 2 (by decide) 1 (-1)
    (by decide)

/-! ## Well-formed states -/

theorem validCells_setCell {board : Board} (hv : ValidCells board) (row col : Int)
    (v : Nat) (hval : v = EMPTY ∨ v = PLAYER1 ∨ v = PLAYER2) :
    ValidCells (setCell board row col v) := by
  unfold setCell
  split
  · intro cells hmem x hx
    rcases List.mem_or_eq_of_mem_set hmem with h | h
    · exact hv cells h x hx
    · subst h
      rcases List.mem_or_eq_of_mem_set hx with h' | h'
      · by_cases hlt : row.toNat < board.length
        · simp only [List.getD_eq_getElem?_getD, List.getElem?_eq_getElem hlt,
            Option.getD_some] at h'
          exact hv _ (List.getElem_mem hlt) x h'
        · simp only [List.getD_eq_getElem?_getD,
            List.getElem?_eq_none (show board.length ≤ row.toNat by omega),
            Option.getD_none, List.not_mem_nil] at h'
      · rw [h']; exact hval
  · exact hv

/-- C20: in every state reached from the reset state by `handleCellClick`
calls on columns in `[0, COLS)`, the board has exactly `ROWS = 6` rows of
`COLS = 7` cells, every cell holds one of EMPTY, PLAYER1, PLAYER2, and
`currentPlayer` is PLAYER1 or PLAYER2. -/
theorem reachable_well_formed (fuel : Nat) (hf : 8 ≤ fuel) (s0 : State) (cols : List Int)
    (_hcols : ∀ c ∈ cols, 0 ≤ c ∧ c < (COLS : Int)) :
    ∃ s, clicks fuel (resetGame s0).1 cols = some s ∧
      s.board.length = 6 ∧ (∀ cells ∈ s.board, cells.length = 7) ∧
      (∀ cells ∈ s.board, ∀ v ∈ cells, v = EMPTY ∨ v = PLAYER1 ∨ v = PLAYER2) ∧
      (s.currentPlayer = PLAYER1 ∨ s.currentPlayer = PLAYER2) := by
  have hstart : IsBoard (resetGame s0).1.board ∧ ValidCells (resetGame s0).1.board ∧
      ((resetGame s0).1.currentPlayer = PLAYER1 ∨
        (resetGame s0).1.currentPlayer = PLAYER2) := by
    refine ⟨?_, ?_, Or.inl rfl⟩
    · show IsBoard initializeBoard
      decide
    · show ValidCells initializeBoard
      decide
  obtain ⟨s, hres, hb, hv, hp⟩ := clicks_invariant fuel hf
    (fun s => IsBoard s.board ∧ ValidCells s.board ∧
      (s.currentPlayer = PLAYER1 ∨ s.currentPlayer = PLAYER2))
    (fun s col s' effects hs hres => by
      obtain ⟨hb, hv, hp⟩ := hs
      refine ⟨?_, ?_, handleCellClick_player fuel hf s col s' effects hp hres⟩
      · obtain ⟨s1, e1, hres1, hcase⟩ := handleCellClick_board fuel hf s col
        rw [hres] at hres1
        obtain ⟨rfl, rfl⟩ := Prod.mk.inj (Option.some.inj hres1)
        rcases hcase with h | ⟨-, -, hboard⟩
        · rw [h]; exact hb
        · rw [hboard]; exact isBoard_setCell hb _ _ _
      · obtain ⟨s1, e1, hres1, hcase⟩ := handleCellClick_board fuel hf s col
        rw [hres] at hres1
        obtain ⟨rfl, rfl⟩ := Prod.mk.inj (Option.some.inj hres1)
        rcases hcase with h | ⟨-, -, hboard⟩
        · rw [h]; exact hv
        · rw [hboard]; exact validCells_setCell hv _ _ _ (Or.inr hp))
    cols (resetGame s0).1 hstart
  exact ⟨s, hres, hb.1, hb.2, hv, hp⟩

theorem reachable_well_formed_witness :
    ∃ s, clicks 8 (resetGame ⟨[], PLAYER2, true⟩).1 [3, 3, 4, 2, 3] = some s ∧
      s.board.length = 6 ∧ (∀ cells ∈ s.board, cells.length = 7) ∧
      (∀ cells ∈ s.board, ∀ v ∈ cells, v = EMPTY ∨ v = PLAYER1 ∨ v = PLAYER2) ∧
      (s.currentPlayer = PLAYER1 ∨ s.currentPlayer = PLAYER2) :=
  reachable_well_formed 8 (by decide) ⟨[], PLAYER2, true⟩ [3, 3, 4, 2, 3] (by decide)

/-! ## Boards without a four-in-a-row -/

/-- A line of four discs survives the placement of a disc into an EMPTY
cell. -/
theorem fourThrough_setCell (board : Board) (row col : Int) (v : Nat)
    (hemp : cell board row col = some EMPTY) (r c : Int) (p : Nat) (hp : p ≠ EMPTY)
    (h : FourThrough board r c p) : FourThrough (setCell board row col v) r c p := by
  have hal : ∀ dr dc : Int, FourAlong board r c dr dc p →
      FourAlong (setCell board row col v) r c dr dc p := by
    rintro dr dc ⟨j, hj, hall⟩
    refine ⟨j, hj, fun i hi => ?_⟩
    obtain ⟨hg, hcell⟩ := hall i hi
    refine ⟨hg, ?_⟩
    rw [cell_setCell_other]
    · exact hcell
    · by_contra hcon
      push_neg at hcon
      rw [hcon.1, hcon.2, hemp] at hcell
      exact hp (Option.some.inj hcell).symm
  rcases h with h | h | h | h
  · exact Or.inl (hal _ _ h)
  · exact Or.inr (Or.inl (hal _ _ h))
  · exact Or.inr (Or.inr (Or.inl (hal _ _ h)))
  · exact Or.inr (Or.inr (Or.inr (hal _ _ h)))

/-- If the board after a placement into an EMPTY cell holds no four-in-a-row,
neither did the board before. -/
theorem noFour_of_setCell (board : Board) (row col : Int) (v : Nat)
    (hemp : cell board row col = some EMPTY) (h : NoFour (setCell board row col v)) :
    NoFour board := by
  rintro ⟨r, c⟩ hmem
  have h' := h (r, c) hmem
  simp only [NoFourAt] at h' ⊢
  cases hc : cell board r c with
  | none => trivial
  | some p =>
    by_cases hp : p = EMPTY
    · exact Or.inl hp
    · right
      intro hfour
      have hother : r ≠ row ∨ c ≠ col := by
        by_contra hcon
        push_neg at hcon
        rw [hcon.1, hcon.2, hemp] at hc
        exact hp (Option.some.inj hc).symm
      rw [cell_setCell_other _ _ _ _ _ _ hother, hc] at h'
      rcases h' with h' | h'
      · exact hp h'
      · exact h' (fourThrough_setCell board row col v hemp r c p hp hfour)

theorem noFour_of_clicks (fuel : Nat) (hf : 8 ≤ fuel) :
    ∀ (cols : List Int) (s sf : State), clicks fuel s cols = some sf →
      NoFour sf.board → NoFour s.board := by
  intro cols
  induction cols with
  | nil =>
    intro s sf h hno
    simp only [clicks, Option.some.injEq] at h
    rw [h]; exact hno
  | cons col cols ih =>
    intro s sf h hno
    obtain ⟨s1, effects, hres, hcase⟩ := handleCellClick_board fuel hf s col
    simp only [clicks, hres] at h
    have h1 := ih s1 sf h hno
    rcases hcase with hs | ⟨-, hrow, hboard⟩
    · rw [← hs]; exact h1
    · obtain ⟨-, -, hemp, -⟩ := getAvailableRow_of_ne_neg_one s.board col hrow
      rw [hboard] at h1
      exact noFour_of_setCell _ _ _ _ hemp h1

theorem acceptedClicks_le (fuel : Nat) :
    ∀ (cols : List Int) (s : State), acceptedClicks fuel s cols ≤ cols.length := by
  intro cols
  induction cols with
  | nil => intro s; simp [acceptedClicks]
  | cons col cols ih =>
    intro s
    simp only [acceptedClicks, List.length_cons]
    cases handleCellClick fuel s col with
    | none => simp
    | some r =>
      have := ih r.1
      simp only
      split <;> omega

/-- A sequence of clicks that are all accepted and end on a board without a
four-in-a-row never passes through a four-in-a-row. -/
theorem acceptedNoFour_of_final (fuel : Nat) (hf : 8 ≤ fuel) :
    ∀ (cols : List Int) (s sf : State), acceptedClicks fuel s cols = cols.length →
      clicks fuel s cols = some sf → NoFour sf.board → AcceptedNoFour fuel s cols := by
  intro cols
  induction cols with
  | nil => intro s sf _ _ _; trivial
  | cons col cols ih =>
    intro s sf hall hres hno
    obtain ⟨s1, effects, hstep, -⟩ := handleCellClick_board fuel hf s col
    simp only [clicks, hstep] at hres
    simp only [acceptedClicks, hstep, List.length_cons] at hall
    have hle := acceptedClicks_le fuel cols s1
    have hacc : Accepted s col := by
      by_contra hcon
      simp only [hcon, if_false] at hall
      omega
    simp only [hacc, if_true] at hall
    simp only [AcceptedNoFour, hstep]
    exact ⟨hacc, noFour_of_clicks fuel hf cols s1 sf hres hno,
      ih s1 sf (by omega) hres hno⟩

theorem acceptedClicks_fuel (fuel : Nat) (hf : 8 ≤ fuel) (cols : List Int) :
    ∀ s : State, acceptedClicks fuel s cols = acceptedClicks 8 s cols := by
  induction cols with
  | nil => intro s; rfl
  | cons col cols ih =>
    intro s
    simp only [acceptedClicks, handleCellClick_fuel fuel hf]
    cases handleCellClick 8 s col with
    | none => rfl
    | some r => simp only [ih r.1]

theorem clicks_drawColumns :
    clicks 8 ⟨initializeBoard, PLAYER1, false⟩ drawColumns =
      some ⟨drawFinalBoard, PLAYER2, true⟩ := by
  decide!

theorem acceptedClicks_drawColumns :
    acceptedClicks 8 ⟨initializeBoard, PLAYER1, false⟩ drawColumns = 42 := by
  decide!

theorem noFour_drawFinalBoard : NoFour drawFinalBoard := by
  decide!

/-- The game `drawColumns`: 42 accepted drops and never a four-in-a-row. -/
theorem acceptedNoFour_drawColumns (fuel : Nat) (hf : 8 ≤ fuel) (s0 : State) :
    AcceptedNoFour fuel (resetGame s0).1 drawColumns := by
  apply acceptedNoFour_of_final fuel hf drawColumns (resetGame s0).1
    ⟨drawFinalBoard, PLAYER2, true⟩
  · rw [acceptedClicks_fuel fuel hf]
    exact acceptedClicks_drawColumns
  · rw [clicks_fuel fuel hf]
    exact clicks_drawColumns
  · exact noFour_drawFinalBoard

/-- What `AcceptedNoFour` says about the click number `k` of the sequence. -/
theorem acceptedNoFour_at (fuel : Nat) :
    ∀ (cols : List Int) (s : State), AcceptedNoFour fuel s cols →
      ∀ (k : Nat) (col : Int), cols[k]? = some col →
        ∃ sk sk' effects, clicks fuel s (cols.take k) = some sk ∧
          acceptedClicks fuel s (cols.take k) = k ∧ Accepted sk col ∧
          handleCellClick fuel sk col = some (sk', effects) ∧ NoFour sk'.board := by
  intro cols
  induction cols with
  | nil => intro s _ k col hk; simp at hk
  | cons c0 cols ih =>
    intro s hrun k col hk
    simp only [AcceptedNoFour] at hrun
    obtain ⟨hacc, hrest⟩ := hrun
    cases hstep : handleCellClick fuel s c0 with
    | none => simp [hstep] at hrest
    | some r =>
      obtain ⟨s1, e1⟩ := r
      simp only [hstep] at hrest
      cases k with
      | zero =>
        simp only [List.getElem?_cons_zero, Option.some.injEq] at hk
        subst hk
        exact ⟨s, s1, e1, rfl, rfl, hacc, hstep, hrest.1⟩
      | succ k =>
        simp only [List.getElem?_cons_succ] at hk
        obtain ⟨sk, sk', effects, h1, h2, h3, h4, h5⟩ := ih s1 hrest.2 k col hk
        refine ⟨sk, sk', effects, ?_, ?_, h3, h4, h5⟩
        · simp only [List.take_succ_cons, clicks, hstep, h1]
        · simp only [List.take_succ_cons, acceptedClicks, hstep, h2, hacc, if_true]
          omega

/-- A board with 42 discs has no EMPTY cell. -/
theorem full_of_discCount (board : Board) (h : discCount board = 42) :
    ∀ r c : Int, 0 ≤ r → r < ROWS → 0 ≤ c → c < COLS → cell board r c ≠ some EMPTY := by
  intro r c hr0 hr1 hc0 hc1 hemp
  have hlen : gridCells.length = 42 := by decide
  unfold discCount at h
  rw [← hlen, List.countP_eq_length] at h
  have := h (r, c) ((mem_gridCells r c).mpr ⟨hr0, hr1, hc0, hc1⟩)
  simp [Occupied, hemp] at this

/-- After 41 accepted drops from the reset state, an accepted drop that leaves
no four-in-a-row fills the board and is declared a draw. -/
theorem draw_on_last_cell (fuel : Nat) (hf : 8 ≤ fuel) (s : State) (col : Int)
    (hc0 : 0 ≤ col) (hc1 : col < COLS)
    (hp : s.currentPlayer = PLAYER1 ∨ s.currentPlayer = PLAYER2)
    (hcount : discCount s.board = 41) (hacc : Accepted s col) (s' : State)
    (effects : List Effect) (hres : handleCellClick fuel s col = some (s', effects))
    (hno : NoFour s'.board) :
    s'.gameOver = true ∧ Effect.showDraw ∈ effects ∧
      checkWin fuel s'.board (getAvailableRow s.board col) col = some false ∧
      ∀ r c : Int, 0 ≤ r → r < ROWS → 0 ≤ c → c < COLS → cell s'.board r c ≠ some EMPTY := by
  obtain ⟨h0, h1, hemp, -⟩ := getAvailableRow_of_ne_neg_one s.board col hacc.2
  have hg : inGrid (getAvailableRow s.board col) col := ⟨h0, h1, hc0, hc1⟩
  have hne : s.currentPlayer ≠ EMPTY := by
    rcases hp with h | h <;> rw [h] <;> decide
  have hnew := cell_setCell_same s.board (getAvailableRow s.board col) col s.currentPlayer
    (by rw [hemp]; rfl)
  have hboard : s'.board =
      setCell s.board (getAvailableRow s.board col) col s.currentPlayer := by
    obtain ⟨s1, e1, hres1, hcase⟩ := handleCellClick_step fuel hf s col
    rw [hres] at hres1
    obtain ⟨rfl, rfl⟩ := Prod.mk.inj (Option.some.inj hres1)
    rcases hcase with ⟨hrej, -, -⟩ | ⟨-, h, -⟩
    · exact absurd hacc hrej
    · exact h
  have hfull : discCount s'.board = 42 := by
    rw [hboard, discCount_setCell _ _ _ _ hg hemp hne, hcount]
  have hcells := full_of_discCount s'.board hfull
  have hdraw : checkDraw s'.board = true :=
    (checkDraw_iff s'.board).mpr (fun c h0 h1 => hcells 0 c (le_refl 0) (by simp [ROWS]) h0 h1)
  have hwin : checkWin fuel s'.board (getAvailableRow s.board col) col = some false := by
    have hat := hno (getAvailableRow s.board col, col) ((mem_gridCells _ _).mpr hg)
    rw [hboard] at hat ⊢
    simp only [NoFourAt, hnew] at hat
    rw [checkWin_eq_decide fuel hf _ _ _ hg _ hnew]
    rcases hat with hat | hat
    · exact absurd hat hne
    · rw [decide_eq_false hat]
  rw [hboard] at hwin hdraw
  rw [handleCellClick_accepted fuel s col hacc.1 hacc.2, hwin] at hres
  simp only [hdraw, if_true, Option.some.injEq, Prod.mk.injEq] at hres
  obtain ⟨hs, he⟩ := hres
  refine ⟨?_, ?_, ?_, hcells⟩
  · rw [← hs]
  · rw [← he]; simp
  · rw [hboard]; exact hwin

/-- C18: full-board draw.  There is a sequence of 42 `handleCellClick` calls
from the reset state, all accepted, that fills all 42 cells with no
four-in-a-row ever forming (on the board after each drop); and for every such
sequence `gameOver` is false after each of the first 41 drops (and before the
first), while the 42nd drop results in a draw: `showDraw` is called,
`gameOver` becomes true, `checkWin` is false at the placed cell, and no cell of
the board is EMPTY. -/
theorem full_board_draw (fuel : Nat) (hf : 8 ≤ fuel) (s0 : State) :
    (∃ cols : List Int, cols.length = 42 ∧ (∀ c ∈ cols, 0 ≤ c ∧ c < (COLS : Int)) ∧
      AcceptedNoFour fuel (resetGame s0).1 cols) ∧
    ∀ cols : List Int, cols.length = 42 → (∀ c ∈ cols, 0 ≤ c ∧ c < (COLS : Int)) →
      AcceptedNoFour fuel (resetGame s0).1 cols →
      (∀ k : Nat, k ≤ 41 →
        ∃ s, clicks fuel (resetGame s0).1 (cols.take k) = some s ∧ s.gameOver = false) ∧
      ∃ s41 col s42 effects,
        clicks fuel (resetGame s0).1 (cols.take 41) = some s41 ∧ cols[41]? = some col ∧
        handleCellClick fuel s41 col = some (s42, effects) ∧
        clicks fuel (resetGame s0).1 cols = some s42 ∧
        s42.gameOver = true ∧ Effect.showDraw ∈ effects ∧
        checkWin fuel s42.board (getAvailableRow s41.board col) col = some false ∧
        ∀ r c : Int, 0 ≤ r → r < ROWS → 0 ≤ c → c < COLS →
          cell s42.board r c ≠ some EMPTY := by
  refine ⟨⟨drawColumns, by decide, by decide, acceptedNoFour_drawColumns fuel hf s0⟩, ?_⟩
  intro cols hlen hcols hrun
  constructor
  · intro k hk
    have hk' : k < cols.length := by omega
    obtain ⟨sk, -, -, h1, -, hacc, -, -⟩ :=
      acceptedNoFour_at fuel cols _ hrun k cols[k] (List.getElem?_eq_getElem hk')
    exact ⟨sk, h1, hacc.1⟩
  · have h41 : 41 < cols.length := by omega
    obtain ⟨s41, s42, effects, h1, hcnt, hacc, hres, hno⟩ :=
      acceptedNoFour_at fuel cols _ hrun 41 cols[41] (List.getElem?_eq_getElem h41)
    have hcol := hcols cols[41] (List.getElem_mem h41)
    have hcols41 : ∀ c ∈ cols.take 41, 0 ≤ c ∧ c < (COLS : Int) :=
      fun c hc => hcols c (List.mem_of_mem_take hc)
    have hp : s41.currentPlayer = PLAYER1 ∨ s41.currentPlayer = PLAYER2 := by
      obtain ⟨s', hs', hp'⟩ := clicks_invariant fuel hf
        (fun s => s.currentPlayer = PLAYER1 ∨ s.currentPlayer = PLAYER2)
        (fun s col s' effects hs hres => handleCellClick_player fuel hf s col s' effects hs hres)
        (cols.take 41) (resetGame s0).1 (Or.inl rfl)
      rw [h1] at hs'
      rw [Option.some.inj hs']
      exact hp'
    have hcount : discCount s41.board = 41 := by
      obtain ⟨s', hs', hc'⟩ := clicks_discCount fuel hf (cols.take 41) (resetGame s0).1
        hcols41 (Or.inl rfl)
      rw [h1] at hs'
      rw [Option.some.inj hs', hc', hcnt]
      have h0 : discCount (resetGame s0).1.board = 0 := by
        show discCount initializeBoard = 0
        decide
      omega
    obtain ⟨hover, hdraw, hwin, hfull⟩ := draw_on_last_cell fuel hf s41 cols[41] hcol.1 hcol.2
      hp hcount hacc s42 effects hres hno
    have hsplit : cols = cols.take 41 ++ [cols[41]] := by
      have h : cols.take (41 + 1) = cols.take 41 ++ cols[41]?.toList := List.take_succ
      rw [List.take_of_length_le (by omega), List.getElem?_eq_getElem h41] at h
      exact h
    have hall : clicks fuel (resetGame s0).1 cols = some s42 := by
      rw [hsplit, clicks_append, h1]
      simp only [hres]
    exact ⟨s41, cols[41], s42, effects, h1, List.getElem?_eq_getElem h41, hres, hall, hover,
      hdraw, hwin, hfull⟩

theorem full_board_draw_witness :
    (∃ cols : List Int, cols.length = 42 ∧ (∀ c ∈ cols, 0 ≤ c ∧ c < (COLS : Int)) ∧
      AcceptedNoFour 8 (resetGame ⟨[], PLAYER2, true⟩).1 cols) ∧
    ∀ cols : List Int, cols.length = 42 → (∀ c ∈ cols, 0 ≤ c ∧ c < (COLS : Int)) →
      AcceptedNoFour 8 (resetGame ⟨[], PLAYER2, true⟩).1 cols →
      (∀ k : Nat, k ≤ 41 →
        ∃ s, clicks 8 (resetGame ⟨[], PLAYER2, true⟩).1 (cols.take k) = some s ∧
          s.gameOver = false) ∧
      ∃ s41 col s42 effects,
        clicks 8 (resetGame ⟨[], PLAYER2, true⟩).1 (cols.take 41) = some s41 ∧
        cols[41]? = some col ∧
        handleCellClick 8 s41 col = some (s42, effects) ∧
        clicks 8 (resetGame ⟨[], PLAYER2, true⟩).1 cols = some s42 ∧
        s42.gameOver = true ∧ Effect.showDraw ∈ effects ∧
        checkWin 8 s42.board (getAvailableRow s41.board col) col = some false ∧
        ∀ r c : Int, 0 ≤ r → r < ROWS → 0 ≤ c → c < COLS →
          cell s42.board r c ≠ some EMPTY :=
  full_board_draw 8 (by decide) ⟨[], PLAYER2, true⟩

/-! ## The check on EMPTY cells -/

theorem checkWin_initializeBoard :
    ∀ rc ∈ gridCells, checkDirection 8 initializeBoard rc.1 rc.2 0 1 = some true ∧
      checkWin 8 initializeBoard rc.1 rc.2 = some true := by
  decide!

/-- C29: `checkDirection` does not require the starting cell to hold a
player's disc: it counts the cells equal to `board[row][col]` even when that
value is EMPTY.  On the all-EMPTY 6x7 board, for every cell of the grid, the
cell reads EMPTY, the horizontal check `checkDirection(row, col, 0, 1)` is true
and `checkWin(row, col)` returns true. -/
theorem checkWin_empty_board (fuel : Nat) (hf : 8 ≤ fuel) (row col : Int)
    (hg : inGrid row col) :
    cell initializeBoard row col = some EMPTY ∧
      checkDirection fuel initializeBoard row col 0 1 = some true ∧
      checkWin fuel initializeBoard row col = some true := by
  have h := checkWin_initializeBoard (row, col) ((mem_gridCells row col).mpr hg)
  refine ⟨cell_initializeBoard row col hg, ?_, ?_⟩
  · rw [checkDirection_fuel fuel hf _ _ _ _ _ (by omega)]
    exact h.1
  · rw [checkWin_fuel fuel hf]
    exact h.2

theorem checkWin_empty_board_witness :
    cell initializeBoard 2 3 = some EMPTY ∧
      checkDirection 8 initializeBoard 2 3 0 1 = some true ∧
      checkWin 8 initializeBoard 2 3 = some true :=
  checkWin_empty_board 8 (by decide) 2 3 (by decide)

/-! ## Termination and the range of the count -/

theorem checkDirection_eq_directionCount (fuel : Nat) (board : Board)
    (row col dr dc : Int) :
    checkDirection fuel board row col dr dc =
      (directionCount fuel board row col dr dc).map (fun count => decide (count ≥ 4)) := by
  unfold checkDirection directionCount
  simp only
  cases countLoop board (cell board row col) dr dc fuel (row + dr) (col + dc) 1 with
  | none => rfl
  | some m1 =>
    simp only
    cases countLoop board (cell board row col) (-dr) (-dc) fuel (row - dr) (col - dc) m1 with
    | none => rfl
    | some m2 => rfl

/-- C27: for every 6x7 board, every cell of the grid and every direction
`(dr, dc)` other than `(0, 0)` with `dr, dc` in `{-1, 0, 1}` (in particular the
four directions used by `checkWin`), both loops of `checkDirection` terminate
(with fuel 8 or more each returns a count) and the final count is at least 1
and at most 7. -/
theorem checkDirection_terminates_count_range (fuel : Nat) (hf : 8 ≤ fuel) (board : Board)
    (_hb : IsBoard board) (row col : Int) (hg : inGrid row col) (dr dc : Int)
    (hdr : dr = -1 ∨ dr = 0 ∨ dr = 1) (hdc : dc = -1 ∨ dc = 0 ∨ dc = 1)
    (hnz : dr ≠ 0 ∨ dc ≠ 0) :
    ∃ m count : Nat,
      countLoop board (cell board row col) dr dc fuel (row + dr) (col + dc) 1 = some m ∧
      countLoop board (cell board row col) (-dr) (-dc) fuel (row - dr) (col - dc) m =
        some count ∧
      directionCount fuel board row col dr dc = some count ∧
      checkDirection fuel board row col dr dc = some (decide (count ≥ 4)) ∧
      1 ≤ count ∧ count ≤ 7 := by
  have hnz' : -dr ≠ 0 ∨ -dc ≠ 0 := by omega
  obtain ⟨m1, h1⟩ := countLoop_terminates board (cell board row col) dr dc hnz fuel hf
    (row + dr) (col + dc) 1
  obtain ⟨m2, h2⟩ := countLoop_terminates board (cell board row col) (-dr) (-dc) hnz' fuel hf
    (row - dr) (col - dc) m1
  obtain ⟨p, -, hm1, hpall, -⟩ := countLoop_some _ _ _ _ _ _ _ _ _ h1
  obtain ⟨n, -, hm2, hnall, -⟩ := countLoop_some _ _ _ _ _ _ _ _ _ h2
  have hcount : directionCount fuel board row col dr dc = some m2 := by
    simp only [directionCount, h1, h2]
  refine ⟨m1, m2, h1, h2, hcount, ?_, by omega, ?_⟩
  · rw [checkDirection_eq_directionCount, hcount]; rfl
  · have hP : p = 0 ∨ inGrid (row + dr + ((p - 1 : Nat) : Int) * dr)
        (col + dc + ((p - 1 : Nat) : Int) * dc) := by
      by_cases hp : p = 0
      · exact Or.inl hp
      · exact Or.inr (hpall (p - 1) (by omega)).1
    have hN : n = 0 ∨ inGrid (row - dr + ((n - 1 : Nat) : Int) * -dr)
        (col - dc + ((n - 1 : Nat) : Int) * -dc) := by
      by_cases hn : n = 0
      · exact Or.inl hn
      · exact Or.inr (hnall (n - 1) (by omega)).1
    simp only [inGrid, ROWS, COLS] at hg hP hN
    push_cast at hg hP hN
    rcases hdr with h | h | h <;> rcases hdc with h' | h' | h' <;> subst h <;> subst h' <;>
      omega

theorem checkDirection_terminates_count_range_witness :
    ∃ m count : Nat,
      countLoop diagonalBoard (cell diagonalBoard 3 2) (-1) 1 8 (3 + -1) (2 + 1) 1 = some m ∧
      countLoop diagonalBoard (cell diagonalBoard 3 2) (- -1) (-1) 8 (3 - -1) (2 - 1) m =
        some count ∧
      directionCount 8 diagonalBoard 3 2 (-1) 1 = some count ∧
      checkDirection 8 diagonalBoard 3 2 (-1) 1 = some (decide (count ≥ 4)) ∧
      1 ≤ count ∧ count ≤ 7 :=
  checkDirection_terminates_count_range 8 (by decide) diagonalBoard (by decide) 3 2
    (by decide) (-1) 1 (by decide) (by decide) (by decide)

/-! ## The vertical check after a drop -/

/-- Every state reached from the reset state has a 6x7 board without gaps and
a current player. -/
theorem reachable_basic (fuel : Nat) (hf : 8 ≤ fuel) (s0 : State) (cols : List Int) :
    ∃ s, clicks fuel (resetGame s0).1 cols = some s ∧ IsBoard s.board ∧ Gravity s.board ∧
      (s.currentPlayer = PLAYER1 ∨ s.currentPlayer = PLAYER2) := by
  have hstart : IsBoard (resetGame s0).1.board ∧ Gravity (resetGame s0).1.board ∧
      ((resetGame s0).1.currentPlayer = PLAYER1 ∨
        (resetGame s0).1.currentPlayer = PLAYER2) := by
    refine ⟨?_, ?_, Or.inl rfl⟩
    · show IsBoard initializeBoard
      decide
    · show Gravity initializeBoard
      decide
  exact clicks_invariant fuel hf
    (fun s => IsBoard s.board ∧ Gravity s.board ∧
      (s.currentPlayer = PLAYER1 ∨ s.currentPlayer = PLAYER2))
    (fun s col s' effects hs hres => by
      obtain ⟨hb, hg, hp⟩ := hs
      obtain ⟨s1, e1, hres1, hb1, hg1⟩ := handleCellClick_gravity fuel hf s hb hg col
      rw [hres] at hres1
      obtain ⟨rfl, rfl⟩ := Prod.mk.inj (Option.some.inj hres1)
      exact ⟨hb1, hg1, handleCellClick_player fuel hf s col s' effects hp hres⟩)
    cols (resetGame s0).1 hstart

/-- On a 6x7 board without gaps, the cell above the lowest EMPTY cell of a
column is EMPTY or off the grid, also after a disc is placed below it. -/
theorem above_placed_cell {board : Board} (hb : IsBoard board) (hg : Gravity board)
    (col : Int) (hc0 : 0 ≤ col) (hc1 : col < COLS)
    (hrow : getAvailableRow board col ≠ -1) (v : Nat) :
    getAvailableRow board col - 1 < 0 ∨
      cell (setCell board (getAvailableRow board col) col v)
        (getAvailableRow board col - 1) col = some EMPTY := by
  obtain ⟨h0, h1, hemp, -⟩ := getAvailableRow_of_ne_neg_one board col hrow
  by_cases hr : getAvailableRow board col - 1 < 0
  · exact Or.inl hr
  · right
    rw [cell_setCell_other _ _ _ _ _ _ (Or.inl (by omega))]
    by_contra hcon
    exact gravity_cells hb hg (getAvailableRow board col - 1) (getAvailableRow board col) col
      (by omega) (by omega) h1 hc0 hc1 hcon hemp

/-- C28: in every accepted drop made from a state reached from the reset
state, the cell directly above the just-placed cell is EMPTY or out of bounds,
so the upward (negative) loop of the vertical check adds nothing to the count,
and `checkDirection(row, col, 1, 0)` is true if and only if `row + 3 < ROWS`
and the three cells directly below the placed cell hold the discs of the
player who dropped. -/
theorem vertical_check_after_drop (fuel : Nat) (hf : 8 ≤ fuel) (s0 : State)
    (cols : List Int) (_hcols : ∀ c ∈ cols, 0 ≤ c ∧ c < (COLS : Int)) (col : Int)
    (hc0 : 0 ≤ col) (hc1 : col < COLS) :
    ∃ s, clicks fuel (resetGame s0).1 cols = some s ∧
      (Accepted s col →
        (getAvailableRow s.board col - 1 < 0 ∨
          cell (setCell s.board (getAvailableRow s.board col) col s.currentPlayer)
            (getAvailableRow s.board col - 1) col = some EMPTY) ∧
        (∀ m : Nat,
          countLoop (setCell s.board (getAvailableRow s.board col) col s.currentPlayer)
            (cell (setCell s.board (getAvailableRow s.board col) col s.currentPlayer)
              (getAvailableRow s.board col) col)
            (-1) 0 fuel (getAvailableRow s.board col - 1) col m = some m) ∧
        checkDirection fuel
            (setCell s.board (getAvailableRow s.board col) col s.currentPlayer)
            (getAvailableRow s.board col) col 1 0 =
          some (decide (getAvailableRow s.board col + 3 < ROWS ∧
            cell (setCell s.board (getAvailableRow s.board col) col s.currentPlayer)
              (getAvailableRow s.board col + 1) col = some s.currentPlayer ∧
            cell (setCell s.board (getAvailableRow s.board col) col s.currentPlayer)
              (getAvailableRow s.board col + 2) col = some s.currentPlayer ∧
            cell (setCell s.board (getAvailableRow s.board col) col s.currentPlayer)
              (getAvailableRow s.board col + 3) col = some s.currentPlayer))) := by
  obtain ⟨s, hres, hb, hgr, hp⟩ := reachable_basic fuel hf s0 cols
  refine ⟨s, hres, ?_⟩
  intro hacc
  obtain ⟨h0, h1, hemp, -⟩ := getAvailableRow_of_ne_neg_one s.board col hacc.2
  have hg : inGrid (getAvailableRow s.board col) col := ⟨h0, h1, hc0, hc1⟩
  have hne : s.currentPlayer ≠ EMPTY := by
    rcases hp with h | h <;> rw [h] <;> decide
  have hnew := cell_setCell_same s.board (getAvailableRow s.board col) col s.currentPlayer
    (by rw [hemp]; rfl)
  have habove := above_placed_cell hb hgr col hc0 hc1 hacc.2 s.currentPlayer
  have hnomatch : ¬ (getAvailableRow s.board col - 1 ≥ 0 ∧
      getAvailableRow s.board col - 1 < ROWS ∧ col ≥ 0 ∧ col < COLS ∧
      cell (setCell s.board (getAvailableRow s.board col) col s.currentPlayer)
        (getAvailableRow s.board col - 1) col = some s.currentPlayer) := by
    rintro ⟨hr, -, -, -, hcell⟩
    rcases habove with h | h
    · omega
    · rw [h] at hcell
      exact hne (Option.some.inj hcell).symm
  refine ⟨habove, ?_, ?_⟩
  · intro m
    obtain ⟨k, rfl⟩ : ∃ k, fuel = k + 1 := ⟨fuel - 1, by omega⟩
    rw [hnew]
    unfold countLoop
    rw [if_neg hnomatch]
  · rw [checkDirection_iff_fourAlong fuel hf _ _ _ 1 0 (by omega) _ hg hnew]
    congr 1
    rw [decide_eq_decide]
    constructor
    · rintro ⟨j, hj, hall⟩
      have hj0 : j = 0 := by
        by_contra hj0
        have := hall (j - 1) (by omega)
        have e1 : getAvailableRow s.board col + (((j - 1 : Nat) : Int) - (j : Int)) * 1 =
            getAvailableRow s.board col - 1 := by omega
        have e2 : col + (((j - 1 : Nat) : Int) - (j : Int)) * 0 = col := by omega
        rw [e1, e2] at this
        obtain ⟨⟨hr0, hr1, hcc0, hcc1⟩, hcell⟩ := this
        exact hnomatch ⟨hr0, hr1, hcc0, hcc1, hcell⟩
      subst hj0
      have a1 := hall 1 (by omega)
      have a2 := hall 2 (by omega)
      have a3 := hall 3 (by omega)
      simp only [matchesAt, inGrid] at a1 a2 a3
      norm_num at a1 a2 a3
      exact ⟨a3.1.2.1, a1.2, a2.2, a3.2⟩
    · rintro ⟨hlt, c1, c2, c3⟩
      refine ⟨0, by omega, ?_⟩
      intro i hi
      have hcases : i = 0 ∨ i = 1 ∨ i = 2 ∨ i = 3 := by omega
      rcases hcases with h | h | h | h <;> subst h
      · simpa [matchesAt] using And.intro hg hnew
      · refine ⟨⟨by omega, by push_cast; omega, by omega, by omega⟩, ?_⟩
        simpa using c1
      · refine ⟨⟨by omega, by push_cast; omega, by omega, by omega⟩, ?_⟩
        simpa using c2
      · refine ⟨⟨by omega, by push_cast; omega, by omega, by omega⟩, ?_⟩
        simpa using c3

theorem vertical_check_after_drop_witness :
    ∃ s, clicks 8 (resetGame ⟨[], PLAYER2, true⟩).1 [0, 1, 0, 1, 0, 1] = some s ∧
      (Accepted s 0 →
        (getAvailableRow s.board 0 - 1 < 0 ∨
          cell (setCell s.board (getAvailableRow s.board 0) 0 s.currentPlayer)
            (getAvailableRow s.board 0 - 1) 0 = some EMPTY) ∧
        (∀ m : Nat,
          countLoop (setCell s.board (getAvailableRow s.board 0) 0 s.currentPlayer)
            (cell (setCell s.board (getAvailableRow s.board 0) 0 s.currentPlayer)
              (getAvailableRow s.board 0) 0)
            (-1) 0 8 (getAvailableRow s.board 0 - 1) 0 m = some m) ∧
        checkDirection 8
            (setCell s.board (getAvailableRow s.board 0) 0 s.currentPlayer)
            (getAvailableRow s.board 0) 0 1 0 =
          some (decide (getAvailableRow s.board 0 + 3 < ROWS ∧
            cell (setCell s.board (getAvailableRow s.board 0) 0 s.currentPlayer)
              (getAvailableRow s.board 0 + 1) 0 = some s.currentPlayer ∧
            cell (setCell s.board (getAvailableRow s.board 0) 0 s.currentPlayer)
              (getAvailableRow s.board 0 + 2) 0 = some s.currentPlayer ∧
            cell (setCell s.board (getAvailableRow s.board 0) 0 s.currentPlayer)
              (getAvailableRow s.board 0 + 3) 0 = some s.currentPlayer))) :=
  vertical_check_after_drop 8 (by decide) ⟨[], PLAYER2, true⟩ [0, 1, 0, 1, 0, 1] (by decide)
    0 (by decide) (by decide)

/-! ## The check does not depend on the cell of the run it starts from -/

/-- Two positions `0` and `k` of a line whose positions `0..k` all satisfy `Q`
see the same maximal run: the run lengths measured from `k` are those measured
from `0` shifted by `k`. -/
theorem run_shift (Q : Int → Prop) (k pa na pb nb : Nat)
    (hseg : ∀ j : Int, 0 ≤ j → j ≤ k → Q j)
    (ha1 : ∀ j : Int, 1 ≤ j → j ≤ pa → Q j) (ha2 : ¬ Q ((pa : Int) + 1))
    (ha3 : ∀ j : Int, -(na : Int) ≤ j → j ≤ -1 → Q j) (ha4 : ¬ Q (-(na : Int) - 1))
    (hb1 : ∀ j : Int, 1 ≤ j → j ≤ pb → Q ((k : Int) + j))
    (hb2 : ¬ Q ((k : Int) + ((pb : Int) + 1)))
    (hb3 : ∀ j : Int, -(nb : Int) ≤ j → j ≤ -1 → Q ((k : Int) + j))
    (hb4 : ¬ Q ((k : Int) + (-(nb : Int) - 1))) :
    pa = pb + k ∧ nb = na + k := by
  have hpa : k ≤ pa := by
    by_contra hcon
    exact ha2 (hseg _ (by omega) (by omega))
  have hnb : k ≤ nb := by
    by_contra hcon
    exact hb4 (hseg _ (by omega) (by omega))
  constructor
  · by_contra hne
    by_cases hlt : pa < pb + k
    · have := hb1 ((pa : Int) + 1 - k) (by omega) (by omega)
      have e : (k : Int) + ((pa : Int) + 1 - k) = (pa : Int) + 1 := by omega
      rw [e] at this
      exact ha2 this
    · exact hb2 (ha1 _ (by omega) (by omega))
  · by_contra hne
    by_cases hlt : nb < na + k
    · exact hb4 (ha3 _ (by omega) (by omega))
    · have := hb3 (-(na : Int) - 1 - k) (by omega) (by omega)
      have e : (k : Int) + (-(na : Int) - 1 - k) = -(na : Int) - 1 := by omega
      rw [e] at this
      exact ha4 this

/-- C25: for every 6x7 board, each of the four directions `(dr, dc)` used by
`checkWin`, and any two cells of the grid `a = (row, col)` and
`b = a + k * (dr, dc)` with `k ≥ 1` such that all cells on the segment from `a`
to `b` hold the same value, `checkDirection(b, dr, dc) = checkDirection(a, dr,
dc)`: the outcome does not depend on which cell of a contiguous run the check
starts from. -/
theorem checkDirection_same_run (fuel : Nat) (hf : 8 ≤ fuel) (board : Board)
    (_hb : IsBoard board) (row col : Int) (hga : inGrid row col) (dr dc : Int)
    (hdir : (dr, dc) ∈ [((0 : Int), (1 : Int)), (1, 0), (1, 1), (1, -1)])
    (k : Nat) (_hk : 1 ≤ k) (hgb : inGrid (row + (k : Int) * dr) (col + (k : Int) * dc))
    (hsame : ∀ j : Nat, j ≤ k →
      cell board (row + (j : Int) * dr) (col + (j : Int) * dc) = cell board row col) :
    checkDirection fuel board (row + (k : Int) * dr) (col + (k : Int) * dc) dr dc =
      checkDirection fuel board row col dr dc := by
  have hd : dr ≠ 0 ∨ dc ≠ 0 := by
    simp only [List.mem_cons, Prod.mk.injEq, List.mem_singleton, List.mem_nil_iff,
      or_false] at hdir
    omega
  have hseg : ∀ j : Int, 0 ≤ j → j ≤ k →
      matchesAt board (cell board row col) (row + j * dr) (col + j * dc) := by
    intro j hj0 hjk
    have hj : ((j.toNat : Nat) : Int) = j := by omega
    have hcell := hsame j.toNat (by omega)
    rw [hj] at hcell
    refine ⟨?_, hcell⟩
    simp only [List.mem_cons, Prod.mk.injEq, List.mem_singleton, List.mem_nil_iff,
      or_false] at hdir
    simp only [inGrid, ROWS, COLS] at hga hgb ⊢
    push_cast at hga hgb ⊢
    rcases hdir with ⟨h1, h2⟩ | ⟨h1, h2⟩ | ⟨h1, h2⟩ | ⟨h1, h2⟩ <;> subst h1 <;> subst h2 <;>
      refine ⟨?_, ?_, ?_, ?_⟩ <;> omega
  obtain ⟨pa, na, hresa, ha1, ha2, ha3, ha4⟩ :=
    checkDirection_run fuel hf board row col dr dc hd
  obtain ⟨pb, nb, hresb, hb1, hb2, hb3, hb4⟩ :=
    checkDirection_run fuel hf board (row + (k : Int) * dr) (col + (k : Int) * dc) dr dc hd
  rw [hsame k (le_refl k)] at hb1 hb2 hb3 hb4
  have er : ∀ j : Int, row + ((k : Int) + j) * dr = row + (k : Int) * dr + j * dr := by
    intro j; ring
  have ec : ∀ j : Int, col + ((k : Int) + j) * dc = col + (k : Int) * dc + j * dc := by
    intro j; ring
  have hshift := run_shift
    (fun j => matchesAt board (cell board row col) (row + j * dr) (col + j * dc))
    k pa na pb nb hseg ha1 ha2 ha3 ha4
    (fun j h1 h2 => by
      show matchesAt board _ (row + ((k : Int) + j) * dr) (col + ((k : Int) + j) * dc)
      rw [er, ec]; exact hb1 j h1 h2)
    (by
      show ¬ matchesAt board _ (row + ((k : Int) + ((pb : Int) + 1)) * dr)
        (col + ((k : Int) + ((pb : Int) + 1)) * dc)
      rw [er, ec]; exact hb2)
    (fun j h1 h2 => by
      show matchesAt board _ (row + ((k : Int) + j) * dr) (col + ((k : Int) + j) * dc)
      rw [er, ec]; exact hb3 j h1 h2)
    (by
      show ¬ matchesAt board _ (row + ((k : Int) + (-(nb : Int) - 1)) * dr)
        (col + ((k : Int) + (-(nb : Int) - 1)) * dc)
      rw [er, ec]; exact hb4)
  rw [hresa, hresb]
  congr 1
  rw [decide_eq_decide]
  omega

theorem checkDirection_same_run_witness :
    checkDirection 8 diagonalBoard (2 + ((3 : Nat) : Int) * 1) (3 + ((3 : Nat) : Int) * -1)
        1 (-1) =
      checkDirection 8 diagonalBoard 2 3 1 (-1) :=
  checkDirection_same_run 8 (by decide) diagonalBoard (by decide) 2 3 (by decide) 1 (-1)
    (by decide) 3 (by decide) (by decide) (by decide)

/-! ## The local check and the whole board -/

theorem noFour_iff (board : Board) :
    NoFour board ↔
      ∀ (r c : Int) (p : Nat), inGrid r c → cell board r c = some p → p ≠ EMPTY →
        ¬ FourThrough board r c p := by
  constructor
  · intro h r c p hg hcell hp hfour
    have := h (r, c) ((mem_gridCells r c).mpr hg)
    simp only [NoFourAt, hcell] at this
    rcases this with h1 | h1
    · exact hp h1
    · exact h1 hfour
  · rintro h ⟨r, c⟩ hmem
    have hg := (mem_gridCells r c).mp hmem
    simp only [NoFourAt]
    cases hc : cell board r c with
    | none => trivial
    | some p =>
      by_cases hp : p = EMPTY
      · exact Or.inl hp
      · exact Or.inr (h r c p hg hc hp)

/-- The cell a window of four goes through holds the value of the window. -/
theorem cell_of_fourAlong (board : Board) (r c dr dc : Int) (p : Nat)
    (h : FourAlong board r c dr dc p) : cell board r c = some p := by
  obtain ⟨j, hj, hall⟩ := h
  have := (hall j hj).2
  simpa using this

theorem cell_of_fourThrough (board : Board) (r c : Int) (p : Nat)
    (h : FourThrough board r c p) : cell board r c = some p := by
  rcases h with h | h | h | h <;> exact cell_of_fourAlong _ _ _ _ _ _ h

/-- A window of four on the board after a write either goes through the
written cell or was on the board before. -/
theorem fourAlong_setCell_cases (board : Board) (row col : Int) (v : Nat)
    (r c dr dc : Int) (p : Nat) (h : FourAlong (setCell board row col v) r c dr dc p) :
    FourAlong (setCell board row col v) row col dr dc p ∨ FourAlong board r c dr dc p := by
  obtain ⟨j, hj, hall⟩ := h
  by_cases hex : ∃ i : Nat, i < 4 ∧ r + ((i : Int) - (j : Int)) * dr = row ∧
      c + ((i : Int) - (j : Int)) * dc = col
  · obtain ⟨i, hi, hr, hc⟩ := hex
    left
    refine ⟨i, hi, fun i' hi' => ?_⟩
    have e1 : row + ((i' : Int) - (i : Int)) * dr = r + ((i' : Int) - (j : Int)) * dr := by
      rw [← hr]; ring
    have e2 : col + ((i' : Int) - (i : Int)) * dc = c + ((i' : Int) - (j : Int)) * dc := by
      rw [← hc]; ring
    rw [e1, e2]
    exact hall i' hi'
  · right
    refine ⟨j, hj, fun i hi => ?_⟩
    obtain ⟨hg, hcell⟩ := hall i hi
    refine ⟨hg, ?_⟩
    rw [cell_setCell_other] at hcell
    · exact hcell
    · by_contra hcon
      push_neg at hcon
      exact hex ⟨i, hi, hcon.1, hcon.2⟩

theorem fourThrough_setCell_cases (board : Board) (row col : Int) (v : Nat)
    (r c : Int) (p : Nat) (h : FourThrough (setCell board row col v) r c p) :
    FourThrough (setCell board row col v) row col p ∨ FourThrough board r c p := by
  rcases h with h | h | h | h
  · rcases fourAlong_setCell_cases _ _ _ _ _ _ _ _ _ h with h' | h'
    · exact Or.inl (Or.inl h')
    · exact Or.inr (Or.inl h')
  · rcases fourAlong_setCell_cases _ _ _ _ _ _ _ _ _ h with h' | h'
    · exact Or.inl (Or.inr (Or.inl h'))
    · exact Or.inr (Or.inr (Or.inl h'))
  · rcases fourAlong_setCell_cases _ _ _ _ _ _ _ _ _ h with h' | h'
    · exact Or.inl (Or.inr (Or.inr (Or.inl h')))
    · exact Or.inr (Or.inr (Or.inr (Or.inl h')))
  · rcases fourAlong_setCell_cases _ _ _ _ _ _ _ _ _ h with h' | h'
    · exact Or.inl (Or.inr (Or.inr (Or.inr h')))
    · exact Or.inr (Or.inr (Or.inr (Or.inr h')))

/-- On a board that held no four-in-a-row, every four-in-a-row after a disc
is placed goes through the placed cell and is made of the placed value. -/
theorem four_after_placement (board : Board) (hno : NoFour board) (row col : Int)
    (v : Nat) (hnew : cell (setCell board row col v) row col = some v)
    (r c : Int) (p : Nat) (hg : inGrid r c) (hp : p ≠ EMPTY)
    (hfour : FourThrough (setCell board row col v) r c p) :
    p = v ∧ FourThrough (setCell board row col v) row col v := by
  rcases fourThrough_setCell_cases board row col v r c p hfour with h | h
  · have hc := cell_of_fourThrough _ _ _ _ h
    rw [hnew] at hc
    have hpv : p = v := (Option.some.inj hc).symm
    subst hpv
    exact ⟨rfl, h⟩
  · exact absurd h ((noFour_iff board).mp hno r c p hg (cell_of_fourThrough _ _ _ _ h) hp)

/-- After an accepted drop on a board that held no four-in-a-row, the board
holds one exactly when four cells in a line through the placed cell hold the
placed value. -/
theorem noFour_after_placement (board : Board) (hno : NoFour board) (row col : Int)
    (v : Nat) (hg : inGrid row col) (hv : v ≠ EMPTY)
    (hnew : cell (setCell board row col v) row col = some v) :
    NoFour (setCell board row col v) ↔ ¬ FourThrough (setCell board row col v) row col v := by
  constructor
  · intro h
    exact (noFour_iff _).mp h row col v hg hnew hv
  · intro h
    rw [noFour_iff]
    intro r c p hgrc _ hp hfour
    exact h (four_after_placement board hno row col v hnew r c p hgrc hp hfour).2

/-- Every click keeps the terminal flag in agreement with the board. -/
theorem handleCellClick_coherent (fuel : Nat) (hf : 8 ≤ fuel) (s : State)
    (hb : IsBoard s.board) (hp : s.currentPlayer = PLAYER1 ∨ s.currentPlayer = PLAYER2)
    (hco : Coherent s) (col : Int) (s' : State) (effects : List Effect)
    (hres : handleCellClick fuel s col = some (s', effects)) : Coherent s' := by
  by_cases hacc : Accepted s col
  · obtain ⟨-, -, hemp, -⟩ := getAvailableRow_of_ne_neg_one s.board col hacc.2
    have hg := inGrid_of_cell hb hemp
    have hne : s.currentPlayer ≠ EMPTY := by
      rcases hp with h | h <;> rw [h] <;> decide
    have hnew := cell_setCell_same s.board (getAvailableRow s.board col) col s.currentPlayer
      (by rw [hemp]; rfl)
    have hno := (hco.1 hacc.1).1
    have key := noFour_after_placement s.board hno _ col s.currentPlayer hg hne hnew
    have hw := checkWin_eq_decide fuel hf _ _ _ hg _ hnew
    rw [handleCellClick_accepted fuel s col hacc.1 hacc.2, hw] at hres
    by_cases hfour : FourThrough
        (setCell s.board (getAvailableRow s.board col) col s.currentPlayer)
        (getAvailableRow s.board col) col s.currentPlayer
    · rw [decide_eq_true hfour] at hres
      simp only [Option.some.injEq, Prod.mk.injEq] at hres
      obtain ⟨rfl, -⟩ := hres
      refine ⟨fun h => (by cases h), fun _ => Or.inl (fun hn => key.mp hn hfour), ?_⟩
      intro r c p hgrc hpp _ hfr
      exact (four_after_placement s.board hno _ col s.currentPlayer hnew r c p hgrc hpp hfr).1
    · rw [decide_eq_false hfour] at hres
      have hno' := key.mpr hfour
      by_cases hd : checkDraw
          (setCell s.board (getAvailableRow s.board col) col s.currentPlayer) = true
      · simp only [hd, if_true, Option.some.injEq, Prod.mk.injEq] at hres
        obtain ⟨rfl, -⟩ := hres
        refine ⟨fun h => (by cases h), fun _ => Or.inr hd, ?_⟩
        intro r c p hgrc hpp hcell hfr
        exact absurd hfr ((noFour_iff _).mp hno' r c p hgrc hcell hpp)
      · simp only [hd, Option.some.injEq, Prod.mk.injEq] at hres
        obtain ⟨rfl, -⟩ := hres
        refine ⟨fun _ => ⟨hno', by simpa using hd⟩, fun h => (by cases h), ?_⟩
        intro r c p hgrc hpp hcell hfr
        exact absurd hfr ((noFour_iff _).mp hno' r c p hgrc hcell hpp)
  · obtain ⟨s1, e1, hres1, hcase⟩ := handleCellClick_step fuel hf s col
    rw [hres] at hres1
    obtain ⟨rfl, rfl⟩ := Prod.mk.inj (Option.some.inj hres1)
    rcases hcase with ⟨-, hs, -⟩ | ⟨h, -, -⟩
    · rw [hs]; exact hco
    · exact absurd h hacc

/-- Every state reached from the reset state has a 6x7 board, a current
player, and a terminal flag in agreement with the board. -/
theorem reachable_coherent (fuel : Nat) (hf : 8 ≤ fuel) (s0 : State) (cols : List Int) :
    ∃ s, clicks fuel (resetGame s0).1 cols = some s ∧ IsBoard s.board ∧
      (s.currentPlayer = PLAYER1 ∨ s.currentPlayer = PLAYER2) ∧ Coherent s := by
  have hno0 : NoFour initializeBoard := by decide!
  have hstart : IsBoard (resetGame s0).1.board ∧
      ((resetGame s0).1.currentPlayer = PLAYER1 ∨
        (resetGame s0).1.currentPlayer = PLAYER2) ∧ Coherent (resetGame s0).1 := by
    refine ⟨?_, Or.inl rfl, ?_, ?_, ?_⟩
    · show IsBoard initializeBoard
      decide
    · intro _
      refine ⟨hno0, ?_⟩
      show checkDraw initializeBoard = false
      decide
    · intro h; cases h
    · intro r c p hg hp hcell hfour
      exact absurd hfour ((noFour_iff _).mp hno0 r c p hg hcell hp)
  exact clicks_invariant fuel hf
    (fun s => IsBoard s.board ∧
      (s.currentPlayer = PLAYER1 ∨ s.currentPlayer = PLAYER2) ∧ Coherent s)
    (fun s col s' effects hs hres => by
      obtain ⟨hb, hp, hco⟩ := hs
      refine ⟨?_, handleCellClick_player fuel hf s col s' effects hp hres,
        handleCellClick_coherent fuel hf s hb hp hco col s' effects hres⟩
      obtain ⟨s1, e1, hres1, hcase⟩ := handleCellClick_board fuel hf s col
      rw [hres] at hres1
      obtain ⟨rfl, rfl⟩ := Prod.mk.inj (Option.some.inj hres1)
      rcases hcase with h | ⟨-, -, hboard⟩
      · rw [h]; exact hb
      · rw [hboard]; exact isBoard_setCell hb _ _ _)
    cols (resetGame s0).1 hstart

/-- C21: local check equals full-board scan.  For every non-terminal state
reached from the reset state and every accepted drop from it, `checkWin` at
the just-placed cell returns, and it returns true if and only if the board
after the placement contains a four-in-a-row anywhere: a cell of the grid
holding a non-EMPTY value `p` on four consecutive grid cells of a row, column
or diagonal that all hold `p`. -/
theorem checkWin_iff_board_has_four (fuel : Nat) (hf : 8 ≤ fuel) (s0 : State)
    (cols : List Int) (_hcols : ∀ c ∈ cols, 0 ≤ c ∧ c < (COLS : Int)) (col : Int)
    (_hc0 : 0 ≤ col) (_hc1 : col < COLS) :
    ∃ s, clicks fuel (resetGame s0).1 cols = some s ∧
      (Accepted s col →
        ∃ w, checkWin fuel
            (setCell s.board (getAvailableRow s.board col) col s.currentPlayer)
            (getAvailableRow s.board col) col = some w ∧
          (w = true ↔
            ∃ (r c : Int) (p : Nat), inGrid r c ∧ p ≠ EMPTY ∧
              FourThrough (setCell s.board (getAvailableRow s.board col) col s.currentPlayer)
                r c p)) := by
  obtain ⟨s, hres, hb, hp, hco⟩ := reachable_coherent fuel hf s0 cols
  refine ⟨s, hres, ?_⟩
  intro hacc
  obtain ⟨-, -, hemp, -⟩ := getAvailableRow_of_ne_neg_one s.board col hacc.2
  have hg := inGrid_of_cell hb hemp
  have hne : s.currentPlayer ≠ EMPTY := by
    rcases hp with h | h <;> rw [h] <;> decide
  have hnew := cell_setCell_same s.board (getAvailableRow s.board col) col s.currentPlayer
    (by rw [hemp]; rfl)
  have hno := (hco.1 hacc.1).1
  refine ⟨_, checkWin_eq_decide fuel hf _ _ _ hg _ hnew, ?_⟩
  rw [decide_eq_true_eq]
  constructor
  · intro hfour
    exact ⟨_, col, s.currentPlayer, hg, hne, hfour⟩
  · rintro ⟨r, c, p, hgrc, hpp, hfour⟩
    exact (four_after_placement s.board hno _ col s.currentPlayer hnew r c p hgrc hpp hfour).2

theorem checkWin_iff_board_has_four_witness :
    ∃ s, clicks 8 (resetGame ⟨[], PLAYER2, true⟩).1 [0, 1, 0, 1, 0, 1] = some s ∧
      (Accepted s 0 →
        ∃ w, checkWin 8 (setCell s.board (getAvailableRow s.board 0) 0 s.currentPlayer)
            (getAvailableRow s.board 0) 0 = some w ∧
          (w = true ↔
            ∃ (r c : Int) (p : Nat), inGrid r c ∧ p ≠ EMPTY ∧
              FourThrough (setCell s.board (getAvailableRow s.board 0) 0 s.currentPlayer)
                r c p)) :=
  checkWin_iff_board_has_four 8 (by decide) ⟨[], PLAYER2, true⟩ [0, 1, 0, 1, 0, 1]
    (by decide) 0 (by decide) (by decide)

/-- C22: in every state reached from the reset state by `handleCellClick`
calls, `gameOver` is true if and only if the board contains a four-in-a-row
of some player or row 0 has no EMPTY cell; in particular every reached state
with `gameOver = false` has a column on which a drop is accepted. -/
theorem gameOver_iff_four_or_top_full (fuel : Nat) (hf : 8 ≤ fuel) (s0 : State)
    (cols : List Int) (_hcols : ∀ c ∈ cols, 0 ≤ c ∧ c < (COLS : Int)) :
    ∃ s, clicks fuel (resetGame s0).1 cols = some s ∧
      (s.gameOver = true ↔
        ((∃ (r c : Int) (p : Nat), inGrid r c ∧ p ≠ EMPTY ∧ FourThrough s.board r c p) ∨
          ∀ c : Int, 0 ≤ c → c < COLS → cell s.board 0 c ≠ some EMPTY)) ∧
      (s.gameOver = false → ∃ col : Int, 0 ≤ col ∧ col < COLS ∧ Accepted s col) := by
  obtain ⟨s, hres, hb, hp, hco⟩ := reachable_coherent fuel hf s0 cols
  refine ⟨s, hres, ⟨?_, ?_⟩, ?_⟩
  · intro hgo
    rcases hco.2.1 hgo with h | h
    · left
      rw [noFour_iff] at h
      push_neg at h
      obtain ⟨r, c, p, hg, -, hpp, hfour⟩ := h
      exact ⟨r, c, p, hg, hpp, hfour⟩
    · right
      exact (checkDraw_iff s.board).mp h
  · intro h
    by_contra hgo
    have hgo' : s.gameOver = false := by simpa using hgo
    obtain ⟨hno, hd⟩ := hco.1 hgo'
    rcases h with ⟨r, c, p, hg, hpp, hfour⟩ | h
    · exact (noFour_iff _).mp hno r c p hg (cell_of_fourThrough _ _ _ _ hfour) hpp hfour
    · rw [(checkDraw_iff s.board).mpr h] at hd
      cases hd
  · intro hgo
    have hd := (hco.1 hgo).2
    have hnot : ¬ ∀ c : Int, 0 ≤ c → c < COLS → cell s.board 0 c ≠ some EMPTY := by
      intro h
      rw [(checkDraw_iff s.board).mpr h] at hd
      cases hd
    push_neg at hnot
    obtain ⟨c, hc0, hc1, hemp⟩ := hnot
    refine ⟨c, hc0, hc1, hgo, ?_⟩
    exact (getAvailableRow_of_empty s.board c ⟨0, le_refl 0, by simp [ROWS], hemp⟩).1

theorem gameOver_iff_four_or_top_full_witness :
    ∃ s, clicks 8 (resetGame ⟨[], PLAYER2, true⟩).1 [0, 1, 0, 1, 0, 1, 0] = some s ∧
      (s.gameOver = true ↔
        ((∃ (r c : Int) (p : Nat), inGrid r c ∧ p ≠ EMPTY ∧ FourThrough s.board r c p) ∨
          ∀ c : Int, 0 ≤ c → c < COLS → cell s.board 0 c ≠ some EMPTY)) ∧
      (s.gameOver = false → ∃ col : Int, 0 ≤ col ∧ col < COLS ∧ Accepted s col) :=
  gameOver_iff_four_or_top_full 8 (by decide) ⟨[], PLAYER2, true⟩ [0, 1, 0, 1, 0, 1, 0]
    (by decide)

/-- The function `showWinner` is called only by a drop that completes four in
a line through the placed cell, and with the player who dropped. -/
theorem showWinner_of_click (fuel : Nat) (hf : 8 ≤ fuel) (s : State)
    (hb : IsBoard s.board) (col : Int) :
    ∃ s' effects, handleCellClick fuel s col = some (s', effects) ∧
      ∀ p : Nat, Effect.showWinner p ∈ effects →
        p = s'.currentPlayer ∧ FourThrough s'.board (getAvailableRow s.board col) col p := by
  by_cases hacc : Accepted s col
  · obtain ⟨-, -, hemp, -⟩ := getAvailableRow_of_ne_neg_one s.board col hacc.2
    have hg := inGrid_of_cell hb hemp
    have hnew := cell_setCell_same s.board (getAvailableRow s.board col) col s.currentPlayer
      (by rw [hemp]; rfl)
    have hw := checkWin_eq_decide fuel hf _ _ _ hg _ hnew
    rw [handleCellClick_accepted fuel s col hacc.1 hacc.2, hw]
    by_cases hfour : FourThrough
        (setCell s.board (getAvailableRow s.board col) col s.currentPlayer)
        (getAvailableRow s.board col) col s.currentPlayer
    · rw [decide_eq_true hfour]
      refine ⟨_, _, rfl, ?_⟩
      intro p hmem
      simp only [List.mem_cons, Effect.showWinner.injEq, List.mem_singleton,
        List.mem_nil_iff, or_false, reduceCtorEq, false_or] at hmem
      subst hmem
      exact ⟨rfl, hfour⟩
    · rw [decide_eq_false hfour]
      by_cases hd : checkDraw
          (setCell s.board (getAvailableRow s.board col) col s.currentPlayer) = true
      · simp only [hd, if_true]
        refine ⟨_, _, rfl, ?_⟩
        intro p hmem
        simp at hmem
      · simp only [hd]
        refine ⟨_, _, rfl, ?_⟩
        intro p hmem
        simp at hmem
  · obtain ⟨s1, e1, hres1, hcase⟩ := handleCellClick_step fuel hf s col
    rcases hcase with ⟨-, -, he⟩ | ⟨h, -, -⟩
    · refine ⟨s1, e1, hres1, ?_⟩
      intro p hmem
      rw [he] at hmem
      cases hmem
    · exact absurd h hacc

/-- C23: in every state reached from the reset state by `handleCellClick`
calls, every four-in-a-row present on the board consists of discs of the value
currently stored in `currentPlayer`; hence PLAYER1 and PLAYER2 never both
have a four-in-a-row, and when a click from that state calls `showWinner`, the
player it announces is `currentPlayer` and owns a four-in-a-row through the
placed cell. -/
theorem fours_belong_to_currentPlayer (fuel : Nat) (hf : 8 ≤ fuel) (s0 : State)
    (cols : List Int) (_hcols : ∀ c ∈ cols, 0 ≤ c ∧ c < (COLS : Int)) (col : Int)
    (_hc0 : 0 ≤ col) (_hc1 : col < COLS) :
    ∃ s, clicks fuel (resetGame s0).1 cols = some s ∧
      (∀ (r c : Int) (p : Nat), inGrid r c → p ≠ EMPTY → FourThrough s.board r c p →
        p = s.currentPlayer) ∧
      ¬ ((∃ r c : Int, inGrid r c ∧ FourThrough s.board r c PLAYER1) ∧
          ∃ r c : Int, inGrid r c ∧ FourThrough s.board r c PLAYER2) ∧
      ∃ s' effects, handleCellClick fuel s col = some (s', effects) ∧
        ∀ p : Nat, Effect.showWinner p ∈ effects →
          p = s'.currentPlayer ∧
            FourThrough s'.board (getAvailableRow s.board col) col p := by
  obtain ⟨s, hres, hb, hp, hco⟩ := reachable_coherent fuel hf s0 cols
  have hall : ∀ (r c : Int) (p : Nat), inGrid r c → p ≠ EMPTY → FourThrough s.board r c p →
      p = s.currentPlayer :=
    fun r c p hg hpp hfour => hco.2.2 r c p hg hpp (cell_of_fourThrough _ _ _ _ hfour) hfour
  refine ⟨s, hres, hall, ?_, showWinner_of_click fuel hf s hb col⟩
  rintro ⟨⟨r1, c1, hg1, h1⟩, ⟨r2, c2, hg2, h2⟩⟩
  have e1 := hall r1 c1 PLAYER1 hg1 (by decide) h1
  have e2 := hall r2 c2 PLAYER2 hg2 (by decide) h2
  rw [← e2] at e1
  exact absurd e1 (by decide)

theorem fours_belong_to_currentPlayer_witness :
    ∃ s, clicks 8 (resetGame ⟨[], PLAYER2, true⟩).1 [0, 1, 0, 1, 0, 1] = some s ∧
      (∀ (r c : Int) (p : Nat), inGrid r c → p ≠ EMPTY → FourThrough s.board r c p →
        p = s.currentPlayer) ∧
      ¬ ((∃ r c : Int, inGrid r c ∧ FourThrough s.board r c PLAYER1) ∧
          ∃ r c : Int, inGrid r c ∧ FourThrough s.board r c PLAYER2) ∧
      ∃ s' effects, handleCellClick 8 s 0 = some (s', effects) ∧
        ∀ p : Nat, Effect.showWinner p ∈ effects →
          p = s'.currentPlayer ∧
            FourThrough s'.board (getAvailableRow s.board 0) 0 p :=
  fours_belong_to_currentPlayer 8 (by decide) ⟨[], PLAYER2, true⟩ [0, 1, 0, 1, 0, 1]
    (by decide) 0 (by decide) (by decide)

/-! ## The balance of discs -/

theorem countValue_setCell_same (board : Board) (row col : Int) (v : Nat)
    (hg : inGrid row col) (hemp : cell board row col = some EMPTY) (hv : v ≠ EMPTY) :
    countValue (setCell board row col v) v = countValue board v + 1 := by
  unfold countValue
  apply countP_flip gridCells nodup_gridCells (row, col) ((mem_gridCells row col).mpr hg)
  · simp only [hemp, Option.some.injEq, decide_eq_false_iff_not]
    exact fun h => hv h.symm
  · have := cell_setCell_same board row col v (by rw [hemp]; rfl)
    simp [this]
  · rintro ⟨r, c⟩ - hne
    have h : r ≠ row ∨ c ≠ col := by
      by_contra hcon
      push_neg at hcon
      exact hne (by rw [hcon.1, hcon.2])
    simp only [cell_setCell_other board row col v r c h]

theorem countValue_setCell_other (board : Board) (row col : Int) (v w : Nat)
    (hemp : cell board row col = some EMPTY) (hw : w ≠ EMPTY) (hvw : w ≠ v) :
    countValue (setCell board row col v) w = countValue board w := by
  unfold countValue
  apply List.countP_congr
  rintro ⟨r, c⟩ -
  simp only [decide_eq_true_eq]
  by_cases h : r ≠ row ∨ c ≠ col
  · rw [cell_setCell_other board row col v r c h]
  · push_neg at h
    obtain ⟨rfl, rfl⟩ := h
    have := cell_setCell_same board r c v (by rw [hemp]; rfl)
    rw [this, hemp]
    constructor
    · intro h1; exact absurd (Option.some.inj h1).symm hvw
    · intro h1; exact absurd (Option.some.inj h1).symm hw

/-- Every click keeps the discs of the two players in balance. -/
theorem handleCellClick_balance (fuel : Nat) (hf : 8 ≤ fuel) (s : State)
    (hb : IsBoard s.board)
    (hbal : (countValue s.board PLAYER1 = countValue s.board PLAYER2 ∨
        countValue s.board PLAYER1 = countValue s.board PLAYER2 + 1) ∧
      (s.gameOver = false →
        (s.currentPlayer = PLAYER1 ∧
            countValue s.board PLAYER1 = countValue s.board PLAYER2) ∨
          (s.currentPlayer = PLAYER2 ∧
            countValue s.board PLAYER1 = countValue s.board PLAYER2 + 1)))
    (col : Int) (s' : State) (effects : List Effect)
    (hres : handleCellClick fuel s col = some (s', effects)) :
    (countValue s'.board PLAYER1 = countValue s'.board PLAYER2 ∨
        countValue s'.board PLAYER1 = countValue s'.board PLAYER2 + 1) ∧
      (s'.gameOver = false →
        (s'.currentPlayer = PLAYER1 ∧
            countValue s'.board PLAYER1 = countValue s'.board PLAYER2) ∨
          (s'.currentPlayer = PLAYER2 ∧
            countValue s'.board PLAYER1 = countValue s'.board PLAYER2 + 1)) := by
  obtain ⟨s1, e1, hres1, hcase⟩ := handleCellClick_step fuel hf s col
  rw [hres] at hres1
  obtain ⟨rfl, rfl⟩ := Prod.mk.inj (Option.some.inj hres1)
  rcases hcase with ⟨-, hs, -⟩ | ⟨hacc, hboard, hturn⟩
  · rw [hs]; exact hbal
  · obtain ⟨-, -, hemp, -⟩ := getAvailableRow_of_ne_neg_one s.board col hacc.2
    have hg := inGrid_of_cell hb hemp
    have h12 : PLAYER1 ≠ PLAYER2 := by decide
    have h1e : PLAYER1 ≠ EMPTY := by decide
    have h2e : PLAYER2 ≠ EMPTY := by decide
    rcases hbal.2 hacc.1 with ⟨hcp, hc⟩ | ⟨hcp, hc⟩
    · have hn1 : countValue s'.board PLAYER1 = countValue s.board PLAYER1 + 1 := by
        rw [hboard, hcp]; exact countValue_setCell_same _ _ _ _ hg hemp h1e
      have hn2 : countValue s'.board PLAYER2 = countValue s.board PLAYER2 := by
        rw [hboard, hcp]
        exact countValue_setCell_other _ _ _ _ _ hemp h2e (fun h => h12 h.symm)
      refine ⟨Or.inr (by omega), ?_⟩
      intro hgo
      rcases hturn with ⟨hover, -⟩ | ⟨-, hnext⟩
      · rw [hover] at hgo; cases hgo
      · right
        rw [hnext, hcp]
        exact ⟨by simp, by omega⟩
    · have hn1 : countValue s'.board PLAYER1 = countValue s.board PLAYER1 := by
        rw [hboard, hcp]
        exact countValue_setCell_other _ _ _ _ _ hemp h1e h12
      have hn2 : countValue s'.board PLAYER2 = countValue s.board PLAYER2 + 1 := by
        rw [hboard, hcp]; exact countValue_setCell_same _ _ _ _ hg hemp h2e
      refine ⟨Or.inl (by omega), ?_⟩
      intro hgo
      rcases hturn with ⟨hover, -⟩ | ⟨-, hnext⟩
      · rw [hover] at hgo; cases hgo
      · left
        rw [hnext, hcp]
        exact ⟨by simp [PLAYER1, PLAYER2], by omega⟩

/-- C24: in every state reached from the reset state by `handleCellClick`
calls, the number of PLAYER1 discs minus the number of PLAYER2 discs is 0 or
1; and whenever `gameOver` is false, that difference is 0 if and only if
`currentPlayer = PLAYER1`. -/
theorem disc_balance (fuel : Nat) (hf : 8 ≤ fuel) (s0 : State) (cols : List Int)
    (_hcols : ∀ c ∈ cols, 0 ≤ c ∧ c < (COLS : Int)) :
    ∃ s, clicks fuel (resetGame s0).1 cols = some s ∧
      ((countValue s.board PLAYER1 : Int) - (countValue s.board PLAYER2 : Int) = 0 ∨
        (countValue s.board PLAYER1 : Int) - (countValue s.board PLAYER2 : Int) = 1) ∧
      (s.gameOver = false →
        ((countValue s.board PLAYER1 : Int) - (countValue s.board PLAYER2 : Int) = 0 ↔
          s.currentPlayer = PLAYER1)) := by
  have hc1 : countValue initializeBoard PLAYER1 = 0 := by decide
  have hc2 : countValue initializeBoard PLAYER2 = 0 := by decide
  obtain ⟨s, hres, -, hbal⟩ := clicks_invariant fuel hf
    (fun s => IsBoard s.board ∧
      ((countValue s.board PLAYER1 = countValue s.board PLAYER2 ∨
          countValue s.board PLAYER1 = countValue s.board PLAYER2 + 1) ∧
        (s.gameOver = false →
          (s.currentPlayer = PLAYER1 ∧
              countValue s.board PLAYER1 = countValue s.board PLAYER2) ∨
            (s.currentPlayer = PLAYER2 ∧
              countValue s.board PLAYER1 = countValue s.board PLAYER2 + 1))))
    (fun s col s' effects hs hres => by
      obtain ⟨hb, hbal⟩ := hs
      refine ⟨?_, handleCellClick_balance fuel hf s hb hbal col s' effects hres⟩
      obtain ⟨s1, e1, hres1, hcase⟩ := handleCellClick_board fuel hf s col
      rw [hres] at hres1
      obtain ⟨rfl, rfl⟩ := Prod.mk.inj (Option.some.inj hres1)
      rcases hcase with h | ⟨-, -, hboard⟩
      · rw [h]; exact hb
      · rw [hboard]; exact isBoard_setCell hb _ _ _)
    cols (resetGame s0).1
    ⟨by show IsBoard initializeBoard; decide,
     by show countValue initializeBoard PLAYER1 = countValue initializeBoard PLAYER2 ∨ _
        left; rw [hc1, hc2],
     fun _ => Or.inl ⟨rfl, by
       show countValue initializeBoard PLAYER1 = countValue initializeBoard PLAYER2
       rw [hc1, hc2]⟩⟩
  refine ⟨s, hres, by omega, ?_⟩
  intro hgo
  rcases hbal.2 hgo with ⟨hcp, hc⟩ | ⟨hcp, hc⟩
  · exact ⟨fun _ => hcp, fun _ => by omega⟩
  · constructor
    · intro h; omega
    · intro h
      rw [hcp] at h
      exact absurd h (by decide)

theorem disc_balance_witness :
    ∃ s, clicks 8 (resetGame ⟨[], PLAYER2, true⟩).1 [3, 3, 4, 2, 3] = some s ∧
      ((countValue s.board PLAYER1 : Int) - (countValue s.board PLAYER2 : Int) = 0 ∨
        (countValue s.board PLAYER1 : Int) - (countValue s.board PLAYER2 : Int) = 1) ∧
      (s.gameOver = false →
        ((countValue s.board PLAYER1 : Int) - (countValue s.board PLAYER2 : Int) = 0 ↔
          s.currentPlayer = PLAYER1)) :=
  disc_balance 8 (by decide) ⟨[], PLAYER2, true⟩ [3, 3, 4, 2, 3] (by decide)

/-! ## Every board read is inside the grid -/

theorem countLoopReads_spec (board : Board) (player : Option Nat) (dr dc : Int) :
    ∀ (fuel : Nat) (r c : Int) (count m : Nat),
      countLoop board player dr dc fuel r c count = some m →
      ∃ reads, countLoopReads board player dr dc fuel r c count = some (m, reads) ∧
        ∀ rc ∈ reads, inGrid rc.1 rc.2 := by
  intro fuel
  induction fuel with
  | zero => intro r c count m h; simp [countLoop] at h
  | succ fuel ih =>
    intro r c count m h
    unfold countLoop at h
    unfold countLoopReads
    by_cases hbounds : r ≥ 0 ∧ r < ROWS ∧ c ≥ 0 ∧ c < COLS
    · by_cases hm : cell board r c = player
      · have hcond : r ≥ 0 ∧ r < ROWS ∧ c ≥ 0 ∧ c < COLS ∧ cell board r c = player :=
          ⟨hbounds.1, hbounds.2.1, hbounds.2.2.1, hbounds.2.2.2, hm⟩
        rw [if_pos hcond] at h
        obtain ⟨reads, hreads, hall⟩ := ih _ _ _ _ h
        rw [if_pos hbounds, if_pos hm, hreads]
        refine ⟨(r, c) :: reads, rfl, ?_⟩
        intro rc hrc
        rcases List.mem_cons.mp hrc with h1 | h1
        · rw [h1]; exact hbounds
        · exact hall rc h1
      · have hcond : ¬ (r ≥ 0 ∧ r < ROWS ∧ c ≥ 0 ∧ c < COLS ∧ cell board r c = player) :=
          fun hc => hm hc.2.2.2.2
        rw [if_neg hcond] at h
        rw [if_pos hbounds, if_neg hm]
        refine ⟨[(r, c)], by rw [Option.some.inj h], ?_⟩
        intro rc hrc
        rw [List.mem_singleton] at hrc
        rw [hrc]; exact hbounds
    · have hcond : ¬ (r ≥ 0 ∧ r < ROWS ∧ c ≥ 0 ∧ c < COLS ∧ cell board r c = player) :=
        fun hc => hbounds ⟨hc.1, hc.2.1, hc.2.2.1, hc.2.2.2.1⟩
      rw [if_neg hcond] at h
      rw [if_neg hbounds]
      exact ⟨[], by rw [Option.some.inj h], fun rc hrc => by cases hrc⟩

theorem checkDirectionReads_spec (fuel : Nat) (hf : 8 ≤ fuel) (board : Board)
    (row col dr dc : Int) (hd : dr ≠ 0 ∨ dc ≠ 0) (hg : inGrid row col) :
    ∃ w reads, checkDirection fuel board row col dr dc = some w ∧
      checkDirectionReads fuel board row col dr dc = some (w, reads) ∧
      ∀ rc ∈ reads, inGrid rc.1 rc.2 := by
  have hd' : -dr ≠ 0 ∨ -dc ≠ 0 := by omega
  obtain ⟨m1, h1⟩ := countLoop_terminates board (cell board row col) dr dc hd fuel hf
    (row + dr) (col + dc) 1
  obtain ⟨m2, h2⟩ := countLoop_terminates board (cell board row col) (-dr) (-dc) hd' fuel hf
    (row - dr) (col - dc) m1
  obtain ⟨reads1, hr1, hall1⟩ := countLoopReads_spec _ _ _ _ _ _ _ _ _ h1
  obtain ⟨reads2, hr2, hall2⟩ := countLoopReads_spec _ _ _ _ _ _ _ _ _ h2
  refine ⟨decide (m2 ≥ 4), (row, col) :: (reads1 ++ reads2), ?_, ?_, ?_⟩
  · simp only [checkDirection, h1, h2]
  · simp only [checkDirectionReads, hr1, hr2]
  · intro rc hrc
    rcases List.mem_cons.mp hrc with h | h
    · rw [h]; exact hg
    · rcases List.mem_append.mp h with h' | h'
      · exact hall1 rc h'
      · exact hall2 rc h'

theorem lazyOrReads_spec (a b : Option (Bool × List (Int × Int))) (wa wb : Bool)
    (ra rb : List (Int × Int)) (ha : a = some (wa, ra)) (hb : b = some (wb, rb))
    (hra : ∀ rc ∈ ra, inGrid rc.1 rc.2) (hrb : ∀ rc ∈ rb, inGrid rc.1 rc.2) :
    ∃ reads, lazyOrReads a b = some (wa || wb, reads) ∧ ∀ rc ∈ reads, inGrid rc.1 rc.2 := by
  subst ha hb
  cases wa with
  | true => exact ⟨ra, rfl, hra⟩
  | false =>
    refine ⟨ra ++ rb, rfl, ?_⟩
    intro rc hrc
    rcases List.mem_append.mp hrc with h | h
    · exact hra rc h
    · exact hrb rc h

theorem checkWinReads_spec (fuel : Nat) (hf : 8 ≤ fuel) (board : Board)
    (row col : Int) (hg : inGrid row col) :
    ∃ w reads, checkWin fuel board row col = some w ∧
      checkWinReads fuel board row col = some (w, reads) ∧
      ∀ rc ∈ reads, inGrid rc.1 rc.2 := by
  obtain ⟨w1, r1, hw1, hr1, ha1⟩ :=
    checkDirectionReads_spec fuel hf board row col 0 1 (by omega) hg
  obtain ⟨w2, r2, hw2, hr2, ha2⟩ :=
    checkDirectionReads_spec fuel hf board row col 1 0 (by omega) hg
  obtain ⟨w3, r3, hw3, hr3, ha3⟩ :=
    checkDirectionReads_spec fuel hf board row col 1 1 (by omega) hg
  obtain ⟨w4, r4, hw4, hr4, ha4⟩ :=
    checkDirectionReads_spec fuel hf board row col 1 (-1) (by omega) hg
  obtain ⟨r34, h34, ha34⟩ := lazyOrReads_spec _ _ w3 w4 r3 r4 hr3 hr4 ha3 ha4
  obtain ⟨r234, h234, ha234⟩ := lazyOrReads_spec _ _ w2 (w3 || w4) r2 r34 hr2 h34 ha2 ha34
  obtain ⟨r1234, h1234, ha1234⟩ :=
    lazyOrReads_spec _ _ w1 (w2 || (w3 || w4)) r1 r234 hr1 h234 ha1 ha234
  refine ⟨w1 || (w2 || (w3 || w4)), r1234, ?_, h1234, ha1234⟩
  simp only [checkWin, hw1, hw2, hw3, hw4, lazyOr_some]

theorem getAvailableRowReads_spec (board : Board) (col : Int) (hc0 : 0 ≤ col)
    (hc1 : col < COLS) (n : Nat) (hn : n ≤ ROWS) :
    (getAvailableRowReads board col n).1 = getAvailableRowFrom board col n ∧
      ∀ rc ∈ (getAvailableRowReads board col n).2, inGrid rc.1 rc.2 := by
  induction n with
  | zero => exact ⟨rfl, fun rc hrc => by cases hrc⟩
  | succ n ih =>
    have hgrid : inGrid (n : Int) col := ⟨by omega, by omega, hc0, hc1⟩
    unfold getAvailableRowReads getAvailableRowFrom
    by_cases hemp : cell board (n : Int) col = some EMPTY
    · rw [if_pos hemp, if_pos hemp]
      refine ⟨rfl, fun rc hrc => ?_⟩
      rw [List.mem_singleton] at hrc
      rw [hrc]; exact hgrid
    · rw [if_neg hemp, if_neg hemp]
      obtain ⟨h1, h2⟩ := ih (by omega)
      refine ⟨h1, fun rc hrc => ?_⟩
      rcases List.mem_cons.mp hrc with h | h
      · rw [h]; exact hgrid
      · exact h2 rc h

theorem checkDrawReads_spec (board : Board) (n : Nat) (hn : n ≤ COLS) :
    (checkDrawReads board n).1 = checkDrawFrom board n ∧
      ∀ rc ∈ (checkDrawReads board n).2, inGrid rc.1 rc.2 := by
  induction n with
  | zero => exact ⟨rfl, fun rc hrc => by cases hrc⟩
  | succ n ih =>
    have hgrid : inGrid (0 : Int) ((COLS : Int) - ((n : Int) + 1)) := by
      refine ⟨le_refl 0, by simp [ROWS], by omega, by omega⟩
    unfold checkDrawReads checkDrawFrom
    by_cases hemp : cell board 0 ((COLS : Int) - ((n : Int) + 1)) = some EMPTY
    · rw [if_pos hemp, if_pos hemp]
      refine ⟨rfl, fun rc hrc => ?_⟩
      rw [List.mem_singleton] at hrc
      rw [hrc]; exact hgrid
    · rw [if_neg hemp, if_neg hemp]
      obtain ⟨h1, h2⟩ := ih (by omega)
      refine ⟨h1, fun rc hrc => ?_⟩
      rcases List.mem_cons.mp hrc with h | h
      · rw [h]; exact hgrid
      · exact h2 rc h

/-- C26: for every 6x7 board and every cell with `0 ≤ row < ROWS` and
`0 ≤ col < COLS`, every board read performed by `checkWin(row, col)`,
`getAvailableRow(col)` and `checkDraw()` is at an index inside the 6x7 grid
(and so reads a cell of the board), and in `handleCellClick` the write
`board[row][col] = currentPlayer` is executed only with `0 ≤ row < ROWS`
(never with the `-1` returned for a full column): a click either leaves the
state as it is or writes at the row of the grid that `getAvailableRow`
returned, and the reads of the `checkWin` call that follows are inside the
grid too. -/
theorem reads_and_writes_in_grid (fuel : Nat) (hf : 8 ≤ fuel) (board : Board)
    (hb : IsBoard board) (row col : Int) (hg : inGrid row col) :
    (∃ w reads, checkWin fuel board row col = some w ∧
      checkWinReads fuel board row col = some (w, reads) ∧
      ∀ rc ∈ reads, inGrid rc.1 rc.2 ∧ ∃ v, cell board rc.1 rc.2 = some v) ∧
    ((getAvailableRowReads board col ROWS).1 = getAvailableRow board col ∧
      ∀ rc ∈ (getAvailableRowReads board col ROWS).2,
        inGrid rc.1 rc.2 ∧ ∃ v, cell board rc.1 rc.2 = some v) ∧
    ((checkDrawReads board COLS).1 = checkDraw board ∧
      ∀ rc ∈ (checkDrawReads board COLS).2,
        inGrid rc.1 rc.2 ∧ ∃ v, cell board rc.1 rc.2 = some v) ∧
    ∀ (currentPlayer : Nat) (gameOver : Bool),
      ∃ s' effects,
        handleCellClick fuel ⟨board, currentPlayer, gameOver⟩ col = some (s', effects) ∧
        ((s' = ⟨board, currentPlayer, gameOver⟩ ∧ effects = []) ∨
          (s'.board = setCell board (getAvailableRow board col) col currentPlayer ∧
            0 ≤ getAvailableRow board col ∧ getAvailableRow board col < ROWS ∧
            ∃ w reads,
              checkWinReads fuel s'.board (getAvailableRow board col) col =
                some (w, reads) ∧
              ∀ rc ∈ reads, inGrid rc.1 rc.2 ∧ ∃ v, cell s'.board rc.1 rc.2 = some v)) := by
  refine ⟨?_, ?_, ?_, ?_⟩
  · obtain ⟨w, reads, h1, h2, h3⟩ := checkWinReads_spec fuel hf board row col hg
    exact ⟨w, reads, h1, h2, fun rc hrc => ⟨h3 rc hrc, cell_of_isBoard hb (h3 rc hrc)⟩⟩
  · obtain ⟨h1, h2⟩ := getAvailableRowReads_spec board col hg.2.2.1 hg.2.2.2 ROWS (le_refl _)
    exact ⟨h1, fun rc hrc => ⟨h2 rc hrc, cell_of_isBoard hb (h2 rc hrc)⟩⟩
  · obtain ⟨h1, h2⟩ := checkDrawReads_spec board COLS (le_refl _)
    exact ⟨h1, fun rc hrc => ⟨h2 rc hrc, cell_of_isBoard hb (h2 rc hrc)⟩⟩
  · intro currentPlayer gameOver
    obtain ⟨s', effects, hres, hcase⟩ :=
      handleCellClick_step fuel hf ⟨board, currentPlayer, gameOver⟩ col
    refine ⟨s', effects, hres, ?_⟩
    rcases hcase with ⟨-, hs, he⟩ | ⟨hacc, hboard, -⟩
    · exact Or.inl ⟨hs, he⟩
    · right
      obtain ⟨h0, h1, -, -⟩ := getAvailableRow_of_ne_neg_one board col hacc.2
      have hb' : IsBoard s'.board := by
        rw [hboard]; exact isBoard_setCell hb _ _ _
      obtain ⟨w, reads, -, h2, h3⟩ := checkWinReads_spec fuel hf s'.board
        (getAvailableRow board col) col ⟨h0, h1, hg.2.2.1, hg.2.2.2⟩
      exact ⟨hboard, h0, h1, w, reads, h2,
        fun rc hrc => ⟨h3 rc hrc, cell_of_isBoard hb' (h3 rc hrc)⟩⟩

theorem reads_and_writes_in_grid_witness :
    (∃ w reads, checkWin 8 diagonalBoard 2 3 = some w ∧
      checkWinReads 8 diagonalBoard 2 3 = some (w, reads) ∧
      ∀ rc ∈ reads, inGrid rc.1 rc.2 ∧ ∃ v, cell diagonalBoard rc.1 rc.2 = some v) ∧
    ((getAvailableRowReads diagonalBoard 3 ROWS).1 = getAvailableRow diagonalBoard 3 ∧
      ∀ rc ∈ (getAvailableRowReads diagonalBoard 3 ROWS).2,
        inGrid rc.1 rc.2 ∧ ∃ v, cell diagonalBoard rc.1 rc.2 = some v) ∧
    ((checkDrawReads diagonalBoard COLS).1 = checkDraw diagonalBoard ∧
      ∀ rc ∈ (checkDrawReads diagonalBoard COLS).2,
        inGrid rc.1 rc.2 ∧ ∃ v, cell diagonalBoard rc.1 rc.2 = some v) ∧
    ∀ (currentPlayer : Nat) (gameOver : Bool),
      ∃ s' effects,
        handleCellClick 8 ⟨diagonalBoard, currentPlayer, gameOver⟩ 3 = some (s', effects) ∧
        ((s' = ⟨diagonalBoard, currentPlayer, gameOver⟩ ∧ effects = []) ∨
          (s'.board = setCell diagonalBoard (getAvailableRow diagonalBoard 3) 3
              currentPlayer ∧
            0 ≤ getAvailableRow diagonalBoard 3 ∧ getAvailableRow diagonalBoard 3 < ROWS ∧
            ∃ w reads,
              checkWinReads 8 s'.board (getAvailableRow diagonalBoard 3) 3 =
                some (w, reads) ∧
              ∀ rc ∈ reads, inGrid rc.1 rc.2 ∧ ∃ v, cell s'.board rc.1 rc.2 = some v)) :=
  reads_and_writes_in_grid 8 (by decide) diagonalBoard (by decide) 2 3 (by decide)

end ConnectFour
